import Mathlib

/-!
# A shallow embedding of the skip list of `SkipList.h`

The C++ class `skip_list<K, V, Comp>` is a pointer graph: two sentinel nodes
(`head`, `tail`) and heap-allocated real nodes, each with an array `forward` of
successor pointers, one per linkage level.  The embedding keeps that graph:

* a pointer is `null`, `head`, `tail` or the address `node id` of a heap cell;
* the heap is a list of cells, `none` marking a cell released by `delete`;
  `new` allocates the next address `heap.length`;
* a `forward` array is a list of pointers; the null array of a default
  constructed node is the empty list, so every index into it is out of bounds;
* every operation returns `Except Fault _`: `Fault.fault` is undefined
  behaviour of the C++ code (null or dangling dereference, index out of
  bounds, indeterminate `update` slot), `Fault.diverge` is a loop that does
  not stop (the traversal loops get as much fuel as there are heap cells, the
  level draw gets the list of values `rand()` still has to give);
* `int` fields are unbounded (`level` is never decremented at 0, so it is a
  natural number; `length` is an integer); overflow would need 2^31 nodes;
* the comparator object `less` and the placeholder `K{0}`, `V{0}` of the
  sentinels are parameters; `==` on keys is decidable equality.
-/

namespace SkipList

/-! ## Data model -/

/-- Node addresses. -/
inductive Ptr where
  | null
  | head
  | tail
  | node (id : Nat)
  deriving DecidableEq, Repr

/-- Ways an operation can fail to return. -/
inductive Fault where
  | fault
  | diverge
  deriving DecidableEq, Repr

/-- The struct `skip_list_node`. -/
structure skip_list_node (K V : Type) where
  level : Nat
  key : K
  value : V
  forward : List Ptr
  deriving DecidableEq, Repr

/-- The data members of `skip_list` together with the heap its pointers refer to. -/
structure skip_list (K V : Type) where
  level : Nat
  length : Int
  head : skip_list_node K V
  tail : skip_list_node K V
  heap : List (Option (skip_list_node K V))
  deriving DecidableEq, Repr

def MAXL : Nat := 32
def P : Nat := 4
def S : Nat := 0xFFFF
def PS : Nat := S / P

variable {K V : Type}

/-- Read `a[i]`; out of bounds is undefined behaviour. -/
def readAt {α : Type} (a : List α) (i : Nat) : Except Fault α :=
  match a[i]? with
  | some x => .ok x
  | none => .error .fault

/-- Write `a[i] = x`; out of bounds is undefined behaviour. -/
def writeAt {α : Type} (a : List α) (i : Nat) (x : α) : Except Fault (List α) :=
  if i < a.length then .ok (a.set i x) else .error .fault

/-- Dereference `*p`. -/
def deref (s : skip_list K V) : Ptr → Except Fault (skip_list_node K V)
  | .head => .ok s.head
  | .tail => .ok s.tail
  | .node id =>
    match s.heap[id]? with
    | some (some n) => .ok n
    | _ => .error .fault
  | .null => .error .fault

/-- Assign `*p = n`. -/
def store (s : skip_list K V) (p : Ptr) (n : skip_list_node K V) :
    Except Fault (skip_list K V) :=
  match p with
  | .head => .ok { s with head := n }
  | .tail => .ok { s with tail := n }
  | .node id =>
    match s.heap[id]? with
    | some (some _) => .ok { s with heap := s.heap.set id (some n) }
    | _ => .error .fault
  | .null => .error .fault

/-- Read `p->forward[i]`. -/
def getForward (s : skip_list K V) (p : Ptr) (i : Nat) : Except Fault Ptr :=
  match deref s p with
  | .error e => .error e
  | .ok n => readAt n.forward i

/-- Assign `p->forward[i] = q`. -/
def setForward (s : skip_list K V) (p : Ptr) (i : Nat) (q : Ptr) :
    Except Fault (skip_list K V) :=
  match deref s p with
  | .error e => .error e
  | .ok n =>
    match writeAt n.forward i q with
    | .error e => .error e
    | .ok f => store s p { n with forward := f }

/-- The default constructor `skip_list_node()`: key and value `0`, level 0, null `forward`. -/
def skip_list_node.mk0 (zeroK : K) (zeroV : V) : skip_list_node K V :=
  { level := 0, key := zeroK, value := zeroV, forward := [] }

/-- The constructor `skip_list_node(k, v, l, nxt)`. -/
def skip_list_node.mkNode (k : K) (v : V) (l : Nat) (nxt : Ptr) : skip_list_node K V :=
  { level := l, key := k, value := v, forward := List.replicate (l + 1) nxt }

/-- The constructors of `skip_list` followed by `init()`. -/
def init (zeroK : K) (zeroV : V) : skip_list K V :=
  { level := 0
    length := 0
    head := { skip_list_node.mk0 zeroK zeroV with forward := List.replicate (MAXL + 1) Ptr.tail }
    tail := skip_list_node.mk0 zeroK zeroV
    heap := [] }

/-! ## Operations -/

/-- The loop of `randomLevel`: `while ((rand() & S) < PS) ++lv`. -/
def randomLevelLoop : List Nat → Nat → Option (Nat × List Nat)
  | [], _ => none
  | r :: rest, lv => if (r &&& S) < PS then randomLevelLoop rest (lv + 1) else some (lv, rest)

/-- The function `randomLevel` over the values `rand()` is going to return; gives the level and
the values left, or `none` when the loop has not stopped within the given values. -/
def randomLevel (draws : List Nat) : Option (Nat × List Nat) :=
  match randomLevelLoop draws 1 with
  | none => none
  | some (lv, rest) => some (if MAXL > lv then lv else MAXL, rest)

/-- The inner loop of the internal `find`:
`while (p->forward[i] != tail && less(p->forward[i]->key, key)) p = p->forward[i]`. -/
def walk (less : K → K → Bool) (s : skip_list K V) (key : K) (i : Nat) :
    Nat → Ptr → Except Fault Ptr
  | 0, _ => .error .diverge
  | fuel + 1, p =>
    match getForward s p i with
    | .error e => .error e
    | .ok q =>
      if q = Ptr.tail then .ok p
      else
        match deref s q with
        | .error e => .error e
        | .ok qn => if less qn.key key then walk less s key i fuel q else .ok p

/-- The outer loop of the internal `find`, `for (int i = level; i >= 0; i--)`, with `n = i + 1`. -/
def findLoop (less : K → K → Bool) (s : skip_list K V) (key : K) :
    Nat → Ptr → List (Option Ptr) → Except Fault (Ptr × List (Option Ptr))
  | 0, p, update => .ok (p, update)
  | i + 1, p, update =>
    match walk less s key i (s.heap.length + 1) p with
    | .error e => .error e
    | .ok p1 =>
      match writeAt update i (some p1) with
      | .error e => .error e
      | .ok update1 => findLoop less s key i p1 update1

/-- The internal `find(key, update)`; the array `update` of the caller starts indeterminate. -/
def find (less : K → K → Bool) (s : skip_list K V) (key : K) :
    Except Fault (Ptr × List (Option Ptr)) :=
  match findLoop less s key (s.level + 1) Ptr.head (List.replicate (MAXL + 1) none) with
  | .error e => .error e
  | .ok (p, update) =>
    match getForward s p 0 with
    | .error e => .error e
    | .ok q => .ok (q, update)

/-- The splice loop of `insert`, `for (int i = lv; i >= 0; --i)`, with `n = i + 1`. -/
def spliceLoop (update : List (Option Ptr)) (newNode : Ptr) :
    Nat → skip_list K V → Except Fault (skip_list K V)
  | 0, s => .ok s
  | i + 1, s =>
    match readAt update i with
    | .error e => .error e
    | .ok none => .error .fault
    | .ok (some p) =>
      match getForward s p i with
      | .error e => .error e
      | .ok q =>
        match setForward s newNode i q with
        | .error e => .error e
        | .ok s1 =>
          match setForward s1 p i newNode with
          | .error e => .error e
          | .ok s2 => spliceLoop update newNode i s2

/-- The method `insert(key, value)`; `draws` are the values `rand()` is going to return. -/
def insert [DecidableEq K] (less : K → K → Bool) (s : skip_list K V) (key : K) (value : V)
    (draws : List Nat) : Except Fault (skip_list K V × List Nat) :=
  match find less s key with
  | .error e => .error e
  | .ok (p, update) =>
    match deref s p with
    | .error e => .error e
    | .ok pn =>
      if pn.key = key then
        match store s p { pn with value := value } with
        | .error e => .error e
        | .ok s1 => .ok (s1, draws)
      else
        match randomLevel draws with
        | none => .error .diverge
        | some (lv0, rest) =>
          let raise := decide (lv0 > s.level)
          let level1 := if raise then s.level + 1 else s.level
          let lv := if raise then s.level + 1 else lv0
          match (if raise then writeAt update lv (some Ptr.head) else .ok update) with
          | .error e => .error e
          | .ok update1 =>
            let newNode := Ptr.node s.heap.length
            let s1 : skip_list K V :=
              { s with level := level1
                       heap := s.heap ++ [some (skip_list_node.mkNode key value lv Ptr.null)] }
            match spliceLoop update1 newNode (lv + 1) s1 with
            | .error e => .error e
            | .ok s2 => .ok ({ s2 with length := s2.length + 1 }, rest)

/-- The unlink loop of `erase`, `for (int i = 0; i <= p->level; ++i)`, with `n` iterations left. -/
def unlinkLoop (update : List (Option Ptr)) (p : Ptr) :
    Nat → Nat → skip_list K V → Except Fault (skip_list K V)
  | 0, _, s => .ok s
  | n + 1, i, s =>
    match readAt update i with
    | .error e => .error e
    | .ok none => .error .fault
    | .ok (some u) =>
      match getForward s p i with
      | .error e => .error e
      | .ok q =>
        match setForward s u i q with
        | .error e => .error e
        | .ok s1 => unlinkLoop update p n (i + 1) s1

/-- The statement `delete p`: releases a heap node; the sentinels are data members of the
embedding, releasing one is a fault. -/
def delete (s : skip_list K V) : Ptr → Except Fault (skip_list K V)
  | .node id =>
    match s.heap[id]? with
    | some (some _) => .ok { s with heap := s.heap.set id none }
    | _ => .error .fault
  | _ => .error .fault

/-- The shrink loop of `erase`: `while (level > 0 && head->forward[level] == tail) --level`. -/
def shrinkLoop (s : skip_list K V) : Nat → Except Fault Nat
  | 0 => .ok 0
  | l + 1 =>
    match getForward s Ptr.head (l + 1) with
    | .error e => .error e
    | .ok q => if q = Ptr.tail then shrinkLoop s l else .ok (l + 1)

/-- The method `erase(key)`. -/
def erase [DecidableEq K] (less : K → K → Bool) (s : skip_list K V) (key : K) :
    Except Fault (Bool × skip_list K V) :=
  match find less s key with
  | .error e => .error e
  | .ok (p, update) =>
    match deref s p with
    | .error e => .error e
    | .ok pn =>
      if pn.key ≠ key then .ok (false, s)
      else
        match unlinkLoop update p (pn.level + 1) 0 s with
        | .error e => .error e
        | .ok s1 =>
          match delete s1 p with
          | .error e => .error e
          | .ok s2 =>
            match shrinkLoop s2 s2.level with
            | .error e => .error e
            | .ok level1 => .ok (true, { s2 with level := level1, length := s2.length - 1 })

/-- The public `find(key)`: the position of the node, or `end()` (the tail). -/
def findIter [DecidableEq K] (less : K → K → Bool) (s : skip_list K V) (key : K) :
    Except Fault Ptr :=
  match find less s key with
  | .error e => .error e
  | .ok (p, _) =>
    if p = Ptr.tail then .ok Ptr.tail
    else
      match deref s p with
      | .error e => .error e
      | .ok pn => if pn.key ≠ key then .ok Ptr.tail else .ok p

/-- The method `count(key)`. -/
def count [DecidableEq K] (less : K → K → Bool) (s : skip_list K V) (key : K) :
    Except Fault Bool :=
  match find less s key with
  | .error e => .error e
  | .ok (p, _) =>
    if p = Ptr.tail then .ok false
    else
      match deref s p with
      | .error e => .error e
      | .ok pn => .ok (decide (key = pn.key))

/-- The method `begin()`. -/
def begin (s : skip_list K V) : Except Fault Ptr := getForward s Ptr.head 0

/-- The method `end()`. -/
def endIter (_s : skip_list K V) : Ptr := Ptr.tail

/-- The caller's loop `for (it = begin(); it != end(); it++)` collecting `(it->key, it->value)`. -/
def iterFrom (s : skip_list K V) : Nat → Ptr → Except Fault (List (K × V))
  | 0, _ => .error .diverge
  | fuel + 1, p =>
    if p = endIter s then .ok []
    else
      match deref s p with
      | .error e => .error e
      | .ok n =>
        match getForward s p 0 with
        | .error e => .error e
        | .ok q =>
          match iterFrom s fuel q with
          | .error e => .error e
          | .ok l => .ok ((n.key, n.value) :: l)

/-- Full iteration from `begin()` to `end()`. -/
def toList (s : skip_list K V) : Except Fault (List (K × V)) :=
  match begin s with
  | .error e => .error e
  | .ok p => iterFrom s (s.heap.length + 1) p

/-! ## Abstract view used in the proofs

A well-formed pointer graph is described by the list of its cells in level-0 order, the head
sentinel first.  A cell is linked at the levels `lo ≤ i ≤ lvl`; `lo` is 0 except for the one node
that `insert` is linking in or `erase` is unlinking. -/

/-- One node of the graph as the proofs see it. -/
structure Cell (K V : Type) where
  ptr : Ptr
  lo : Nat
  lvl : Nat
  key : K
  val : V

/-- The cell is linked at level `i`. -/
def Cell.vis (c : Cell K V) (i : Nat) : Bool := decide (c.lo ≤ i) && decide (i ≤ c.lvl)

/-- The first node linked at level `i` among `l`, or `tail`. -/
def nextAt (i : Nat) (l : List (Cell K V)) : Ptr :=
  match l.find? (fun c => c.vis i) with
  | some c => c.ptr
  | none => Ptr.tail

/-- The heap holds the node of cell `c`, whose successors are read off `rest`. -/
def CellOK (s : skip_list K V) (c : Cell K V) (rest : List (Cell K V)) : Prop :=
  ∃ n, deref s c.ptr = .ok n ∧ (c.ptr ≠ Ptr.head → n.level = c.lvl) ∧ n.key = c.key ∧
    n.value = c.val ∧ n.forward.length = c.lvl + 1 ∧
    ∀ k, c.lo ≤ k → k ≤ c.lvl → n.forward[k]? = some (nextAt k rest)

/-- Every cell of the list is represented in the heap. -/
def Rep (s : skip_list K V) : List (Cell K V) → Prop
  | [] => True
  | c :: rest => CellOK s c rest ∧ Rep s rest

/-- The cell of the head sentinel. -/
def headCell (s : skip_list K V) : Cell K V :=
  { ptr := Ptr.head, lo := 0, lvl := MAXL, key := s.head.key, val := s.head.value }

/-- The cells are heap nodes, fully linked, no taller than `level`. -/
def RealCells (level : Nat) (L : List (Cell K V)) : Prop :=
  ∀ c ∈ L, (∃ id, c.ptr = Ptr.node id) ∧ c.lo = 0 ∧ c.lvl ≤ level

/-- The structural invariant: the state is the skip list with real cells `L`. -/
structure Inv (zeroK : K) (s : skip_list K V) (L : List (Cell K V)) : Prop where
  repr : Rep s (headCell s :: L)
  real : RealCells s.level L
  nodup : (L.map Cell.ptr).Nodup
  level_le : s.level ≤ MAXL
  length_eq : s.length = L.length
  tail_forward : s.tail.forward = []
  tail_key : s.tail.key = zeroK

/-- The pointer `p` is the last cell of `pre` linked at level `i`. -/
def LastVis (i : Nat) (pre : List (Cell K V)) (p : Ptr) : Prop :=
  ∃ pre1 u mid, pre = pre1 ++ u :: mid ∧ u.ptr = p ∧ u.vis i = true ∧ ∀ d ∈ mid, d.vis i = false

/-- The first cell of `post` linked at level `i`, if any, is not less than `key`. -/
def Blocked (less : K → K → Bool) (key : K) (i : Nat) (post : List (Cell K V)) : Prop :=
  ∀ e, post.find? (fun c => c.vis i) = some e → less e.key key = false

/-- The entries an iteration over the cells yields. -/
def entries (L : List (Cell K V)) : List (K × V) := L.map (fun c => (c.key, c.val))

/-- A strict weak order, as the C++ standard asks of a comparator. -/
structure StrictWeakOrder (less : K → K → Bool) : Prop where
  irrefl : ∀ a, less a a = false
  trans : ∀ a b c, less a b = true → less b c = true → less a c = true
  incomp_trans : ∀ a b c, less a b = false → less b a = false → less b c = false →
    less c b = false → (less a c = false ∧ less c a = false)

/-- Comparator ties are exactly equal keys. -/
def TiesAreEqual (less : K → K → Bool) : Prop :=
  ∀ a b, less a b = false → less b a = false → a = b

/-- States reachable from a freshly constructed list by `insert` and `erase` calls that return. -/
inductive Reachable [DecidableEq K] (less : K → K → Bool) (zeroK : K) (zeroV : V) :
    skip_list K V → Prop where
  | fresh : Reachable less zeroK zeroV (init zeroK zeroV)
  | insert {s s1 : skip_list K V} (key : K) (value : V) (draws rest : List Nat) :
      Reachable less zeroK zeroV s → insert less s key value draws = .ok (s1, rest) →
      Reachable less zeroK zeroV s1
  | erase {s s1 : skip_list K V} (key : K) (b : Bool) :
      Reachable less zeroK zeroV s → erase less s key = .ok (b, s1) →
      Reachable less zeroK zeroV s1

/-- What the internal `find` returns in a well-formed state with cells `L`: the cells split as
`A ++ B`, the result is the first node of `B` (or `tail`), and `update[j]` is the last node of
`head :: A` linked at level `j`. -/
structure FindRes (less : K → K → Bool) (key : K) (s : skip_list K V)
    (L A B : List (Cell K V)) (U : List (Option Ptr)) : Prop where
  split : L = A ++ B
  find_eq : find less s key = .ok (nextAt 0 B, U)
  len : U.length = MAXL + 1
  upd : ∀ j, j ≤ s.level → ∃ p, U[j]? = some (some p) ∧ LastVis j (headCell s :: A) p
  blocked : ∀ j, j ≤ s.level → Blocked less key j B
  last_less : ∀ A0 a, A = A0 ++ [a] → less a.key key = true

/-- The key `p->key` of the node `find` returns: the first cell, or the placeholder of `tail`. -/
def firstKey (zeroK : K) : List (Cell K V) → K
  | [] => zeroK
  | b :: _ => b.key

/-- The cell of the node `insert` allocates when `randomLevel` has returned `lv0`. -/
def newCell (s : skip_list K V) (key : K) (value : V) (lv0 : Nat) : Cell K V :=
  { ptr := Ptr.node s.heap.length, lo := 0,
    lvl := if lv0 > s.level then s.level + 1 else lv0, key := key, val := value }

/-- The keys of the cells, in order. -/
def keys (L : List (Cell K V)) : List K := L.map Cell.key

/-- No later key is less than an earlier one. -/
def SortedKeys (less : K → K → Bool) (ks : List K) : Prop :=
  ks.Pairwise (fun a b => less b a = false)

/-- Every earlier key is less than every later one. -/
def StrictSorted (less : K → K → Bool) (ks : List K) : Prop :=
  ks.Pairwise (fun a b => less a b = true)

/-- What `count` answers when `find` returns the first node of `B`. -/
def countCells [DecidableEq K] (key : K) : List (Cell K V) → Bool
  | [] => false
  | b :: _ => decide (key = b.key)

/-- What the public `find` answers when the internal one returns the first node of `B`. -/
def findCells [DecidableEq K] (key : K) : List (Cell K V) → Ptr
  | [] => Ptr.tail
  | b :: _ => if b.key ≠ key then Ptr.tail else b.ptr

/-! ## Behaviour on the iterated entries

What the operations do to the sequence of `(key, value)` pairs an iteration yields, as list
functions that take no random level. -/

/-- The entries `find` walks past: the leading ones whose key is less than `key`. -/
def below (less : K → K → Bool) (key : K) (l : List (K × V)) : List (K × V) :=
  l.takeWhile (fun e => less e.1 key)

/-- The entries from the node `find` returns onwards. -/
def notBelow (less : K → K → Bool) (key : K) (l : List (K × V)) : List (K × V) :=
  l.dropWhile (fun e => less e.1 key)

/-- The key `p->key` that `insert`, `erase` compare with `key`: that of the first entry not
below `key`, or the placeholder key of `tail`. -/
def specFirst (less : K → K → Bool) (zeroK : K) (l : List (K × V)) (key : K) : K :=
  match notBelow less key l with
  | [] => zeroK
  | e :: _ => e.1

/-- The entries after `insert(key, value)`. -/
def specInsert [DecidableEq K] (less : K → K → Bool) (zeroK : K) (l : List (K × V))
    (key : K) (value : V) : List (K × V) :=
  match notBelow less key l with
  | [] => if zeroK = key then l else below less key l ++ [(key, value)]
  | e :: rest =>
    if e.1 = key then below less key l ++ (e.1, value) :: rest
    else below less key l ++ (key, value) :: e :: rest

/-- The result of `erase(key)` and the entries after it. -/
def specErase [DecidableEq K] (less : K → K → Bool) (zeroK : K) (l : List (K × V))
    (key : K) : Except Fault (Bool × List (K × V)) :=
  match notBelow less key l with
  | [] => if zeroK = key then .error .fault else .ok (false, l)
  | e :: rest => if e.1 = key then .ok (true, below less key l ++ rest) else .ok (false, l)

/-- The result of `count(key)`. -/
def specCount [DecidableEq K] (less : K → K → Bool) (l : List (K × V)) (key : K) : Bool :=
  match notBelow less key l with
  | [] => false
  | e :: _ => decide (key = e.1)

/-! ## Call sequences -/

/-- The loop test of `randomLevel` fails on the value `r`, so the loop stops. -/
def stops (r : Nat) : Bool := !decide ((r &&& S) < PS)

/-- The values `rand()` is going to return let at least `n` level draws stop. -/
def Enough (n : Nat) (draws : List Nat) : Prop := n ≤ draws.countP stops

instance (n : Nat) (draws : List Nat) : Decidable (Enough n draws) :=
  inferInstanceAs (Decidable (n ≤ draws.countP stops))

/-- A call of a public method. -/
inductive Op (K V : Type) where
  | insert (key : K) (value : V)
  | erase (key : K)
  | count (key : K)
  | find (key : K)

/-- What the caller sees of a call: nothing, the boolean returned, or whether the position
returned is a node rather than `end()`. -/
inductive Obs where
  | done
  | bool (b : Bool)
  | found (b : Bool)
  deriving DecidableEq, Repr

/-- One call. -/
def step [DecidableEq K] (less : K → K → Bool) (s : skip_list K V) (draws : List Nat) :
    Op K V → Except Fault (Obs × skip_list K V × List Nat)
  | .insert key value =>
    match insert less s key value draws with
    | .error e => .error e
    | .ok (s1, rest) => .ok (Obs.done, s1, rest)
  | .erase key =>
    match erase less s key with
    | .error e => .error e
    | .ok (b, s1) => .ok (Obs.bool b, s1, draws)
  | .count key =>
    match count less s key with
    | .error e => .error e
    | .ok b => .ok (Obs.bool b, s, draws)
  | .find key =>
    match findIter less s key with
    | .error e => .error e
    | .ok p => .ok (Obs.found (decide (p ≠ endIter s)), s, draws)

/-- A sequence of calls. -/
def run [DecidableEq K] (less : K → K → Bool) :
    skip_list K V → List Nat → List (Op K V) → Except Fault (List Obs × skip_list K V × List Nat)
  | s, draws, [] => .ok ([], s, draws)
  | s, draws, op :: ops =>
    match step less s draws op with
    | .error e => .error e
    | .ok (o, s1, rest) =>
      match run less s1 rest ops with
      | .error e => .error e
      | .ok (os, s2, rest2) => .ok (o :: os, s2, rest2)

/-- Everything a caller can observe of a run: the results of the calls, then `length` and the
iteration from `begin()` to `end()`. -/
def observe (r : Except Fault (List Obs × skip_list K V × List Nat)) :
    Except Fault (List Obs × Int × List (K × V)) :=
  match r with
  | .error e => .error e
  | .ok (os, s, _) =>
    match toList s with
    | .error e => .error e
    | .ok l => .ok (os, s.length, l)

/-- One call on the entries. -/
def specStep [DecidableEq K] (less : K → K → Bool) (zeroK : K) (l : List (K × V)) :
    Op K V → Except Fault (Obs × List (K × V))
  | .insert key value => .ok (Obs.done, specInsert less zeroK l key value)
  | .erase key =>
    match specErase less zeroK l key with
    | .error e => .error e
    | .ok (b, l1) => .ok (Obs.bool b, l1)
  | .count key => .ok (Obs.bool (specCount less l key), l)
  | .find key => .ok (Obs.found (specCount less l key), l)

/-- A sequence of calls on the entries. -/
def specRun [DecidableEq K] (less : K → K → Bool) (zeroK : K) :
    List (K × V) → List (Op K V) → Except Fault (List Obs × List (K × V))
  | l, [] => .ok ([], l)
  | l, op :: ops =>
    match specStep less zeroK l op with
    | .error e => .error e
    | .ok (o, l1) =>
      match specRun less zeroK l1 ops with
      | .error e => .error e
      | .ok (os, l2) => .ok (o :: os, l2)

/-- What a caller observes of a run on the entries. -/
def specObserve (r : Except Fault (List Obs × List (K × V))) :
    Except Fault (List Obs × Int × List (K × V)) :=
  match r with
  | .error e => .error e
  | .ok (os, l) => .ok (os, (l.length : Int), l)

/-! ## The comparators and call sequences of `main.cpp` -/

/-- The default comparator `Less<int>`: `a < b`. -/
def Less (a b : Int) : Bool := decide (a < b)

/-- The functor `cmp` of the second block of `main`: `a > b`. -/
def cmpGreater (a b : Int) : Bool := decide (a > b)

/-- The lambda `cmp` of the first block of `main`: `a.length() < b.length()`. -/
def cmpLength (a b : String) : Bool := decide (a.length < b.length)

/-- The placeholder `K{0}` for `K = std::string`: the string of the one character `'\0'`. -/
def zeroString : String := "\x00"

/-- The state a run ends in (`dflt` when it does not return). -/
def stateOf (r : Except Fault (List Obs × skip_list K V × List Nat)) (dflt : skip_list K V) :
    skip_list K V :=
  match r with
  | .ok (_, s, _) => s
  | .error _ => dflt

/-- The calls of the first block of `main`: three strings ordered by length. -/
def mainLengthOps : List (Op String Int) :=
  [Op.insert "aab" 1321, Op.insert "hello" 54342, Op.insert "world" 544]

/-- Values of `rand()` on which `randomLevel` returns 1, 2, 1, with one value left. -/
def mainLengthDraws : List Nat := [65535, 0, 65535, 65535, 65535]

/-- The state after the first block of `main`. -/
def mainLength : skip_list String Int :=
  stateOf (run cmpLength (init zeroString 0) mainLengthDraws mainLengthOps) (init zeroString 0)

/-- The calls of the third block of `main`: the keys 1, 1, 4, 5, 1, 4 in the default order. -/
def mainDefaultOps : List (Op Int Int) :=
  [Op.insert 1 3, Op.insert 1 3, Op.insert 4 3, Op.insert 5 3, Op.insert 1 3, Op.insert 4 3]

/-- Values of `rand()` on which `randomLevel` returns 2, 1, 3, with one value left. -/
def mainDefaultDraws : List Nat := [0, 65535, 65535, 0, 0, 65535, 65535]

/-- The state after the third block of `main`. -/
def mainDefault : skip_list Int Int :=
  stateOf (run Less (init 0 0) mainDefaultDraws mainDefaultOps) (init 0 0)

/-! ## Level chains -/

/-- The nodes from `p` on along the `forward[i]` links up to `tail`, each with its address. -/
def chainFrom (s : skip_list K V) (i : Nat) :
    Nat → Ptr → Except Fault (List (Ptr × skip_list_node K V))
  | 0, _ => .error .diverge
  | fuel + 1, p =>
    if p = Ptr.tail then .ok []
    else
      match deref s p with
      | .error e => .error e
      | .ok n =>
        match readAt n.forward i with
        | .error e => .error e
        | .ok q =>
          match chainFrom s i fuel q with
          | .error e => .error e
          | .ok l => .ok ((p, n) :: l)

/-- The chain of level `i`: from `head.forward[i]` along the `forward[i]` links to `tail`. -/
def chain (s : skip_list K V) (i : Nat) : Except Fault (List (Ptr × skip_list_node K V)) :=
  match getForward s Ptr.head i with
  | .error e => .error e
  | .ok p => chainFrom s i (s.heap.length + 1) p

/-- The node at address `p` (that of `tail` when `p` cannot be dereferenced). -/
def nodeAt (s : skip_list K V) (p : Ptr) : skip_list_node K V :=
  match deref s p with
  | .ok n => n
  | .error _ => s.tail

/-- A cell as a chain shows it: its address and its node. -/
def shown (s : skip_list K V) (c : Cell K V) : Ptr × skip_list_node K V :=
  (c.ptr, nodeAt s c.ptr)

/-- The first node of a chain whose key is not less than `key`, or `tail`. -/
def firstNotLess (less : K → K → Bool) (key : K) (c : List (Ptr × skip_list_node K V)) : Ptr :=
  match c.find? (fun e => !less e.2.key key) with
  | some e => e.1
  | none => Ptr.tail

/-- The last node of a chain whose key is less than `key`, or `head`. -/
def lastLess (less : K → K → Bool) (key : K) (c : List (Ptr × skip_list_node K V)) : Ptr :=
  match (c.filter (fun e => less e.2.key key)).getLast? with
  | some e => e.1
  | none => Ptr.head

/-- The largest `level` field among the nodes of a chain, 0 for the empty chain. -/
def maxLevel (c : List (Ptr × skip_list_node K V)) : Nat :=
  (c.map (fun e => e.2.level)).foldr max 0

/-- The invariant of the levels: every real node has level at least 1, and the structure-wide
level is that of the tallest node, 0 for the empty list. -/
def LevelInv (s : skip_list K V) (L : List (Cell K V)) : Prop :=
  (∀ c ∈ L, 1 ≤ c.lvl) ∧ (L = [] → s.level = 0) ∧ (L ≠ [] → ∃ c ∈ L, c.lvl = s.level)

/-! # Proofs

First the heap: how `deref`, `store` and the two relinking steps act on a represented list of
cells.  Then the internal `find`, the loops of `insert` and `erase`, the structural invariant
`Inv`, the order of the keys, the operations as functions of the iterated entries, and the
statements about the public contract.  After those come the chains of the upper levels, the
levels of reachable states, the level draws, and what `find` returns in terms of the chains. -/

/-! ## Arrays and the heap -/

theorem readAt_eq_ok {α : Type} {a : List α} {i : Nat} {x : α} (h : a[i]? = some x) :
    readAt a i = .ok x := by
  simp [readAt, h]

theorem writeAt_eq_ok {α : Type} {a : List α} {i : Nat} (x : α) (h : i < a.length) :
    writeAt a i x = .ok (a.set i x) := by
  simp [writeAt, h]

theorem deref_store {s s1 : skip_list K V} {p : Ptr} {n : skip_list_node K V}
    (h : store s p n = .ok s1) (q : Ptr) :
    deref s1 q = if q = p then .ok n else deref s q := by
  cases p with
  | null => simp [store] at h
  | head =>
    simp only [store, Except.ok.injEq] at h
    subst h
    cases q <;> simp [deref]
  | tail =>
    simp only [store, Except.ok.injEq] at h
    subst h
    cases q <;> simp [deref]
  | node id =>
    simp only [store] at h
    split at h
    · rename_i m hm
      simp only [Except.ok.injEq] at h
      subst h
      have hlt : id < s.heap.length := by
        by_contra hc
        rw [List.getElem?_eq_none (by omega)] at hm
        exact absurd hm (by simp)
      cases q with
      | null => simp [deref]
      | head => simp [deref]
      | tail => simp [deref]
      | node j =>
        by_cases hj : j = id
        · subst hj
          simp [deref, List.getElem?_set_self, hlt]
        · have hne : id ≠ j := fun e => hj e.symm
          simp [deref, List.getElem?_set_ne hne, hj]
    · simp at h

theorem store_fields {s s1 : skip_list K V} {p : Ptr} {n : skip_list_node K V}
    (h : store s p n = .ok s1) :
    s1.level = s.level ∧ s1.length = s.length ∧ s1.heap.length = s.heap.length ∧
    (p ≠ Ptr.head → s1.head = s.head) ∧ (p ≠ Ptr.tail → s1.tail = s.tail) := by
  cases p with
  | null => simp [store] at h
  | head => simp only [store, Except.ok.injEq] at h; subst h; simp
  | tail => simp only [store, Except.ok.injEq] at h; subst h; simp
  | node id =>
    simp only [store] at h
    split at h
    · simp only [Except.ok.injEq] at h; subst h; simp
    · simp at h

theorem store_ok_of_deref {s : skip_list K V} {p : Ptr} {m : skip_list_node K V}
    (h : deref s p = .ok m) (n : skip_list_node K V) : ∃ s1, store s p n = .ok s1 := by
  cases p with
  | null => simp [deref] at h
  | head => exact ⟨_, rfl⟩
  | tail => exact ⟨_, rfl⟩
  | node id =>
    simp only [deref] at h
    split at h
    · rename_i m1 hm
      exact ⟨{ s with heap := s.heap.set id (some n) }, by simp [store, hm]⟩
    · simp at h

/-! ## Successors in a list of cells -/

theorem nextAt_nil (i : Nat) : nextAt i ([] : List (Cell K V)) = Ptr.tail := rfl

theorem nextAt_cons_vis {i : Nat} {c : Cell K V} (l : List (Cell K V)) (h : c.vis i = true) :
    nextAt i (c :: l) = c.ptr := by
  simp [nextAt, List.find?_cons, h]

theorem nextAt_cons_invis {i : Nat} {c : Cell K V} (l : List (Cell K V)) (h : c.vis i = false) :
    nextAt i (c :: l) = nextAt i l := by
  simp [nextAt, List.find?_cons, h]

theorem nextAt_append_invis {i : Nat} {m : List (Cell K V)} (l : List (Cell K V))
    (h : ∀ d ∈ m, d.vis i = false) : nextAt i (m ++ l) = nextAt i l := by
  induction m with
  | nil => rfl
  | cons d m ih =>
    rw [List.cons_append, nextAt_cons_invis _ (h d (List.mem_cons_self _ _))]
    exact ih (fun e he => h e (List.mem_cons_of_mem _ he))

theorem nextAt_append_congr {i : Nat} (m : List (Cell K V)) {l1 l2 : List (Cell K V)}
    (h : nextAt i l1 = nextAt i l2) : nextAt i (m ++ l1) = nextAt i (m ++ l2) := by
  induction m with
  | nil => exact h
  | cons d m ih =>
    by_cases hv : d.vis i = true
    · rw [List.cons_append, List.cons_append, nextAt_cons_vis _ hv, nextAt_cons_vis _ hv]
    · have hv2 : d.vis i = false := by simpa using hv
      rw [List.cons_append, List.cons_append, nextAt_cons_invis _ hv2, nextAt_cons_invis _ hv2]
      exact ih

/-! ## Representation -/

theorem Rep_append {s : skip_list K V} {m r : List (Cell K V)} (h : Rep s (m ++ r)) :
    Rep s r := by
  induction m with
  | nil => exact h
  | cons d m ih => exact ih h.2

theorem Rep_split {s : skip_list K V} {pre post : List (Cell K V)} {c : Cell K V}
    (h : Rep s (pre ++ c :: post)) : CellOK s c post :=
  (Rep_append h).1

theorem CellOK_congr {s s1 : skip_list K V} {c : Cell K V} {r r1 : List (Cell K V)}
    (hd : deref s1 c.ptr = deref s c.ptr)
    (hn : ∀ k, c.vis k = true → nextAt k r1 = nextAt k r) (h : CellOK s c r) :
    CellOK s1 c r1 := by
  obtain ⟨n, h1, h2, h3, h4, h5, h6⟩ := h
  refine ⟨n, hd.trans h1, h2, h3, h4, h5, ?_⟩
  intro k hk1 hk2
  rw [h6 k hk1 hk2, hn k (by simp [Cell.vis, hk1, hk2])]

/-- Frame rule: cells whose nodes are untouched stay represented when the list behind them
changes only at levels they are not linked at. -/
theorem Rep_frame {s s1 : skip_list K V} (Q : Nat → Prop) {m r r1 : List (Cell K V)}
    (h : Rep s (m ++ r)) (hd : ∀ d ∈ m, deref s1 d.ptr = deref s d.ptr)
    (hq : ∀ d ∈ m, ∀ k, d.vis k = true → Q k)
    (hn : ∀ k, Q k → nextAt k r1 = nextAt k r) (h1 : Rep s1 r1) : Rep s1 (m ++ r1) := by
  induction m with
  | nil => exact h1
  | cons d m ih =>
    refine ⟨?_, ih h.2 (fun e he => hd e (List.mem_cons_of_mem _ he))
      (fun e he => hq e (List.mem_cons_of_mem _ he))⟩
    refine CellOK_congr (hd d (List.mem_cons_self _ _)) ?_ h.1
    intro k hk
    exact nextAt_append_congr m (hn k (hq d (List.mem_cons_self _ _) k hk))

theorem Rep_congr {s s1 : skip_list K V} {l : List (Cell K V)}
    (h : Rep s l) (hd : ∀ d ∈ l, deref s1 d.ptr = deref s d.ptr) : Rep s1 l := by
  have h0 : Rep s (l ++ []) := by simpa using h
  have : Rep s1 (l ++ []) :=
    Rep_frame (fun _ => True) h0 hd (fun _ _ _ _ => trivial) (fun _ _ => rfl)
      (by simp [Rep] : Rep s1 [])
  simpa using this

theorem setForward_ok {s : skip_list K V} {p : Ptr} {n : skip_list_node K V} {i : Nat}
    (q : Ptr) (h : deref s p = .ok n) (hi : i < n.forward.length) :
    ∃ s1, setForward s p i q = .ok s1 ∧
      (∀ r, deref s1 r = if r = p then .ok { n with forward := n.forward.set i q } else deref s r) ∧
      s1.level = s.level ∧ s1.length = s.length ∧ s1.heap.length = s.heap.length ∧
      (p ≠ Ptr.head → s1.head = s.head) ∧ (p ≠ Ptr.tail → s1.tail = s.tail) := by
  obtain ⟨s1, hs1⟩ := store_ok_of_deref h { n with forward := n.forward.set i q }
  refine ⟨s1, ?_, fun r => deref_store hs1 r, ?_⟩
  · simp [setForward, h, writeAt, hi, hs1]
  · exact store_fields hs1

theorem getForward_of_CellOK {s : skip_list K V} {c : Cell K V} {r : List (Cell K V)} {i : Nat}
    (h : CellOK s c r) (hv : c.vis i = true) : getForward s c.ptr i = .ok (nextAt i r) := by
  obtain ⟨n, h1, _, _, _, _, h6⟩ := h
  simp only [Cell.vis, Bool.and_eq_true, decide_eq_true_eq] at hv
  simp [getForward, h1, readAt, h6 i hv.1 hv.2]

theorem Rep_relink {s s2 : skip_list K V} {pre1 mid post : List (Cell K V)} {u c : Cell K V}
    (c1 : Cell K V) {i : Nat} {nu : skip_list_node K V}
    (hR : Rep s (pre1 ++ u :: (mid ++ c :: post)))
    (hu : u.vis i = true) (hmid : ∀ d ∈ mid, d.vis i = false)
    (hptr : c1.ptr = c.ptr) (hvis : ∀ k, k ≠ i → c1.vis k = c.vis k)
    (hdu : deref s u.ptr = .ok nu)
    (hd2u : deref s2 u.ptr =
      .ok { nu with forward := nu.forward.set i (nextAt i (c1 :: post)) })
    (hd2 : ∀ d, d ∈ pre1 ∨ d ∈ mid ∨ d ∈ post → deref s2 d.ptr = deref s d.ptr)
    (hc : CellOK s2 c1 post) : Rep s2 (pre1 ++ u :: (mid ++ c1 :: post)) := by
  have hn : ∀ k, k ≠ i → nextAt k (c1 :: post) = nextAt k (c :: post) := by
    intro k hk
    have := hvis k hk
    by_cases hv : c.vis k = true
    · rw [nextAt_cons_vis _ hv, nextAt_cons_vis _ (this.trans hv), hptr]
    · have hv2 : c.vis k = false := by simpa using hv
      rw [nextAt_cons_invis _ hv2, nextAt_cons_invis _ (this.trans hv2)]
  have hpost : Rep s2 post :=
    Rep_congr (Rep_append (Rep_append hR).2).2
      (fun d hd => hd2 d (Or.inr (Or.inr hd)))
  have hmidR : Rep s2 (mid ++ c1 :: post) :=
    Rep_frame (fun k => k ≠ i) (Rep_append hR).2 (fun d hd => hd2 d (Or.inr (Or.inl hd)))
      (fun d hd k hk e => by rw [e, hmid d hd] at hk; exact absurd hk (by simp))
      hn ⟨hc, hpost⟩
  have huOK : CellOK s2 u (mid ++ c1 :: post) := by
    obtain ⟨n, h1, h2, h3, h4, h5, h6⟩ := (Rep_append hR).1
    rw [hdu] at h1
    cases h1
    refine ⟨_, hd2u, h2, h3, h4, by simpa using h5, ?_⟩
    intro k hk1 hk2
    by_cases hki : k = i
    · subst hki
      have hlt : k < nu.forward.length := by omega
      simp [List.getElem?_set_self hlt, nextAt_append_invis _ hmid]
    · have hne : i ≠ k := fun e => hki e.symm
      simp only [List.getElem?_set_ne hne]
      rw [h6 k hk1 hk2]
      exact congrArg some (nextAt_append_congr mid (hn k hki)).symm
  refine Rep_frame (fun _ => True) hR (fun d hd => hd2 d (Or.inl hd)) (fun _ _ _ _ => trivial)
    ?_ ⟨huOK, hmidR⟩
  intro k _
  by_cases hv : u.vis k = true
  · rw [nextAt_cons_vis _ hv, nextAt_cons_vis _ hv]
  · have hv2 : u.vis k = false := by simpa using hv
    rw [nextAt_cons_invis _ hv2, nextAt_cons_invis _ hv2]
    have hki : k ≠ i := by
      intro e; rw [e, hu] at hv2; exact absurd hv2 (by simp)
    exact nextAt_append_congr mid (hn k hki)

theorem nodup_split {pre1 mid post : List (Cell K V)} {u c : Cell K V}
    (h : ((pre1 ++ u :: (mid ++ c :: post)).map Cell.ptr).Nodup) :
    u.ptr ≠ c.ptr ∧
      ∀ d, d ∈ pre1 ∨ d ∈ mid ∨ d ∈ post → d.ptr ≠ u.ptr ∧ d.ptr ≠ c.ptr := by
  rw [List.Nodup, List.pairwise_map] at h
  simp only [List.pairwise_append, List.pairwise_cons, List.mem_append, List.mem_cons] at h
  obtain ⟨_, ⟨h2, _, ⟨h4, _⟩, h5⟩, h6⟩ := h
  refine ⟨h2 c (Or.inr (Or.inl rfl)), ?_⟩
  rintro d (hd | hd | hd)
  · exact ⟨h6 d hd u (Or.inl rfl), h6 d hd c (Or.inr (Or.inr (Or.inl rfl)))⟩
  · exact ⟨(h2 d (Or.inl hd)).symm, h5 d hd c (Or.inl rfl)⟩
  · exact ⟨(h2 d (Or.inr (Or.inr hd))).symm, (h4 d hd).symm⟩

theorem Cell.vis_lo_succ {c : Cell K V} {i : Nat} (k : Nat) (hk : k ≠ i) (h : c.lo = i + 1) :
    ({ c with lo := i } : Cell K V).vis k = c.vis k := by
  simp only [Cell.vis, h]
  have : (i ≤ k) = (i + 1 ≤ k) := by
    apply propext; constructor <;> intro h1 <;> omega
  simp [this]

/-- One round of the splice loop of `insert`. -/
theorem link_step {s : skip_list K V} {pre1 mid post : List (Cell K V)} {u c : Cell K V} {i : Nat}
    (hR : Rep s (pre1 ++ u :: (mid ++ c :: post)))
    (hnd : ((pre1 ++ u :: (mid ++ c :: post)).map Cell.ptr).Nodup)
    (hnt : u.ptr ≠ Ptr.tail ∧ c.ptr ≠ Ptr.tail ∧ c.ptr ≠ Ptr.head)
    (hu : u.vis i = true) (hmid : ∀ d ∈ mid, d.vis i = false)
    (hlo : c.lo = i + 1) (hlvl : i ≤ c.lvl) :
    ∃ s1 s2, getForward s u.ptr i = .ok (nextAt i post) ∧
      setForward s c.ptr i (nextAt i post) = .ok s1 ∧
      setForward s1 u.ptr i c.ptr = .ok s2 ∧
      Rep s2 (pre1 ++ u :: (mid ++ { c with lo := i } :: post)) ∧
      s2.level = s.level ∧ s2.length = s.length ∧ s2.heap.length = s.heap.length ∧
      s2.tail = s.tail := by
  obtain ⟨huc, hne⟩ := nodup_split hnd
  have hcv : c.vis i = false := by simp [Cell.vis, hlo]
  have hcOK : CellOK s c post := Rep_split (by simpa using (Rep_append hR).2 : Rep s (mid ++ c :: post))
  have huOK : CellOK s u (mid ++ c :: post) := (Rep_append hR).1
  have hg : getForward s u.ptr i = .ok (nextAt i post) := by
    rw [getForward_of_CellOK huOK hu, nextAt_append_invis _ hmid, nextAt_cons_invis _ hcv]
  obtain ⟨nc, hc1, hc2, hc3, hc4, hc5, hc6⟩ := hcOK
  obtain ⟨nu, hu1, hu2, hu3, hu4, hu5, hu6⟩ := huOK
  obtain ⟨s1, hs1, hd1, hf1⟩ := setForward_ok (nextAt i post) hc1 (by omega : i < nc.forward.length)
  have hu1s : deref s1 u.ptr = .ok nu := by rw [hd1, if_neg huc, hu1]
  have hvu : i < nu.forward.length := by
    simp only [Cell.vis, Bool.and_eq_true, decide_eq_true_eq] at hu; omega
  obtain ⟨s2, hs2, hd2, hf2⟩ := setForward_ok c.ptr hu1s hvu
  refine ⟨s1, s2, hg, hs1, hs2, ?_, by omega, by omega, by omega, ?_⟩
  · have hc1v : ({ c with lo := i } : Cell K V).vis i = true := by simp [Cell.vis, hlvl]
    refine Rep_relink { c with lo := i } hR hu hmid rfl
      (fun k hk => Cell.vis_lo_succ k hk hlo) hu1 ?_ ?_ ?_
    · rw [hd2, if_pos rfl, nextAt_cons_vis _ hc1v]
    · intro d hd
      rw [hd2, if_neg (hne d hd).1, hd1, if_neg (hne d hd).2]
    · refine ⟨{ nc with forward := nc.forward.set i (nextAt i post) }, ?_, hc2, hc3, hc4,
        by simpa using hc5, ?_⟩
      · rw [hd2, if_neg (fun e => huc e.symm), hd1, if_pos rfl]
      · intro k hk1 hk2
        simp only at hk1 hk2
        by_cases hki : k = i
        · subst hki
          simp [List.getElem?_set_self (by omega : k < nc.forward.length)]
        · have hne2 : i ≠ k := fun e => hki e.symm
          simp only [List.getElem?_set_ne hne2]
          exact hc6 k (by omega) hk2
  · rw [hf2.2.2.2.2 hnt.1, hf1.2.2.2.2 hnt.2.1]

theorem Cell.vis_lo_pred {c : Cell K V} {i : Nat} (k : Nat) (hk : k ≠ i) (h : c.lo = i) :
    ({ c with lo := i + 1 } : Cell K V).vis k = c.vis k := by
  simp only [Cell.vis, h]
  have : (i ≤ k) = (i + 1 ≤ k) := by
    apply propext; constructor <;> intro h1 <;> omega
  simp [this]

/-- One round of the unlink loop of `erase`. -/
theorem unlink_step {s : skip_list K V} {pre1 mid post : List (Cell K V)} {u c : Cell K V}
    {i : Nat}
    (hR : Rep s (pre1 ++ u :: (mid ++ c :: post)))
    (hnd : ((pre1 ++ u :: (mid ++ c :: post)).map Cell.ptr).Nodup)
    (hnt : u.ptr ≠ Ptr.tail)
    (hu : u.vis i = true) (hmid : ∀ d ∈ mid, d.vis i = false)
    (hlo : c.lo = i) (hlvl : i ≤ c.lvl) :
    ∃ s1, getForward s c.ptr i = .ok (nextAt i post) ∧
      setForward s u.ptr i (nextAt i post) = .ok s1 ∧
      Rep s1 (pre1 ++ u :: (mid ++ { c with lo := i + 1 } :: post)) ∧
      s1.level = s.level ∧ s1.length = s.length ∧ s1.heap.length = s.heap.length ∧
      s1.tail = s.tail := by
  obtain ⟨huc, hne⟩ := nodup_split hnd
  have hcv : c.vis i = true := by simp [Cell.vis, hlo, hlvl]
  have hcOK : CellOK s c post := Rep_split (by simpa using (Rep_append hR).2 : Rep s (mid ++ c :: post))
  have huOK : CellOK s u (mid ++ c :: post) := (Rep_append hR).1
  have hg : getForward s c.ptr i = .ok (nextAt i post) := getForward_of_CellOK hcOK hcv
  obtain ⟨nu, hu1, hu2, hu3, hu4, hu5, hu6⟩ := huOK
  have hvu : i < nu.forward.length := by
    simp only [Cell.vis, Bool.and_eq_true, decide_eq_true_eq] at hu; omega
  obtain ⟨s1, hs1, hd1, hf1⟩ := setForward_ok (nextAt i post) hu1 hvu
  refine ⟨s1, hg, hs1, ?_, hf1.1, hf1.2.1, hf1.2.2.1, hf1.2.2.2.2 hnt⟩
  have hc1v : ({ c with lo := i + 1 } : Cell K V).vis i = false := by simp [Cell.vis]
  refine Rep_relink { c with lo := i + 1 } hR hu hmid rfl
    (fun k hk => Cell.vis_lo_pred k hk hlo) hu1 ?_ ?_ ?_
  · rw [hd1, if_pos rfl, nextAt_cons_invis _ hc1v]
  · intro d hd
    rw [hd1, if_neg (hne d hd).1]
  · obtain ⟨nc, hc1, hc2, hc3, hc4, hc5, hc6⟩ := hcOK
    refine ⟨nc, ?_, hc2, hc3, hc4, hc5, ?_⟩
    · rw [hd1, if_neg (fun e => huc e.symm), hc1]
    · intro k hk1 hk2
      simp only at hk1 hk2
      exact hc6 k (by omega) hk2

/-! ## The internal `find` -/

theorem nextAt_eq_of_find {i : Nat} {l : List (Cell K V)} {e : Cell K V}
    (h : l.find? (fun c => c.vis i) = some e) : nextAt i l = e.ptr := by
  simp [nextAt, h]

theorem nextAt_eq_tail_of_find {i : Nat} {l : List (Cell K V)}
    (h : l.find? (fun c => c.vis i) = none) : nextAt i l = Ptr.tail := by
  simp [nextAt, h]

theorem walk_spec (less : K → K → Bool) (key : K) {s : skip_list K V} (i : Nat) :
    ∀ (fuel : Nat) (pre : List (Cell K V)) (c : Cell K V) (post : List (Cell K V)),
      Rep s (pre ++ c :: post) → (∀ d ∈ pre ++ c :: post, d.lo = 0) →
      (∀ e ∈ post, e.ptr ≠ Ptr.tail) → i ≤ c.lvl → post.length < fuel →
      ∃ pre1 c1 post1 m, pre1 ++ [c1] = pre ++ c :: m ∧ post = m ++ post1 ∧
        walk less s key i fuel c.ptr = .ok c1.ptr ∧ i ≤ c1.lvl ∧
        (∀ d ∈ m, d.lvl < i ∨ less d.key key = true) ∧
        (c1 = c ∨ less c1.key key = true) ∧ Blocked less key i post1 := by
  intro fuel
  induction fuel with
  | zero => intro pre c post _ _ _ _ h; omega
  | succ fuel ih =>
    intro pre c post hR hN hnt hlvl hfuel
    have hc0 : c.lo = 0 := hN c (by simp)
    have hcv : c.vis i = true := by simp [Cell.vis, hc0, hlvl]
    have hg := getForward_of_CellOK (Rep_split hR) hcv
    cases hfind : post.find? (fun c => c.vis i) with
    | none =>
      refine ⟨pre, c, post, [], rfl, rfl, ?_, hlvl, by simp, Or.inl rfl, ?_⟩
      · simp [walk, hg, nextAt_eq_tail_of_find hfind]
      · intro e he; rw [hfind] at he; cases he
    | some e =>
      obtain ⟨hev, as, bs, hpost, has⟩ := List.find?_eq_some.mp hfind
      have hemem : e ∈ post := by rw [hpost]; simp
      have hne : e.ptr ≠ Ptr.tail := hnt e hemem
      have hR2 : Rep s ((pre ++ c :: as) ++ e :: bs) := by
        rw [hpost] at hR; simpa using hR
      obtain ⟨en, he1, _, he3, _⟩ := Rep_split hR2
      have helvl : i ≤ e.lvl := by
        simp only [Cell.vis, Bool.and_eq_true, decide_eq_true_eq] at hev; exact hev.2
      by_cases hless : less e.key key = true
      · have hN2 : ∀ d ∈ (pre ++ c :: as) ++ e :: bs, d.lo = 0 := by
          intro d hd; apply hN d; rw [hpost]; simpa using hd
        have hnt2 : ∀ x ∈ bs, x.ptr ≠ Ptr.tail := by
          intro x hx; apply hnt x; rw [hpost]; simp [hx]
        have hfuel2 : bs.length < fuel := by
          rw [hpost] at hfuel; simp at hfuel; omega
        obtain ⟨pre1, c1, post1, m, h1, h2, h3, h4, h5, h6, h7⟩ :=
          ih (pre ++ c :: as) e bs hR2 hN2 hnt2 helvl hfuel2
        refine ⟨pre1, c1, post1, as ++ e :: m, ?_, ?_, ?_, h4, ?_, ?_, h7⟩
        · rw [h1]; simp
        · rw [hpost, h2]; simp
        · simp [walk, hg, nextAt_eq_of_find hfind, hne, he1, he3, hless, h3]
        · intro d hd
          rcases List.mem_append.mp hd with hd | hd
          · left
            have hv := has d hd
            have hd0 : d.lo = 0 := by apply hN d; rw [hpost]; simp [hd]
            simp only [Cell.vis, hd0, Nat.zero_le, decide_True, Bool.true_and,
              Bool.not_eq_true', decide_eq_false_iff_not, not_le] at hv
            exact hv
          · rcases List.mem_cons.mp hd with hd | hd
            · right; rw [hd]; exact hless
            · exact h5 d hd
        · rcases h6 with h6 | h6
          · right; rw [h6]; exact hless
          · right; exact h6
      · have hless2 : less e.key key = false := by simpa using hless
        refine ⟨pre, c, post, [], rfl, rfl, ?_, hlvl, by simp, Or.inl rfl, ?_⟩
        · simp [walk, hg, nextAt_eq_of_find hfind, hne, he1, he3, hless2]
        · intro e1 he1; rw [hfind] at he1; cases he1; exact hless2

theorem blocked_skip (less : K → K → Bool) (key : K) {i j : Nat} (hij : i < j) :
    ∀ (m post1 : List (Cell K V)), (∀ d ∈ m, d.lo = 0) →
      (∀ d ∈ m, d.lvl < i ∨ less d.key key = true) → Blocked less key j (m ++ post1) →
      (∀ d ∈ m, d.vis j = false) ∧ Blocked less key j post1 := by
  intro m
  induction m with
  | nil => intro post1 _ _ h; exact ⟨by simp, h⟩
  | cons d m ih =>
    intro post1 hN hm hB
    have hdv : d.vis j = false := by
      by_contra hv
      have hv2 : d.vis j = true := by simpa using hv
      have hb := hB d (by simp [List.find?_cons, hv2])
      rcases hm d (List.mem_cons_self _ _) with h | h
      · simp only [Cell.vis, Bool.and_eq_true, decide_eq_true_eq] at hv2; omega
      · rw [h] at hb; cases hb
    have hB2 : Blocked less key j (m ++ post1) := by
      intro e he
      apply hB e
      simp [List.find?_cons, hdv, he]
    obtain ⟨h1, h2⟩ := ih post1 (fun e he => hN e (List.mem_cons_of_mem _ he))
      (fun e he => hm e (List.mem_cons_of_mem _ he)) hB2
    refine ⟨?_, h2⟩
    intro e he
    rcases List.mem_cons.mp he with he | he
    · rw [he]; exact hdv
    · exact h1 e he

theorem LastVis_append {j : Nat} {X m : List (Cell K V)} {p : Ptr} (h : LastVis j X p)
    (hm : ∀ d ∈ m, d.vis j = false) : LastVis j (X ++ m) p := by
  obtain ⟨pre1, u, mid, h1, h2, h3, h4⟩ := h
  refine ⟨pre1, u, mid ++ m, by rw [h1]; simp, h2, h3, ?_⟩
  intro d hd
  rcases List.mem_append.mp hd with hd | hd
  · exact h4 d hd
  · exact hm d hd

theorem findLoop_spec (less : K → K → Bool) (key : K) {s : skip_list K V} {F : List (Cell K V)}
    (hR : Rep s F) (hN : ∀ d ∈ F, d.lo = 0) (hfuel : F.length ≤ s.heap.length + 1)
    (hlev : s.level ≤ MAXL) :
    ∀ (n : Nat) (pre : List (Cell K V)) (c : Cell K V) (post : List (Cell K V))
      (U : List (Option Ptr)),
      F = pre ++ c :: post → (∀ e ∈ post, e.ptr ≠ Ptr.tail) → n ≤ c.lvl + 1 →
      n ≤ s.level + 1 → U.length = MAXL + 1 →
      (∀ j, n ≤ j → j ≤ s.level →
        (∃ p, U[j]? = some (some p) ∧ LastVis j (pre ++ [c]) p) ∧ Blocked less key j post) →
      ∃ pre1 c1 post1 U1, F = pre1 ++ c1 :: post1 ∧
        findLoop less s key n c.ptr U = .ok (c1.ptr, U1) ∧ U1.length = MAXL + 1 ∧
        (∀ j, j ≤ s.level →
          (∃ p, U1[j]? = some (some p) ∧ LastVis j (pre1 ++ [c1]) p) ∧
            Blocked less key j post1) ∧
        (c1 = c ∨ less c1.key key = true) := by
  intro n
  induction n with
  | zero =>
    intro pre c post U hF _ _ _ hU hinv
    exact ⟨pre, c, post, U, hF, rfl, hU, fun j hj => hinv j (Nat.zero_le _) hj, Or.inl rfl⟩
  | succ n ih =>
    intro pre c post U hF hnt hn1 hn2 hU hinv
    have hRF : Rep s (pre ++ c :: post) := hF ▸ hR
    have hNF : ∀ d ∈ pre ++ c :: post, d.lo = 0 := hF ▸ hN
    have hfuel2 : post.length < s.heap.length + 1 := by
      have : F.length = pre.length + (post.length + 1) := by rw [hF]; simp
      omega
    obtain ⟨pre1, c1, post1, m, h1, h2, h3, h4, h5, h6, h7⟩ :=
      walk_spec less key n (s.heap.length + 1) pre c post hRF hNF hnt (by omega) hfuel2
    have hF1 : F = pre1 ++ c1 :: post1 := by
      have : pre1 ++ c1 :: post1 = (pre1 ++ [c1]) ++ post1 := by simp
      rw [this, h1, hF, h2]; simp
    have hc10 : c1.lo = 0 := hN c1 (by rw [hF1]; simp)
    have hmN : ∀ d ∈ m, d.lo = 0 := by
      intro d hd; apply hN d; rw [hF, h2]; simp [hd]
    have hw : writeAt U n (some c1.ptr) = .ok (U.set n (some c1.ptr)) :=
      writeAt_eq_ok _ (by omega)
    have hinv1 : ∀ j, n ≤ j → j ≤ s.level →
        (∃ p, (U.set n (some c1.ptr))[j]? = some (some p) ∧ LastVis j (pre1 ++ [c1]) p) ∧
          Blocked less key j post1 := by
      intro j hj1 hj2
      by_cases hjn : j = n
      · subst hjn
        refine ⟨⟨c1.ptr, ?_, ?_⟩, h7⟩
        · simp [List.getElem?_set_self (by omega : j < U.length)]
        · exact ⟨pre1, c1, [], rfl, rfl, by simp [Cell.vis, hc10, h4], by simp⟩
      · have hlt : n < j := by omega
        obtain ⟨⟨p, hp1, hp2⟩, hB⟩ := hinv j (by omega) hj2
        obtain ⟨hm1, hm2⟩ := blocked_skip less key hlt m post1 hmN h5 (h2 ▸ hB)
        refine ⟨⟨p, ?_, ?_⟩, hm2⟩
        · rw [List.getElem?_set_ne (by omega)]; exact hp1
        · have := LastVis_append hp2 hm1
          rw [h1]; simpa using this
    obtain ⟨pre2, c2, post2, U2, g1, g2, g3, g4, g5⟩ :=
      ih pre1 c1 post1 (U.set n (some c1.ptr)) hF1
        (fun e he => hnt e (by rw [h2]; simp [he])) (by omega) (by omega) (by simpa using hU) hinv1
    refine ⟨pre2, c2, post2, U2, g1, ?_, g3, g4, ?_⟩
    · simp [findLoop, h3, hw, g2]
    · rcases g5 with g5 | g5
      · rw [g5]; exact h6
      · exact Or.inr g5

theorem find_spec (less : K → K → Bool) (key : K) {s : skip_list K V} {hc : Cell K V}
    {L : List (Cell K V)}
    (hR : Rep s (hc :: L)) (hh : hc.ptr = Ptr.head ∧ hc.lo = 0 ∧ hc.lvl = MAXL)
    (hN : ∀ d ∈ L, d.lo = 0) (hnt : ∀ e ∈ L, e.ptr ≠ Ptr.tail)
    (hfuel : L.length ≤ s.heap.length) (hlev : s.level ≤ MAXL) :
    ∃ pre c post U, hc :: L = pre ++ c :: post ∧
      find less s key = .ok (nextAt 0 post, U) ∧ U.length = MAXL + 1 ∧
      (∀ j, j ≤ s.level →
        (∃ p, U[j]? = some (some p) ∧ LastVis j (pre ++ [c]) p) ∧ Blocked less key j post) ∧
      (c = hc ∨ less c.key key = true) := by
  have hNF : ∀ d ∈ hc :: L, d.lo = 0 := by
    intro d hd
    rcases List.mem_cons.mp hd with hd | hd
    · rw [hd]; exact hh.2.1
    · exact hN d hd
  obtain ⟨pre, c, post, U, h1, h2, h3, h4, h5⟩ :=
    findLoop_spec less key hR hNF (by simpa using hfuel) hlev (s.level + 1) [] hc L
      (List.replicate (MAXL + 1) none) rfl hnt (by rw [hh.2.2]; omega) (le_refl _) (by simp)
      (fun j hj1 hj2 => by omega)
  refine ⟨pre, c, post, U, h1, ?_, h3, h4, h5⟩
  have hc0 : c.lo = 0 := hNF c (by rw [h1]; simp)
  have hg := getForward_of_CellOK (Rep_split (h1 ▸ hR)) (by simp [Cell.vis, hc0] : c.vis 0 = true)
  rw [hh.1] at h2
  simp [find, h2, hg]

/-! ## The loops of `insert` and `erase` -/

theorem map_ptr_lo (X post : List (Cell K V)) (c : Cell K V) (n : Nat) :
    (X ++ { c with lo := n } :: post).map Cell.ptr = (X ++ c :: post).map Cell.ptr := by
  simp

theorem spliceLoop_spec {U : List (Option Ptr)} {X post : List (Cell K V)} {c : Cell K V}
    (hnd : ((X ++ c :: post).map Cell.ptr).Nodup) (hntX : ∀ d ∈ X, d.ptr ≠ Ptr.tail)
    (hc : c.ptr ≠ Ptr.tail ∧ c.ptr ≠ Ptr.head) :
    ∀ (n : Nat) (s : skip_list K V), n ≤ c.lvl + 1 →
      Rep s (X ++ { c with lo := n } :: post) →
      (∀ i, i < n → ∃ p, U[i]? = some (some p) ∧ LastVis i X p) →
      ∃ s1, spliceLoop U c.ptr n s = .ok s1 ∧ Rep s1 (X ++ { c with lo := 0 } :: post) ∧
        s1.level = s.level ∧ s1.length = s.length ∧ s1.heap.length = s.heap.length ∧
        s1.tail = s.tail := by
  intro n
  induction n with
  | zero =>
    intro s _ hR _
    exact ⟨s, rfl, hR, rfl, rfl, rfl, rfl⟩
  | succ n ih =>
    intro s hn hR hU
    obtain ⟨p, hp1, pre1, u, mid, hX, hup, huv, hmid⟩ := hU n (Nat.lt_succ_self n)
    have hR2 : Rep s (pre1 ++ u :: (mid ++ { c with lo := n + 1 } :: post)) := by
      rw [hX] at hR; simpa using hR
    have hnd2 : ((pre1 ++ u :: (mid ++ { c with lo := n + 1 } :: post)).map Cell.ptr).Nodup := by
      rw [hX] at hnd; simpa using hnd
    have hut : u.ptr ≠ Ptr.tail := hntX u (by rw [hX]; simp)
    obtain ⟨s1, s2, g1, g2, g3, g4, g5, g6, g7, g8⟩ :=
      link_step hR2 hnd2 ⟨hut, hc.1, hc.2⟩ huv hmid rfl (by simp only; omega)
    have hR3 : Rep s2 (X ++ { c with lo := n } :: post) := by
      rw [hX]; simpa using g4
    obtain ⟨s3, k1, k2, k3, k4, k5, k6⟩ :=
      ih s2 (by omega) hR3 (fun i hi => hU i (by omega))
    refine ⟨s3, ?_, k2, by omega, by omega, by omega, by rw [k6, g8]⟩
    rw [← hup] at hp1
    simp only [spliceLoop, readAt, hp1, g1]
    simp only at g2 g3
    simp only [g2, g3, k1]

theorem unlinkLoop_spec {U : List (Option Ptr)} {X post : List (Cell K V)} {c : Cell K V}
    (hnd : ((X ++ c :: post).map Cell.ptr).Nodup) (hntX : ∀ d ∈ X, d.ptr ≠ Ptr.tail)
    (hU : ∀ i, i ≤ c.lvl → ∃ p, U[i]? = some (some p) ∧ LastVis i X p) :
    ∀ (n i : Nat) (s : skip_list K V), i + n = c.lvl + 1 →
      Rep s (X ++ { c with lo := i } :: post) →
      ∃ s1, unlinkLoop U c.ptr n i s = .ok s1 ∧
        Rep s1 (X ++ { c with lo := c.lvl + 1 } :: post) ∧
        s1.level = s.level ∧ s1.length = s.length ∧ s1.heap.length = s.heap.length ∧
        s1.tail = s.tail := by
  intro n
  induction n with
  | zero =>
    intro i s hi hR
    have : i = c.lvl + 1 := by omega
    subst this
    exact ⟨s, rfl, hR, rfl, rfl, rfl, rfl⟩
  | succ n ih =>
    intro i s hi hR
    obtain ⟨p, hp1, pre1, u, mid, hX, hup, huv, hmid⟩ := hU i (by omega)
    have hR2 : Rep s (pre1 ++ u :: (mid ++ { c with lo := i } :: post)) := by
      rw [hX] at hR; simpa using hR
    have hnd2 : ((pre1 ++ u :: (mid ++ { c with lo := i } :: post)).map Cell.ptr).Nodup := by
      rw [hX] at hnd; simpa using hnd
    have hut : u.ptr ≠ Ptr.tail := hntX u (by rw [hX]; simp)
    obtain ⟨s1, g1, g2, g3, g4, g5, g6, g7⟩ :=
      unlink_step hR2 hnd2 hut huv hmid rfl (by simp only; omega)
    have hR3 : Rep s1 (X ++ { c with lo := i + 1 } :: post) := by
      rw [hX]; simpa using g3
    obtain ⟨s3, k1, k2, k3, k4, k5, k6⟩ := ih (i + 1) s1 (by omega) hR3
    refine ⟨s3, ?_, k2, by omega, by omega, by omega, by rw [k6, g7]⟩
    rw [← hup] at hp1
    simp only at g1 g2
    simp only [unlinkLoop, readAt, hp1, g1, g2, k1]

theorem deref_delete {s s1 : skip_list K V} {p : Ptr} (h : delete s p = .ok s1) :
    (∀ q, q ≠ p → deref s1 q = deref s q) ∧ s1.level = s.level ∧ s1.length = s.length ∧
      s1.heap.length = s.heap.length ∧ s1.head = s.head ∧ s1.tail = s.tail := by
  cases p with
  | null => simp [delete] at h
  | head => simp [delete] at h
  | tail => simp [delete] at h
  | node id =>
    simp only [delete] at h
    split at h
    · simp only [Except.ok.injEq] at h
      subst h
      refine ⟨?_, rfl, rfl, by simp, rfl, rfl⟩
      intro q hq
      cases q with
      | null => rfl
      | head => rfl
      | tail => rfl
      | node j =>
        have hne : id ≠ j := fun e => hq (by rw [e])
        simp [deref, List.getElem?_set_ne hne]
    · simp at h

theorem delete_ok {s : skip_list K V} {id : Nat} {n : skip_list_node K V}
    (h : deref s (Ptr.node id) = .ok n) : ∃ s1, delete s (Ptr.node id) = .ok s1 := by
  simp only [deref] at h
  split at h
  · rename_i m hm
    exact ⟨{ s with heap := s.heap.set id none }, by simp [delete, hm]⟩
  · simp at h

theorem delete_spec {s : skip_list K V} {X post : List (Cell K V)} {c : Cell K V} {id : Nat}
    (hR : Rep s (X ++ c :: post)) (hnd : ((X ++ c :: post).map Cell.ptr).Nodup)
    (hid : c.ptr = Ptr.node id) (hinv : ∀ k, c.vis k = false) :
    ∃ s1, delete s c.ptr = .ok s1 ∧ Rep s1 (X ++ post) ∧ s1.level = s.level ∧
      s1.length = s.length ∧ s1.heap.length = s.heap.length ∧ s1.head = s.head ∧
      s1.tail = s.tail := by
  obtain ⟨n, hn, _⟩ := Rep_split hR
  rw [hid] at hn
  obtain ⟨s1, hs1⟩ := delete_ok hn
  obtain ⟨hd, h1, h2, h3, h4, h5⟩ := deref_delete hs1
  rw [List.Nodup, List.pairwise_map] at hnd
  simp only [List.pairwise_append, List.pairwise_cons, List.mem_cons] at hnd
  obtain ⟨_, ⟨hcp, _⟩, hXc⟩ := hnd
  refine ⟨s1, by rw [hid]; exact hs1, ?_, h1, h2, h3, h4, h5⟩
  have hpost : Rep s1 post :=
    Rep_congr (Rep_append hR).2 (fun d hd1 => hd d.ptr (by rw [← hid]; exact (hcp d hd1).symm))
  refine Rep_frame (fun _ => True) hR
    (fun d hd1 => hd d.ptr (by rw [← hid]; exact hXc d hd1 c (Or.inl rfl)))
    (fun _ _ _ _ => trivial) (fun k _ => (nextAt_cons_invis _ (hinv k)).symm) hpost

theorem shrinkLoop_spec {s : skip_list K V} {hc : Cell K V} {L : List (Cell K V)}
    (hR : Rep s (hc :: L)) (hh : hc.ptr = Ptr.head ∧ hc.lo = 0 ∧ hc.lvl = MAXL)
    (hN : ∀ d ∈ L, d.lo = 0) (hnt : ∀ e ∈ L, e.ptr ≠ Ptr.tail) :
    ∀ l, l ≤ MAXL → (∀ d ∈ L, d.lvl ≤ l) →
      ∃ l1, shrinkLoop s l = .ok l1 ∧ l1 ≤ l ∧ (∀ d ∈ L, d.lvl ≤ l1) ∧
        (l1 = 0 ∨ ∃ d ∈ L, l1 ≤ d.lvl) := by
  intro l
  induction l with
  | zero => intro _ h; exact ⟨0, rfl, le_refl _, h, Or.inl rfl⟩
  | succ l ih =>
    intro hl hle
    have hg := getForward_of_CellOK hR.1
      (by simp [Cell.vis, hh.2.1, hh.2.2, hl] : hc.vis (l + 1) = true)
    rw [hh.1] at hg
    cases hfind : L.find? (fun c => c.vis (l + 1)) with
    | none =>
      have hle2 : ∀ d ∈ L, d.lvl ≤ l := by
        intro d hd
        have := List.find?_eq_none.mp hfind d hd
        simp only [Cell.vis, hN d hd, Nat.zero_le, decide_True, Bool.true_and,
          decide_eq_true_eq, not_le] at this
        omega
      obtain ⟨l1, h1, h2, h3, h4⟩ := ih (by omega) hle2
      refine ⟨l1, ?_, by omega, h3, h4⟩
      simp [shrinkLoop, hg, nextAt_eq_tail_of_find hfind, h1]
    | some e =>
      obtain ⟨hev, as, bs, hL, _⟩ := List.find?_eq_some.mp hfind
      have hemem : e ∈ L := by rw [hL]; simp
      refine ⟨l + 1, ?_, le_refl _, hle, Or.inr ⟨e, hemem, ?_⟩⟩
      · simp [shrinkLoop, hg, nextAt_eq_of_find hfind, hnt e hemem]
      · simp only [Cell.vis, Bool.and_eq_true, decide_eq_true_eq] at hev; exact hev.2

/-! ## Iteration -/

theorem iterFrom_spec {s : skip_list K V} :
    ∀ (L : List (Cell K V)) (fuel : Nat), Rep s L →
      (∀ e ∈ L, e.ptr ≠ Ptr.tail ∧ e.lo = 0) → L.length < fuel →
      iterFrom s fuel (nextAt 0 L) = .ok (entries L) := by
  intro L
  induction L with
  | nil =>
    intro fuel _ _ hf
    cases fuel with
    | zero => omega
    | succ fuel => simp [iterFrom, nextAt_nil, endIter, entries]
  | cons c r ih =>
    intro fuel hR hL hf
    cases fuel with
    | zero => omega
    | succ fuel =>
      obtain ⟨hct, hc0⟩ := hL c (List.mem_cons_self _ _)
      have hcv : c.vis 0 = true := by simp [Cell.vis, hc0]
      have hg := getForward_of_CellOK hR.1 hcv
      obtain ⟨n, h1, _, h3, h4, _⟩ := hR.1
      have := ih fuel hR.2 (fun e he => hL e (List.mem_cons_of_mem _ he))
        (by simp at hf; omega)
      simp [iterFrom, nextAt_cons_vis _ hcv, endIter, hct, h1, hg, this, entries, h3, h4]

theorem length_le_heap {s : skip_list K V} {L : List (Cell K V)} (hR : Rep s L)
    (hreal : ∀ c ∈ L, ∃ id, c.ptr = Ptr.node id) (hnd : (L.map Cell.ptr).Nodup) :
    L.length ≤ s.heap.length := by
  let f : Ptr → Nat := fun p => match p with
    | Ptr.node id => id
    | _ => 0
  have hinj : ∀ x ∈ L.map Cell.ptr, ∀ y ∈ L.map Cell.ptr, f x = f y → x = y := by
    intro x hx y hy hxy
    obtain ⟨c, hc, rfl⟩ := List.mem_map.mp hx
    obtain ⟨d, hd, rfl⟩ := List.mem_map.mp hy
    obtain ⟨i, hi⟩ := hreal c hc
    obtain ⟨j, hj⟩ := hreal d hd
    rw [hi, hj] at hxy ⊢
    simp only [f] at hxy
    rw [hxy]
  have hnd2 : ((L.map Cell.ptr).map f).Nodup := List.Nodup.map_on hinj hnd
  have hsub : ((L.map Cell.ptr).map f).toFinset ⊆ Finset.range s.heap.length := by
    intro x hx
    simp only [List.mem_toFinset, List.mem_map, exists_exists_and_eq_and] at hx
    obtain ⟨c, hc, rfl⟩ := hx
    obtain ⟨i, hi⟩ := hreal c hc
    obtain ⟨pre, post, hsplit⟩ := List.append_of_mem hc
    obtain ⟨n, hn, _⟩ := Rep_split (hsplit ▸ hR)
    rw [hi] at hn ⊢
    simp only [f, Finset.mem_range]
    by_contra hge
    simp [deref, List.getElem?_eq_none (by omega : s.heap.length ≤ i)] at hn
  have := Finset.card_le_card hsub
  rw [List.toFinset_card_of_nodup hnd2, Finset.card_range] at this
  simpa using this

/-! ## Consequences of the structural invariant -/

theorem Inv.ptr_ne_tail {zeroK : K} {s : skip_list K V} {L : List (Cell K V)}
    (h : Inv zeroK s L) : ∀ e ∈ L, e.ptr ≠ Ptr.tail := by
  intro e he
  obtain ⟨⟨id, hid⟩, _⟩ := h.real e he
  rw [hid]; simp

theorem Inv.ptr_ne_head {zeroK : K} {s : skip_list K V} {L : List (Cell K V)}
    (h : Inv zeroK s L) : ∀ e ∈ L, e.ptr ≠ Ptr.head := by
  intro e he
  obtain ⟨⟨id, hid⟩, _⟩ := h.real e he
  rw [hid]; simp

theorem Inv.lo_zero {zeroK : K} {s : skip_list K V} {L : List (Cell K V)}
    (h : Inv zeroK s L) : ∀ e ∈ L, e.lo = 0 := fun e he => (h.real e he).2.1

theorem Inv.length_le {zeroK : K} {s : skip_list K V} {L : List (Cell K V)}
    (h : Inv zeroK s L) : L.length ≤ s.heap.length :=
  length_le_heap h.repr.2 (fun c hc => (h.real c hc).1) h.nodup

theorem Inv.toList_eq {zeroK : K} {s : skip_list K V} {L : List (Cell K V)}
    (h : Inv zeroK s L) : toList s = .ok (entries L) := by
  have hg := getForward_of_CellOK h.repr.1 (by simp [Cell.vis, headCell] : (headCell s).vis 0 = true)
  have hi := iterFrom_spec L (s.heap.length + 1) h.repr.2
    (fun e he => ⟨h.ptr_ne_tail e he, h.lo_zero e he⟩) (by have := h.length_le; omega)
  simp only [headCell] at hg
  simp [toList, begin, hg, hi]

theorem find_res (less : K → K → Bool) (key : K) {zeroK : K} {s : skip_list K V}
    {L : List (Cell K V)} (h : Inv zeroK s L) : ∃ A B U, FindRes less key s L A B U := by
  obtain ⟨pre, c, post, U, h1, h2, h3, h4, h5⟩ :=
    find_spec less key h.repr ⟨rfl, rfl, rfl⟩ h.lo_zero h.ptr_ne_tail h.length_le h.level_le
  cases pre with
  | nil =>
    simp only [List.nil_append, List.cons.injEq] at h1
    obtain ⟨hc, hL⟩ := h1
    refine ⟨[], post, U, ⟨by simp [hL], h2, h3, ?_, fun j hj => (h4 j hj).2, ?_⟩⟩
    · intro j hj
      obtain ⟨p, hp1, hp2⟩ := (h4 j hj).1
      exact ⟨p, hp1, by rw [hc]; simpa using hp2⟩
    · intro A0 a ha
      exact absurd (congrArg List.length ha) (by simp)
  | cons x pre1 =>
    simp only [List.cons_append, List.cons.injEq] at h1
    obtain ⟨hx, hL⟩ := h1
    refine ⟨pre1 ++ [c], post, U, ⟨by simp [hL], h2, h3, ?_, fun j hj => (h4 j hj).2, ?_⟩⟩
    · intro j hj
      obtain ⟨p, hp1, hp2⟩ := (h4 j hj).1
      exact ⟨p, hp1, by rw [hx]; simpa using hp2⟩
    · intro A0 a ha
      have hac := (List.append_inj' ha rfl).2
      simp only [List.cons.injEq, and_true] at hac
      rcases h5 with h5 | h5
      · have hmem : c ∈ L := by rw [hL]; simp
        exact absurd (by rw [h5]; rfl) (h.ptr_ne_head c hmem)
      · rw [← hac]; exact h5

/-- The node `find` returns can be dereferenced and its key is `firstKey`. -/
theorem FindRes.deref_first {less : K → K → Bool} {key zeroK : K} {s : skip_list K V}
    {L A B : List (Cell K V)} {U : List (Option Ptr)} (h : Inv zeroK s L)
    (hf : FindRes less key s L A B U) :
    ∃ pn, deref s (nextAt 0 B) = .ok pn ∧ pn.key = firstKey zeroK B := by
  cases hB : B with
  | nil => exact ⟨s.tail, rfl, h.tail_key⟩
  | cons b B1 =>
    have hsplit := hf.split
    rw [hB] at hsplit
    have hb0 : b.lo = 0 := h.lo_zero b (by rw [hsplit]; simp)
    have hR : Rep s ((headCell s :: A) ++ b :: B1) := by
      have := h.repr; rw [hsplit] at this; simpa using this
    obtain ⟨n, h1, _, h3, _⟩ := Rep_split hR
    rw [nextAt_cons_vis _ (by simp [Cell.vis, hb0])]
    exact ⟨n, h1, h3⟩

theorem count_spec {less : K → K → Bool} [DecidableEq K] {key zeroK : K} {s : skip_list K V}
    {L A B : List (Cell K V)} {U : List (Option Ptr)} (h : Inv zeroK s L)
    (hf : FindRes less key s L A B U) :
    count less s key = .ok (countCells key B) := by
  obtain ⟨pn, h1, h2⟩ := hf.deref_first h
  cases hB : B with
  | nil => simp [count, hf.find_eq, hB, nextAt_nil, countCells]
  | cons b B1 =>
    have hsplit := hf.split
    rw [hB] at hsplit
    have hb0 : b.lo = 0 := h.lo_zero b (by rw [hsplit]; simp)
    have hbt : b.ptr ≠ Ptr.tail := h.ptr_ne_tail b (by rw [hsplit]; simp)
    rw [hB] at h1 h2
    have hn : nextAt 0 (b :: B1) = b.ptr := nextAt_cons_vis _ (by simp [Cell.vis, hb0])
    rw [hn] at h1
    simp only [firstKey] at h2
    simp [count, hf.find_eq, hB, hn, hbt, h1, h2, countCells]

theorem findIter_spec {less : K → K → Bool} [DecidableEq K] {key zeroK : K} {s : skip_list K V}
    {L A B : List (Cell K V)} {U : List (Option Ptr)} (h : Inv zeroK s L)
    (hf : FindRes less key s L A B U) :
    findIter less s key = .ok (findCells key B) := by
  obtain ⟨pn, h1, h2⟩ := hf.deref_first h
  cases hB : B with
  | nil => simp [findIter, hf.find_eq, hB, nextAt_nil, findCells]
  | cons b B1 =>
    have hsplit := hf.split
    rw [hB] at hsplit
    have hb0 : b.lo = 0 := h.lo_zero b (by rw [hsplit]; simp)
    have hbt : b.ptr ≠ Ptr.tail := h.ptr_ne_tail b (by rw [hsplit]; simp)
    rw [hB] at h1 h2
    have hn : nextAt 0 (b :: B1) = b.ptr := nextAt_cons_vis _ (by simp [Cell.vis, hb0])
    rw [hn] at h1
    simp only [firstKey] at h2
    simp only [findIter, hf.find_eq, hB, hn, hbt, h1, h2, findCells, if_false]
    split <;> rfl

theorem erase_miss {less : K → K → Bool} [DecidableEq K] {key zeroK : K} {s : skip_list K V}
    {L A B : List (Cell K V)} {U : List (Option Ptr)} (h : Inv zeroK s L)
    (hf : FindRes less key s L A B U) (hk : firstKey zeroK B ≠ key) :
    erase less s key = .ok (false, s) := by
  obtain ⟨pn, h1, h2⟩ := hf.deref_first h
  rw [← h2] at hk
  simp [erase, hf.find_eq, h1, hk]

/-- Erasing the placeholder key when `find` returns `tail` indexes the null `forward` array of
`tail`. -/
theorem erase_tail_fault {less : K → K → Bool} [DecidableEq K] {zeroK : K} {s : skip_list K V}
    {L A : List (Cell K V)} {U : List (Option Ptr)} (h : Inv zeroK s L)
    (hf : FindRes less zeroK s L A [] U) :
    erase less s zeroK = .error Fault.fault := by
  obtain ⟨p, hp, _⟩ := hf.upd 0 (Nat.zero_le _)
  have hg : getForward s Ptr.tail 0 = .error Fault.fault := by
    simp [getForward, deref, h.tail_forward, readAt]
  simp [erase, hf.find_eq, nextAt_nil, deref, h.tail_key, unlinkLoop, readAt, hp, hg]

theorem deref_congr_fields {s s1 : skip_list K V} (h1 : s1.head = s.head)
    (h2 : s1.tail = s.tail) (h3 : s1.heap = s.heap) (q : Ptr) : deref s1 q = deref s q := by
  cases q <;> simp [deref, h1, h2, h3]

/-- Insert of the placeholder key when `find` returns `tail`: the value of `tail` is
overwritten and nothing is inserted. -/
theorem insert_hit_tail {less : K → K → Bool} [DecidableEq K] {zeroK : K} {s : skip_list K V}
    {L A : List (Cell K V)} {U : List (Option Ptr)} (h : Inv zeroK s L)
    (hf : FindRes less zeroK s L A [] U) (value : V) (draws : List Nat) :
    insert less s zeroK value draws =
        .ok ({ s with tail := { s.tail with value := value } }, draws) ∧
      Inv zeroK { s with tail := { s.tail with value := value } } L := by
  constructor
  · simp [insert, hf.find_eq, nextAt_nil, deref, h.tail_key, store]
  · refine ⟨?_, h.real, h.nodup, h.level_le, h.length_eq, h.tail_forward, h.tail_key⟩
    have hR : Rep { s with tail := { s.tail with value := value } } (headCell s :: L) := by
      refine Rep_congr h.repr ?_
      intro d hd
      have hdt : d.ptr ≠ Ptr.tail := by
        rcases List.mem_cons.mp hd with hd | hd
        · rw [hd]; simp [headCell]
        · exact h.ptr_ne_tail d hd
      cases hp : d.ptr with
      | tail => exact absurd hp hdt
      | null => rfl
      | head => rfl
      | node id => rfl
    exact hR

theorem Rep_deref_ok {s : skip_list K V} {l : List (Cell K V)} (h : Rep s l) {d : Cell K V}
    (hd : d ∈ l) : ∃ n, deref s d.ptr = .ok n := by
  obtain ⟨pre, post, hsplit⟩ := List.append_of_mem hd
  obtain ⟨n, hn, _⟩ := Rep_split (hsplit ▸ h)
  exact ⟨n, hn⟩

theorem headCell_eq_of_Repr {s s2 : skip_list K V} {l : List (Cell K V)}
    (h : Rep s2 (headCell s :: l)) : headCell s2 = headCell s := by
  obtain ⟨n, h1, _, h3, h4, _⟩ := h.1
  simp only [headCell, deref, Except.ok.injEq] at h1 h3 h4
  subst h1
  simp [headCell, h3, h4]

theorem Rep_headCell {s s2 : skip_list K V} {l : List (Cell K V)}
    (h : Rep s2 (headCell s :: l)) : Rep s2 (headCell s2 :: l) := by
  rw [headCell_eq_of_Repr h]; exact h

theorem nodup_full {zeroK : K} {s : skip_list K V} {L : List (Cell K V)}
    (h : Inv zeroK s L) : ((headCell s :: L).map Cell.ptr).Nodup := by
  rw [List.map_cons, List.nodup_cons]
  refine ⟨?_, h.nodup⟩
  intro hm
  obtain ⟨c, hc, hcp⟩ := List.mem_map.mp hm
  exact h.ptr_ne_head c hc hcp

theorem insert_hit_node {less : K → K → Bool} [DecidableEq K] {key zeroK : K}
    {s : skip_list K V} {L A B1 : List (Cell K V)} {b : Cell K V} {U : List (Option Ptr)}
    (h : Inv zeroK s L) (hf : FindRes less key s L A (b :: B1) U) (hk : b.key = key)
    (value : V) (draws : List Nat) :
    ∃ s1, insert less s key value draws = .ok (s1, draws) ∧
      Inv zeroK s1 (A ++ { b with val := value } :: B1) ∧ s1.level = s.level ∧
      s1.heap.length = s.heap.length := by
  have hsplit := hf.split
  have hbL : b ∈ L := by rw [hsplit]; simp
  have hb0 : b.lo = 0 := h.lo_zero b hbL
  have hR : Rep s ((headCell s :: A) ++ b :: B1) := by
    have := h.repr; rw [hsplit] at this; simpa using this
  have hnd : (((headCell s :: A) ++ b :: B1).map Cell.ptr).Nodup := by
    have := nodup_full h; rw [hsplit] at this; simpa using this
  rw [List.Nodup, List.pairwise_map] at hnd
  simp only [List.pairwise_append, List.pairwise_cons, List.mem_cons] at hnd
  obtain ⟨_, ⟨hbB, _⟩, hXb⟩ := hnd
  obtain ⟨n, h1, h2, h3, h4, h5, h6⟩ := Rep_split hR
  obtain ⟨s1, hs1⟩ := store_ok_of_deref h1 { n with value := value }
  have hd := deref_store hs1
  obtain ⟨f1, f2, f3, f4, f5⟩ := store_fields hs1
  have hbh : b.ptr ≠ Ptr.head := h.ptr_ne_head b hbL
  have hbt : b.ptr ≠ Ptr.tail := h.ptr_ne_tail b hbL
  have hn : nextAt 0 (b :: B1) = b.ptr := nextAt_cons_vis _ (by simp [Cell.vis, hb0])
  refine ⟨s1, ?_, ?_, f1, f3⟩
  · simp only [insert, hf.find_eq, hn, h1]
    rw [if_pos (h3.trans hk)]
    simp only [hs1]
  · have hRB : Rep s1 B1 :=
      Rep_congr (Rep_append hR).2 (fun d hd1 => by rw [hd, if_neg (hbB d hd1).symm])
    have hcell : CellOK s1 { b with val := value } B1 :=
      ⟨{ n with value := value }, by rw [hd, if_pos rfl], h2, h3, rfl, h5, h6⟩
    have hR1 : Rep s1 ((headCell s :: A) ++ { b with val := value } :: B1) := by
      refine Rep_frame (fun _ => True) hR
        (fun d hd1 => by rw [hd, if_neg (hXb d (List.mem_cons.mp hd1) b (Or.inl rfl))])
        (fun _ _ _ _ => trivial) ?_ ⟨hcell, hRB⟩
      intro k _
      by_cases hv : b.vis k = true
      · rw [nextAt_cons_vis _ hv,
          nextAt_cons_vis _ (show ({ b with val := value } : Cell K V).vis k = true from hv)]
      · have hv2 : b.vis k = false := by simpa using hv
        rw [nextAt_cons_invis _ hv2,
          nextAt_cons_invis _ (show ({ b with val := value } : Cell K V).vis k = false from hv2)]
    refine ⟨Rep_headCell (by simpa using hR1), ?_, ?_, by rw [f1]; exact h.level_le, ?_,
      by rw [f5 hbt]; exact h.tail_forward, by rw [f5 hbt]; exact h.tail_key⟩
    · intro c hc
      rw [f1]
      rcases List.mem_append.mp hc with hc | hc
      · exact h.real c (by rw [hsplit]; simp [hc])
      · rcases List.mem_cons.mp hc with hc | hc
        · rw [hc]; exact h.real b hbL
        · exact h.real c (by rw [hsplit]; simp [hc])
    · have := h.nodup; rw [hsplit] at this; simpa using this
    · rw [f2, h.length_eq, hsplit]; simp

theorem deref_grow {s : skip_list K V} (level1 : Nat) (x : Option (skip_list_node K V))
    {q : Ptr} {n : skip_list_node K V} (h : deref s q = .ok n) :
    deref { s with level := level1, heap := s.heap ++ [x] } q = .ok n := by
  cases q with
  | null => simp [deref] at h
  | head => exact h
  | tail => exact h
  | node id =>
    simp only [deref] at h ⊢
    split at h
    · rename_i m hm
      have hlt : id < s.heap.length := by
        by_contra hc
        rw [List.getElem?_eq_none (by omega)] at hm
        exact absurd hm (by simp)
      rw [List.getElem?_append_left hlt, hm]
      exact h
    · simp at h

theorem insert_core {zeroK : K} {s : skip_list K V}
    {L A B : List (Cell K V)} (h : Inv zeroK s L) (hsplit : L = A ++ B) (key : K) (value : V)
    (lv level1 : Nat) (U1 : List (Option Ptr))
    (hU1 : ∀ i, i < lv + 1 → ∃ p, U1[i]? = some (some p) ∧ LastVis i (headCell s :: A) p)
    (hlv : lv ≤ level1) (hl1 : s.level ≤ level1) (hl1m : level1 ≤ MAXL) :
    ∃ s2, spliceLoop U1 (Ptr.node s.heap.length) (lv + 1)
        { s with level := level1
                 heap := s.heap ++ [some (skip_list_node.mkNode key value lv Ptr.null)] } = .ok s2 ∧
      Inv zeroK { s2 with length := s2.length + 1 }
        (A ++ { ptr := Ptr.node s.heap.length, lo := 0, lvl := lv, key := key, val := value } :: B) ∧
      s2.level = level1 ∧ s2.heap.length = s.heap.length + 1 := by
  let c : Cell K V :=
    { ptr := Ptr.node s.heap.length, lo := 0, lvl := lv, key := key, val := value }
  let s0 : skip_list K V :=
    { s with level := level1
             heap := s.heap ++ [some (skip_list_node.mkNode key value lv Ptr.null)] }
  have hRs : Rep s ((headCell s :: A) ++ B) := by
    have := h.repr; rw [hsplit] at this; simpa using this
  have hfresh : ∀ d ∈ L, d.ptr ≠ Ptr.node s.heap.length := by
    intro d hd hp
    obtain ⟨n, hn⟩ := Rep_deref_ok h.repr.2 hd
    rw [hp] at hn
    simp [deref] at hn
  -- the allocated node, not yet linked
  have hR0 : Rep s0 ((headCell s :: A) ++ { c with lo := lv + 1 } :: B) := by
    have hB0 : Rep s0 B := by
      refine Rep_congr (Rep_append hRs) ?_
      intro d hd
      obtain ⟨n, hn⟩ := Rep_deref_ok (Rep_append hRs) hd
      rw [hn]; exact deref_grow _ _ hn
    have hc0 : CellOK s0 { c with lo := lv + 1 } B := by
      refine ⟨skip_list_node.mkNode key value lv Ptr.null, ?_, fun _ => rfl, rfl, rfl,
        by simp [skip_list_node.mkNode], ?_⟩
      · simp [deref, s0, c]
      · intro k hk1 hk2
        simp only [c] at hk1 hk2
        omega
    refine Rep_frame (fun _ => True) hRs ?_ (fun _ _ _ _ => trivial) ?_ ⟨hc0, hB0⟩
    · intro d hd
      obtain ⟨n, hn⟩ := Rep_deref_ok hRs (List.mem_append_left _ hd)
      rw [hn]; exact deref_grow _ _ hn
    · intro k _
      exact nextAt_cons_invis _ (by simp [Cell.vis, c]; omega)
  have hndL : ((A ++ c :: B).map Cell.ptr).Nodup := by
    rw [List.map_append, List.map_cons]
    apply List.nodup_middle.mpr
    rw [List.nodup_cons, ← List.map_append, ← hsplit]
    refine ⟨?_, h.nodup⟩
    intro hm
    obtain ⟨d, hd, hdp⟩ := List.mem_map.mp hm
    exact hfresh d hd hdp
  have hnd : (((headCell s :: A) ++ c :: B).map Cell.ptr).Nodup := by
    rw [List.cons_append, List.map_cons, List.nodup_cons]
    refine ⟨?_, hndL⟩
    intro hm
    obtain ⟨d, hd, hdp⟩ := List.mem_map.mp hm
    rcases List.mem_append.mp hd with hd | hd
    · exact h.ptr_ne_head d (by rw [hsplit]; simp [hd]) hdp
    · rcases List.mem_cons.mp hd with hd | hd
      · rw [hd] at hdp; simp [c, headCell] at hdp
      · exact h.ptr_ne_head d (by rw [hsplit]; simp [hd]) hdp
  have hntX : ∀ d ∈ headCell s :: A, d.ptr ≠ Ptr.tail := by
    intro d hd
    rcases List.mem_cons.mp hd with hd | hd
    · rw [hd]; simp [headCell]
    · exact h.ptr_ne_tail d (by rw [hsplit]; simp [hd])
  obtain ⟨s2, g1, g2, g3, g4, g5, g6⟩ :=
    spliceLoop_spec (c := c) (U := U1) hnd hntX (by simp [c]) (lv + 1) s0 (by simp [c]) hR0 hU1
  refine ⟨s2, g1, ?_, g3, by rw [g5]; simp [s0]⟩
  have hR2 : Rep s2 (headCell s :: (A ++ c :: B)) := by simpa [c] using g2
  have hR3 : Rep { s2 with length := s2.length + 1 } (headCell s2 :: (A ++ c :: B)) :=
    Rep_congr (Rep_headCell hR2) (fun d _ => deref_congr_fields rfl rfl rfl d.ptr)
  refine ⟨hR3, ?_, hndL, by simp only [g3]; exact hl1m, ?_, ?_, ?_⟩
  · intro d hd
    simp only [g3]
    rcases List.mem_append.mp hd with hd | hd
    · obtain ⟨r1, r2, r3⟩ := h.real d (by rw [hsplit]; simp [hd])
      exact ⟨r1, r2, by omega⟩
    · rcases List.mem_cons.mp hd with hd | hd
      · rw [hd]; exact ⟨⟨_, rfl⟩, rfl, hlv⟩
      · obtain ⟨r1, r2, r3⟩ := h.real d (by rw [hsplit]; simp [hd])
        exact ⟨r1, r2, by omega⟩
  · simp only [g4, s0, h.length_eq, hsplit]
    simp
    omega
  · simp only [g6, s0]; exact h.tail_forward
  · simp only [g6, s0]; exact h.tail_key

theorem randomLevelLoop_ge : ∀ (draws : List Nat) (lv r : Nat) (rest : List Nat),
    randomLevelLoop draws lv = some (r, rest) → lv ≤ r := by
  intro draws
  induction draws with
  | nil => intro lv r rest h; simp [randomLevelLoop] at h
  | cons d ds ih =>
    intro lv r rest h
    simp only [randomLevelLoop] at h
    split at h
    · have := ih _ _ _ h; omega
    · simp only [Option.some.injEq, Prod.mk.injEq] at h; omega

theorem randomLevel_range {draws rest : List Nat} {lv : Nat}
    (h : randomLevel draws = some (lv, rest)) : 1 ≤ lv ∧ lv ≤ MAXL := by
  simp only [randomLevel] at h
  split at h
  · simp at h
  · rename_i r rest1 hr
    have := randomLevelLoop_ge _ _ _ _ hr
    simp only [Option.some.injEq, Prod.mk.injEq] at h
    obtain ⟨h1, _⟩ := h
    split at h1 <;> simp [MAXL] at * <;> omega

theorem insert_miss {less : K → K → Bool} [DecidableEq K] {key zeroK : K} {s : skip_list K V}
    {L A B : List (Cell K V)} {U : List (Option Ptr)} (h : Inv zeroK s L)
    (hf : FindRes less key s L A B U) (hk : firstKey zeroK B ≠ key) (value : V)
    {draws rest : List Nat} {lv0 : Nat} (hr : randomLevel draws = some (lv0, rest)) :
    ∃ s1, insert less s key value draws = .ok (s1, rest) ∧
      Inv zeroK s1 (A ++ newCell s key value lv0 :: B) ∧
      s1.level = (if lv0 > s.level then s.level + 1 else s.level) ∧
      s1.heap.length = s.heap.length + 1 := by
  obtain ⟨pn, h1, h2⟩ := hf.deref_first h
  have hkey : ¬ pn.key = key := by rw [h2]; exact hk
  obtain ⟨hlv1, hlv2⟩ := randomLevel_range hr
  by_cases hraise : lv0 > s.level
  · have hU1 : ∀ i, i < (s.level + 1) + 1 →
        ∃ p, (U.set (s.level + 1) (some Ptr.head))[i]? = some (some p) ∧
          LastVis i (headCell s :: A) p := by
      intro i hi
      by_cases hil : i = s.level + 1
      · subst hil
        refine ⟨Ptr.head, ?_, [], headCell s, A, rfl, rfl, ?_, ?_⟩
        · rw [List.getElem?_set_self (by rw [hf.len]; omega)]
        · simp [Cell.vis, headCell]; omega
        · intro d hd
          have := (h.real d (by rw [hf.split]; simp [hd])).2.2
          simp [Cell.vis]; omega
      · rw [List.getElem?_set_ne (by omega)]
        exact hf.upd i (by omega)
    obtain ⟨s2, g1, g2, g3, g4⟩ := insert_core h hf.split key value (s.level + 1) (s.level + 1)
      (U.set (s.level + 1) (some Ptr.head)) hU1 (le_refl _) (by omega) (by omega)
    refine ⟨{ s2 with length := s2.length + 1 }, ?_, ?_, ?_, g4⟩
    · have hw : s.level + 1 < U.length := by rw [hf.len]; omega
      simp [insert, hf.find_eq, h1, hkey, hr, hraise, writeAt, hw, g1]
    · simpa [newCell, hraise] using g2
    · simp [hraise, g3]
  · have hU1 : ∀ i, i < lv0 + 1 → ∃ p, U[i]? = some (some p) ∧
          LastVis i (headCell s :: A) p := fun i hi => hf.upd i (by omega)
    obtain ⟨s2, g1, g2, g3, g4⟩ := insert_core h hf.split key value lv0 s.level U hU1
      (by omega) (le_refl _) h.level_le
    refine ⟨{ s2 with length := s2.length + 1 }, ?_, ?_, ?_, g4⟩
    · simp only [insert, hf.find_eq, h1, hkey, hr, hraise, if_false, decide_False]
      simp [g1]
    · simpa [newCell, hraise] using g2
    · simp [hraise, g3]

theorem erase_hit {less : K → K → Bool} [DecidableEq K] {key zeroK : K}
    {s : skip_list K V} {L A B1 : List (Cell K V)} {b : Cell K V} {U : List (Option Ptr)}
    (h : Inv zeroK s L) (hf : FindRes less key s L A (b :: B1) U) (hk : b.key = key) :
    ∃ s1, erase less s key = .ok (true, s1) ∧ Inv zeroK s1 (A ++ B1) ∧
      s1.level ≤ s.level ∧ (s1.level = 0 ∨ ∃ d ∈ A ++ B1, s1.level ≤ d.lvl) ∧
      s1.heap.length = s.heap.length := by
  have hsplit := hf.split
  have hbL : b ∈ L := by rw [hsplit]; simp
  obtain ⟨⟨id, hid⟩, hb0, hblvl⟩ := h.real b hbL
  have hbh : b.ptr ≠ Ptr.head := h.ptr_ne_head b hbL
  have hR : Rep s ((headCell s :: A) ++ b :: B1) := by
    have := h.repr; rw [hsplit] at this; simpa using this
  have hnd : (((headCell s :: A) ++ b :: B1).map Cell.ptr).Nodup := by
    have := nodup_full h; rw [hsplit] at this; simpa using this
  have hntX : ∀ d ∈ headCell s :: A, d.ptr ≠ Ptr.tail := by
    intro d hd
    rcases List.mem_cons.mp hd with hd | hd
    · rw [hd]; simp [headCell]
    · exact h.ptr_ne_tail d (by rw [hsplit]; simp [hd])
  obtain ⟨n, h1, h2, h3, _⟩ := Rep_split hR
  have hn : nextAt 0 (b :: B1) = b.ptr := nextAt_cons_vis _ (by simp [Cell.vis, hb0])
  have hb_eq : ({ b with lo := 0 } : Cell K V) = b := by
    cases b; simp only at hb0; subst hb0; rfl
  -- unlink at every level of the node
  obtain ⟨s1, g1, g2, g3, g4, g5, g6⟩ :=
    unlinkLoop_spec (c := b) (U := U) hnd hntX (fun i hi => hf.upd i (by omega))
      (b.lvl + 1) 0 s (by omega) (by rw [hb_eq]; exact hR)
  obtain ⟨s2, k1, k2, k3, k4, k5, k6, k7⟩ :=
    delete_spec (c := { b with lo := b.lvl + 1 }) g2 (by simpa using hnd) hid
      (by intro k; simp [Cell.vis]; omega)
  have hR2 : Rep s2 (headCell s2 :: (A ++ B1)) := Rep_headCell (by simpa using k2)
  have hreal2 : ∀ d ∈ A ++ B1, (∃ id, d.ptr = Ptr.node id) ∧ d.lo = 0 ∧ d.lvl ≤ s.level := by
    intro d hd
    apply h.real d
    rw [hsplit]
    rcases List.mem_append.mp hd with hd | hd <;> simp [hd]
  obtain ⟨l1, m1, m2, m3, m4⟩ :=
    shrinkLoop_spec hR2 ⟨rfl, rfl, rfl⟩ (fun d hd => (hreal2 d hd).2.1)
      (fun d hd => by obtain ⟨⟨j, hj⟩, _⟩ := hreal2 d hd; rw [hj]; simp)
      s2.level (by rw [k3, g3]; exact h.level_le)
      (fun d hd => by rw [k3, g3]; exact (hreal2 d hd).2.2)
  refine ⟨{ s2 with level := l1, length := s2.length - 1 }, ?_, ?_, ?_, m4, ?_⟩
  · have hnk : ¬ n.key ≠ key := by rw [h3, hk]; simp
    simp only [erase, hf.find_eq, hn, h1, hnk, if_false]
    rw [h2 hbh, g1]
    simp only at k1
    simp only [k1, m1]
  · refine ⟨Rep_congr hR2 (fun d _ => deref_congr_fields rfl rfl rfl d.ptr), ?_, ?_, ?_, ?_, ?_, ?_⟩
    · intro d hd
      exact ⟨(hreal2 d hd).1, (hreal2 d hd).2.1, m3 d hd⟩
    · have := h.nodup
      rw [hsplit, List.map_append, List.map_cons] at this
      have := (List.nodup_middle.mp this)
      rw [List.nodup_cons] at this
      rw [List.map_append]; exact this.2
    · show l1 ≤ MAXL
      have := h.level_le; rw [k3, g3] at m2; omega
    · show s2.length - 1 = _
      rw [k4, g4, h.length_eq, hsplit]; simp; omega
    · show s2.tail.forward = []
      rw [k7, g6]; exact h.tail_forward
    · show s2.tail.key = zeroK
      rw [k7, g6]; exact h.tail_key
  · show l1 ≤ s.level
    rw [k3, g3] at m2; exact m2
  · show s2.heap.length = s.heap.length
    rw [k5, g5]

/-! ## Order -/

theorem StrictWeakOrder.asymm {less : K → K → Bool} (h : StrictWeakOrder less) {a b : K}
    (hab : less a b = true) : less b a = false := by
  by_contra hc
  have hba : less b a = true := by simpa using hc
  have := h.trans a b a hab hba
  rw [h.irrefl a] at this
  cases this

theorem StrictWeakOrder.neg_trans {less : K → K → Bool} (h : StrictWeakOrder less) {a b c : K}
    (hab : less a b = true) (hac : less a c = false) : less c b = true := by
  by_contra hc
  have hcb : less c b = false := by simpa using hc
  have hca : less c a = false := by
    by_contra hx
    have hx2 : less c a = true := by simpa using hx
    rw [h.trans c a b hx2 hab] at hcb
    cases hcb
  have hbc : less b c = false := by
    by_contra hx
    have hx2 : less b c = true := by simpa using hx
    rw [h.trans a b c hab hx2] at hac
    cases hac
  have := (h.incomp_trans a c b hac hca hcb hbc).1
  rw [hab] at this
  cases this

theorem StrictSorted.sorted {less : K → K → Bool} (h : StrictWeakOrder less) {ks : List K}
    (hs : StrictSorted less ks) : SortedKeys less ks :=
  List.Pairwise.imp (fun hab => h.asymm hab) hs

theorem keys_append (A B : List (Cell K V)) : keys (A ++ B) = keys A ++ keys B := by
  simp [keys]

theorem entries_append (A B : List (Cell K V)) : entries (A ++ B) = entries A ++ entries B := by
  simp [entries]

theorem keys_entries (L : List (Cell K V)) : (entries L).map Prod.fst = keys L := by
  simp [entries, keys]

theorem mem_keys {L : List (Cell K V)} {c : Cell K V} (h : c ∈ L) : c.key ∈ keys L :=
  List.mem_map_of_mem _ h

/-- In a sorted list the split `find` makes is by key: everything before is less than `key`,
nothing after is. -/
theorem FindRes.sorted_split {less : K → K → Bool} {key zeroK : K} {s : skip_list K V}
    {L A B : List (Cell K V)} {U : List (Option Ptr)} (h : Inv zeroK s L)
    (hf : FindRes less key s L A B U) (hw : StrictWeakOrder less)
    (hs : SortedKeys less (keys L)) :
    (∀ a ∈ A, less a.key key = true) ∧ (∀ b ∈ B, less b.key key = false) := by
  have hsplit := hf.split
  rw [hsplit, keys_append, SortedKeys, List.pairwise_append] at hs
  obtain ⟨hsA, hsB, _⟩ := hs
  constructor
  · rcases List.eq_nil_or_concat A with hA | ⟨A0, a, hA⟩
    · rw [hA]; simp
    · rw [List.concat_eq_append] at hA
      have hlast := hf.last_less A0 a hA
      rw [hA] at hsA ⊢
      simp only [keys, List.map_append, List.map_cons, List.map_nil,
        List.pairwise_append, List.mem_map, List.mem_singleton] at hsA
      intro x hx
      rcases List.mem_append.mp hx with hx | hx
      · have := hsA.2.2 x.key ⟨x, hx, rfl⟩ a.key rfl
        exact hw.neg_trans hlast this
      · simp only [List.mem_singleton] at hx
        rw [hx]; exact hlast
  · cases hB : B with
    | nil => simp
    | cons b B1 =>
      have hb0 : b.lo = 0 := h.lo_zero b (by rw [hsplit, hB]; simp)
      have hbk : less b.key key = false :=
        hf.blocked 0 (Nat.zero_le _) b (by rw [hB]; simp [List.find?_cons, Cell.vis, hb0])
      rw [hB] at hsB
      simp only [keys, List.map_cons, List.pairwise_cons, List.mem_map] at hsB
      intro y hy
      rcases List.mem_cons.mp hy with hy | hy
      · rw [hy]; exact hbk
      · have := hsB.1 y.key ⟨y, hy, rfl⟩
        by_contra hc
        have hyk : less y.key key = true := by simpa using hc
        have := hw.neg_trans hyk this
        rw [hbk] at this
        cases this

theorem takeWhile_dropWhile_split {α : Type} (P : α → Bool) :
    ∀ (a b : List α), (∀ x ∈ a, P x = true) → (∀ y ∈ b, P y = false) →
      (a ++ b).takeWhile P = a ∧ (a ++ b).dropWhile P = b := by
  intro a
  induction a with
  | nil =>
    intro b _ hb
    cases b with
    | nil => simp
    | cons y b => simp [List.takeWhile_cons, List.dropWhile_cons, hb y (List.mem_cons_self _ _)]
  | cons x a ih =>
    intro b ha hb
    have hx := ha x (List.mem_cons_self _ _)
    obtain ⟨h1, h2⟩ := ih b (fun z hz => ha z (List.mem_cons_of_mem _ hz)) hb
    simp [List.takeWhile_cons, List.dropWhile_cons, hx, h1, h2]

theorem FindRes.entries_split {less : K → K → Bool} {key zeroK : K} {s : skip_list K V}
    {L A B : List (Cell K V)} {U : List (Option Ptr)} (h : Inv zeroK s L)
    (hf : FindRes less key s L A B U) (hw : StrictWeakOrder less)
    (hs : SortedKeys less (keys L)) :
    below less key (entries L) = entries A ∧ notBelow less key (entries L) = entries B := by
  obtain ⟨hA, hB⟩ := hf.sorted_split h hw hs
  rw [hf.split, entries_append]
  apply takeWhile_dropWhile_split
  · intro x hx
    obtain ⟨c, hc, rfl⟩ := List.mem_map.mp hx
    exact hA c hc
  · intro x hx
    obtain ⟨c, hc, rfl⟩ := List.mem_map.mp hx
    exact hB c hc

theorem FindRes.specFirst_eq {less : K → K → Bool} {key zeroK : K} {s : skip_list K V}
    {L A B : List (Cell K V)} {U : List (Option Ptr)} (h : Inv zeroK s L)
    (hf : FindRes less key s L A B U) (hw : StrictWeakOrder less)
    (hs : SortedKeys less (keys L)) :
    specFirst less zeroK (entries L) key = firstKey zeroK B := by
  rw [specFirst, (hf.entries_split h hw hs).2]
  cases B <;> rfl

theorem insert_diverge {less : K → K → Bool} [DecidableEq K] {key zeroK : K} {s : skip_list K V}
    {L A B : List (Cell K V)} {U : List (Option Ptr)} (h : Inv zeroK s L)
    (hf : FindRes less key s L A B U) (hk : firstKey zeroK B ≠ key) (value : V)
    {draws : List Nat} (hr : randomLevel draws = none) :
    insert less s key value draws = .error Fault.diverge := by
  obtain ⟨pn, h1, h2⟩ := hf.deref_first h
  have hkey : ¬ pn.key = key := by rw [h2]; exact hk
  simp [insert, hf.find_eq, h1, hkey, hr]

/-! ## The invariant is kept by every call that returns -/

theorem init_inv (zeroK : K) (zeroV : V) : Inv zeroK (init zeroK zeroV) [] := by
  refine ⟨⟨?_, trivial⟩, (by intro c hc; cases hc), (by simp), (by simp [init, MAXL]), (by simp [init]), rfl, rfl⟩
  refine ⟨(init zeroK zeroV).head, rfl, fun hh => absurd rfl hh, rfl, rfl, by simp [init, headCell], ?_⟩
  intro k _ hk
  simp only [headCell] at hk
  simp [init, nextAt_nil, List.getElem?_replicate]
  omega

theorem insert_inv {less : K → K → Bool} [DecidableEq K] {key zeroK : K} {s s1 : skip_list K V}
    {L : List (Cell K V)} {value : V} {draws rest : List Nat} (h : Inv zeroK s L)
    (he : insert less s key value draws = .ok (s1, rest)) : ∃ L1, Inv zeroK s1 L1 := by
  obtain ⟨A, B, U, hf⟩ := find_res less key h
  by_cases hk : firstKey zeroK B = key
  · cases B with
    | nil =>
      simp only [firstKey] at hk
      subst hk
      obtain ⟨g1, g2⟩ := insert_hit_tail h hf value draws
      rw [g1] at he
      simp only [Except.ok.injEq, Prod.mk.injEq] at he
      rw [← he.1]
      exact ⟨L, g2⟩
    | cons b B1 =>
      obtain ⟨s2, g1, g2, _⟩ := insert_hit_node h hf hk value draws
      rw [g1] at he
      simp only [Except.ok.injEq, Prod.mk.injEq] at he
      rw [← he.1]
      exact ⟨_, g2⟩
  · cases hr : randomLevel draws with
    | none =>
      rw [insert_diverge h hf hk value hr] at he
      cases he
    | some r =>
      obtain ⟨lv0, rest1⟩ := r
      obtain ⟨s2, g1, g2, _⟩ := insert_miss h hf hk value hr
      rw [g1] at he
      simp only [Except.ok.injEq, Prod.mk.injEq] at he
      rw [← he.1]
      exact ⟨_, g2⟩

theorem erase_inv {less : K → K → Bool} [DecidableEq K] {key zeroK : K} {s s1 : skip_list K V}
    {L : List (Cell K V)} {b : Bool} (h : Inv zeroK s L)
    (he : erase less s key = .ok (b, s1)) : ∃ L1, Inv zeroK s1 L1 := by
  obtain ⟨A, B, U, hf⟩ := find_res less key h
  by_cases hk : firstKey zeroK B = key
  · cases B with
    | nil =>
      simp only [firstKey] at hk
      subst hk
      rw [erase_tail_fault h hf] at he
      cases he
    | cons c B1 =>
      obtain ⟨s2, g1, g2, _⟩ := erase_hit h hf hk
      rw [g1] at he
      simp only [Except.ok.injEq, Prod.mk.injEq] at he
      rw [← he.2]
      exact ⟨_, g2⟩
  · rw [erase_miss h hf hk] at he
    simp only [Except.ok.injEq, Prod.mk.injEq] at he
    rw [← he.2]
    exact ⟨L, h⟩

theorem reachable_inv {less : K → K → Bool} [DecidableEq K] {zeroK : K} {zeroV : V}
    {s : skip_list K V} (hr : Reachable less zeroK zeroV s) : ∃ L, Inv zeroK s L := by
  induction hr with
  | fresh => exact ⟨[], init_inv zeroK zeroV⟩
  | insert key value draws rest _ he ih =>
    obtain ⟨L, hL⟩ := ih
    exact insert_inv hL he
  | erase key b _ he ih =>
    obtain ⟨L, hL⟩ := ih
    exact erase_inv hL he

/-! ## The operations on the entries -/

/-- What `insert` does to a well-formed sorted state, by cases on the key found and on the
level draw. -/
theorem insert_spec {less : K → K → Bool} [DecidableEq K] {zeroK : K} {s : skip_list K V}
    {L : List (Cell K V)} (h : Inv zeroK s L) (hw : StrictWeakOrder less)
    (hs : SortedKeys less (keys L)) (key : K) (value : V) (draws : List Nat) :
    (specFirst less zeroK (entries L) key = key ∧
      ∃ s1 L1, insert less s key value draws = .ok (s1, draws) ∧ Inv zeroK s1 L1 ∧
        keys L1 = keys L ∧ entries L1 = specInsert less zeroK (entries L) key value ∧
        s1.level = s.level ∧ s1.heap.length = s.heap.length) ∨
    (specFirst less zeroK (entries L) key ≠ key ∧ randomLevel draws = none ∧
      insert less s key value draws = .error Fault.diverge) ∨
    (specFirst less zeroK (entries L) key ≠ key ∧
      ∃ lv0 rest s1 L1, randomLevel draws = some (lv0, rest) ∧
        insert less s key value draws = .ok (s1, rest) ∧ Inv zeroK s1 L1 ∧
        SortedKeys less (keys L1) ∧
        (TiesAreEqual less → StrictSorted less (keys L) → StrictSorted less (keys L1)) ∧
        entries L1 = specInsert less zeroK (entries L) key value ∧
        entries L1 = below less key (entries L) ++ (key, value) :: notBelow less key (entries L) ∧
        s1.level = (if lv0 > s.level then s.level + 1 else s.level) ∧
        s1.heap.length = s.heap.length + 1) := by
  obtain ⟨A, B, U, hf⟩ := find_res less key h
  obtain ⟨hb, hnb⟩ := hf.entries_split h hw hs
  have hfirst := hf.specFirst_eq h hw hs
  obtain ⟨hAl, hBl⟩ := hf.sorted_split h hw hs
  by_cases hk : firstKey zeroK B = key
  · left
    refine ⟨by rw [hfirst]; exact hk, ?_⟩
    cases B with
    | nil =>
      simp only [firstKey] at hk
      subst hk
      obtain ⟨g1, g2⟩ := insert_hit_tail h hf value draws
      refine ⟨_, L, g1, g2, rfl, ?_, rfl, rfl⟩
      simp only [specInsert, hnb]
      simp [entries]
    | cons b B1 =>
      obtain ⟨s2, g1, g2, g3, g4⟩ := insert_hit_node h hf hk value draws
      refine ⟨s2, _, g1, g2, ?_, ?_, g3, g4⟩
      · rw [hf.split]; simp [keys]
      · simp only [firstKey] at hk
        simp only [specInsert, hnb, hb]
        simp [entries, hk]
  · right
    have hk2 : specFirst less zeroK (entries L) key ≠ key := by rw [hfirst]; exact hk
    cases hr : randomLevel draws with
    | none => exact Or.inl ⟨hk2, rfl, insert_diverge h hf hk value hr⟩
    | some r =>
      obtain ⟨lv0, rest1⟩ := r
      obtain ⟨s2, g1, g2, g3, g4⟩ := insert_miss h hf hk value hr
      have hent : entries (A ++ newCell s key value lv0 :: B) =
          below less key (entries L) ++ (key, value) :: notBelow less key (entries L) := by
        rw [hb, hnb]; simp [entries, newCell]
      have hsL := hs
      rw [hf.split, keys_append, SortedKeys, List.pairwise_append] at hsL
      obtain ⟨hsA, hsB, hsAB⟩ := hsL
      refine Or.inr ⟨hk2, lv0, rest1, s2, _, rfl, g1, g2, ?_, ?_, ?_, hent, g3, g4⟩
      · rw [keys_append, SortedKeys, List.pairwise_append]
        refine ⟨hsA, ?_, ?_⟩
        · simp only [keys, List.map_cons, List.pairwise_cons, List.mem_map]
          refine ⟨?_, hsB⟩
          rintro y ⟨c, hc, rfl⟩
          exact hBl c hc
        · intro a ha y hy
          simp only [keys, List.map_cons, List.mem_cons] at hy
          rcases hy with hy | hy
          · obtain ⟨c, hc, rfl⟩ := List.mem_map.mp ha
            rw [hy]
            exact hw.asymm (hAl c hc)
          · exact hsAB a ha y hy
      · intro ht hst
        rw [hf.split, keys_append, StrictSorted, List.pairwise_append] at hst
        obtain ⟨stA, stB, stAB⟩ := hst
        rw [keys_append, StrictSorted, List.pairwise_append]
        refine ⟨stA, ?_, ?_⟩
        · simp only [keys, List.map_cons, List.pairwise_cons, List.mem_map]
          refine ⟨?_, stB⟩
          rintro y ⟨c, hc, rfl⟩
          cases B with
          | nil => cases hc
          | cons b B1 =>
            simp only [firstKey] at hk
            have hkb : less key b.key = true := by
              by_contra hx
              have hx2 : less key b.key = false := by simpa using hx
              exact hk (ht b.key key (hBl b (List.mem_cons_self _ _)) hx2)
            rcases List.mem_cons.mp hc with hc | hc
            · rw [hc]; exact hkb
            · simp only [keys, List.map_cons, List.pairwise_cons, List.mem_map] at stB
              exact hw.trans _ _ _ hkb (stB.1 c.key ⟨c, hc, rfl⟩)
        · intro a ha y hy
          simp only [keys, List.map_cons, List.mem_cons] at hy
          rcases hy with hy | hy
          · obtain ⟨c, hc, rfl⟩ := List.mem_map.mp ha
            rw [hy]
            exact hAl c hc
          · exact stAB a ha y hy
      · rw [hent]
        cases B with
        | nil =>
          simp only [firstKey] at hk
          simp only [specInsert, hnb, hb]
          simp [entries, hk]
        | cons b B1 =>
          simp only [firstKey] at hk
          simp only [specInsert, hnb, hb]
          simp [entries, hk]

/-- What `erase` does to a well-formed sorted state. -/
theorem erase_spec {less : K → K → Bool} [DecidableEq K] {zeroK : K} {s : skip_list K V}
    {L : List (Cell K V)} (h : Inv zeroK s L) (hw : StrictWeakOrder less)
    (hs : SortedKeys less (keys L)) (key : K) :
    (specErase less zeroK (entries L) key = .error Fault.fault ∧
      erase less s key = .error Fault.fault) ∨
    (specErase less zeroK (entries L) key = .ok (false, entries L) ∧
      erase less s key = .ok (false, s)) ∨
    (∃ s1 L1 v, specErase less zeroK (entries L) key = .ok (true, entries L1) ∧
      erase less s key = .ok (true, s1) ∧ Inv zeroK s1 L1 ∧ List.Sublist L1 L ∧
      entries L = below less key (entries L) ++ (key, v) :: (notBelow less key (entries L)).tail ∧
      entries L1 = below less key (entries L) ++ (notBelow less key (entries L)).tail ∧
      s1.level ≤ s.level ∧ (s1.level = 0 ∨ ∃ d ∈ L1, s1.level ≤ d.lvl) ∧
      s1.heap.length = s.heap.length) := by
  obtain ⟨A, B, U, hf⟩ := find_res less key h
  obtain ⟨hb, hnb⟩ := hf.entries_split h hw hs
  by_cases hk : firstKey zeroK B = key
  · cases B with
    | nil =>
      simp only [firstKey] at hk
      subst hk
      left
      exact ⟨by simp only [specErase, hnb]; simp [entries], erase_tail_fault h hf⟩
    | cons c B1 =>
      obtain ⟨s2, g1, g2, g3, g4, g5⟩ := erase_hit h hf hk
      simp only [firstKey] at hk
      refine Or.inr (Or.inr ⟨s2, A ++ B1, c.val, ?_, g1, g2, ?_, ?_, ?_, g3, g4, g5⟩)
      · simp only [specErase, hnb, hb]
        simp [entries, hk]
      · rw [hf.split]
        exact List.Sublist.append_left (List.sublist_cons_self _ _) _
      · rw [hb, hnb, hf.split]; simp [entries, hk]
      · rw [hb, hnb]; simp [entries]
  · right; left
    refine ⟨?_, erase_miss h hf hk⟩
    cases B with
    | nil =>
      simp only [firstKey] at hk
      simp only [specErase, hnb]
      simp [entries, hk]
    | cons c B1 =>
      simp only [firstKey] at hk
      simp only [specErase, hnb]
      simp [entries, hk]

theorem count_eq_spec {less : K → K → Bool} [DecidableEq K] {zeroK : K} {s : skip_list K V}
    {L : List (Cell K V)} (h : Inv zeroK s L) (hw : StrictWeakOrder less)
    (hs : SortedKeys less (keys L)) (key : K) :
    count less s key = .ok (specCount less (entries L) key) := by
  obtain ⟨A, B, U, hf⟩ := find_res less key h
  rw [count_spec h hf, specCount, (hf.entries_split h hw hs).2]
  cases B <;> simp [countCells, entries]

theorem findIter_eq_spec {less : K → K → Bool} [DecidableEq K] {zeroK : K} {s : skip_list K V}
    {L : List (Cell K V)} (h : Inv zeroK s L) (hw : StrictWeakOrder less)
    (hs : SortedKeys less (keys L)) (key : K) :
    ∃ p, findIter less s key = .ok p ∧
      decide (p ≠ endIter s) = specCount less (entries L) key := by
  obtain ⟨A, B, U, hf⟩ := find_res less key h
  refine ⟨_, findIter_spec h hf, ?_⟩
  rw [specCount, (hf.entries_split h hw hs).2]
  cases hB : B with
  | nil => simp [findCells, entries, endIter]
  | cons b B1 =>
    have hbt : b.ptr ≠ Ptr.tail := h.ptr_ne_tail b (by rw [hf.split, hB]; simp)
    by_cases hk : b.key = key
    · simp [findCells, entries, endIter, hk, hbt]
    · have hk2 : ¬ key = b.key := fun e => hk e.symm
      simp [findCells, entries, endIter, hk, hk2]

/-! ## Reachable states -/

theorem SortedKeys_sublist {less : K → K → Bool} {L1 L : List (Cell K V)}
    (hsub : List.Sublist L1 L) (h : SortedKeys less (keys L)) : SortedKeys less (keys L1) :=
  List.Pairwise.sublist (List.Sublist.map _ hsub) h

theorem StrictSorted_sublist {less : K → K → Bool} {L1 L : List (Cell K V)}
    (hsub : List.Sublist L1 L) (h : StrictSorted less (keys L)) : StrictSorted less (keys L1) :=
  List.Pairwise.sublist (List.Sublist.map _ hsub) h

theorem reachable_sorted {less : K → K → Bool} [DecidableEq K] {zeroK : K} {zeroV : V}
    {s : skip_list K V} (hw : StrictWeakOrder less) (hr : Reachable less zeroK zeroV s) :
    ∃ L, Inv zeroK s L ∧ SortedKeys less (keys L) ∧
      (TiesAreEqual less → StrictSorted less (keys L)) := by
  induction hr with
  | fresh =>
    exact ⟨[], init_inv zeroK zeroV, List.Pairwise.nil, fun _ => List.Pairwise.nil⟩
  | insert key value draws rest _ he ih =>
    obtain ⟨L, hL, hs, hst⟩ := ih
    rcases insert_spec hL hw hs key value draws with
      ⟨_, s2, L1, g1, g2, g3, _⟩ | ⟨_, _, g1⟩ | ⟨_, lv0, rest1, s2, L1, _, g1, g2, g3, g4, _⟩
    · rw [g1] at he
      simp only [Except.ok.injEq, Prod.mk.injEq] at he
      rw [← he.1]
      exact ⟨L1, g2, by rw [g3]; exact hs, fun ht => by rw [g3]; exact hst ht⟩
    · rw [g1] at he; cases he
    · rw [g1] at he
      simp only [Except.ok.injEq, Prod.mk.injEq] at he
      rw [← he.1]
      exact ⟨L1, g2, g3, fun ht => g4 ht (hst ht)⟩
  | erase key b _ he ih =>
    obtain ⟨L, hL, hs, hst⟩ := ih
    rcases erase_spec hL hw hs key with ⟨_, g1⟩ | ⟨_, g1⟩ | ⟨s2, L1, v, _, g1, g2, g3, _⟩
    · rw [g1] at he; cases he
    · rw [g1] at he
      simp only [Except.ok.injEq, Prod.mk.injEq] at he
      rw [← he.2]
      exact ⟨L, hL, hs, hst⟩
    · rw [g1] at he
      simp only [Except.ok.injEq, Prod.mk.injEq] at he
      rw [← he.2]
      exact ⟨L1, g2, SortedKeys_sublist g3 hs, fun ht => StrictSorted_sublist g3 (hst ht)⟩

/-! ## Level draws -/

theorem randomLevelLoop_countP : ∀ (draws : List Nat) (lv : Nat),
    (randomLevelLoop draws lv = none ∧ draws.countP stops = 0) ∨
    (∃ r rest, randomLevelLoop draws lv = some (r, rest) ∧
      draws.countP stops = rest.countP stops + 1) := by
  intro draws
  induction draws with
  | nil => intro lv; exact Or.inl ⟨rfl, rfl⟩
  | cons d ds ih =>
    intro lv
    by_cases hd : (d &&& S) < PS
    · have hst : stops d = false := by simp [stops, hd]
      rcases ih (lv + 1) with ⟨h1, h2⟩ | ⟨r, rest, h1, h2⟩
      · left
        exact ⟨by simp [randomLevelLoop, hd, h1], by simp [List.countP_cons, hst, h2]⟩
      · right
        exact ⟨r, rest, by simp [randomLevelLoop, hd, h1], by simp [List.countP_cons, hst, h2]⟩
    · have hst : stops d = true := by simp [stops, hd]
      right
      exact ⟨lv, ds, by simp [randomLevelLoop, hd], by simp [List.countP_cons, hst]⟩

theorem randomLevel_countP (draws : List Nat) :
    (randomLevel draws = none ∧ draws.countP stops = 0) ∨
    (∃ lv rest, randomLevel draws = some (lv, rest) ∧
      draws.countP stops = rest.countP stops + 1) := by
  rcases randomLevelLoop_countP draws 1 with ⟨h1, h2⟩ | ⟨r, rest, h1, h2⟩
  · exact Or.inl ⟨by simp [randomLevel, h1], h2⟩
  · exact Or.inr ⟨if MAXL > r then r else MAXL, rest, by simp [randomLevel, h1], h2⟩

theorem randomLevel_enough {n : Nat} {draws : List Nat} (h : Enough (n + 1) draws) :
    ∃ lv rest, randomLevel draws = some (lv, rest) ∧ Enough n rest := by
  unfold Enough at h
  rcases randomLevel_countP draws with ⟨_, h2⟩ | ⟨lv, rest, h1, h2⟩
  · omega
  · exact ⟨lv, rest, h1, by unfold Enough; omega⟩

/-! ## Call sequences -/

/-- A run either faults where the run on the entries faults, or returns what the run on the
entries returns, or stops for want of a level draw. -/
theorem run_spec {less : K → K → Bool} [DecidableEq K] {zeroK : K} (hw : StrictWeakOrder less) :
    ∀ (ops : List (Op K V)) (s : skip_list K V) (L : List (Cell K V)) (draws : List Nat),
      Inv zeroK s L → SortedKeys less (keys L) →
      (specRun less zeroK (entries L) ops = .error Fault.fault ∧
        run less s draws ops = .error Fault.fault) ∨
      (∃ os s1 rest L1, run less s draws ops = .ok (os, s1, rest) ∧
        specRun less zeroK (entries L) ops = .ok (os, entries L1) ∧ Inv zeroK s1 L1 ∧
        SortedKeys less (keys L1)) ∨
      (run less s draws ops = .error Fault.diverge ∧ ¬ Enough ops.length draws) := by
  intro ops
  induction ops with
  | nil =>
    intro s L draws hL hs
    exact Or.inr (Or.inl ⟨[], s, draws, L, rfl, rfl, hL, hs⟩)
  | cons op ops ih =>
    intro s L draws hL hs
    have hcont : ∀ (o : Obs) (s1 : skip_list K V) (L1 : List (Cell K V)) (rest : List Nat),
        step less s draws op = .ok (o, s1, rest) →
        specStep less zeroK (entries L) op = .ok (o, entries L1) →
        Inv zeroK s1 L1 → SortedKeys less (keys L1) →
        (Enough (ops.length + 1) draws → Enough ops.length rest) →
        (specRun less zeroK (entries L) (op :: ops) = .error Fault.fault ∧
          run less s draws (op :: ops) = .error Fault.fault) ∨
        (∃ os s2 rest2 L2, run less s draws (op :: ops) = .ok (os, s2, rest2) ∧
          specRun less zeroK (entries L) (op :: ops) = .ok (os, entries L2) ∧ Inv zeroK s2 L2 ∧
          SortedKeys less (keys L2)) ∨
        (run less s draws (op :: ops) = .error Fault.diverge ∧
          ¬ Enough (op :: ops).length draws) := by
      intro o s1 L1 rest h1 h2 h3 h4 h5
      rcases ih s1 L1 rest h3 h4 with ⟨g1, g2⟩ | ⟨os, s2, rest2, L2, g1, g2, g3, g4⟩ | ⟨g1, g2⟩
      · exact Or.inl ⟨by simp [specRun, h2, g1], by simp [run, h1, g2]⟩
      · exact Or.inr (Or.inl ⟨o :: os, s2, rest2, L2, by simp [run, h1, g1],
          by simp [specRun, h2, g2], g3, g4⟩)
      · exact Or.inr (Or.inr ⟨by simp [run, h1, g1], fun he => g2 (h5 he)⟩)
    have hmono : Enough (ops.length + 1) draws → Enough ops.length draws := by
      unfold Enough; omega
    cases op with
    | insert key value =>
      rcases insert_spec hL hw hs key value draws with
        ⟨_, s2, L1, g1, g2, g3, g4, _⟩ | ⟨_, g0, g1⟩ |
        ⟨_, lv0, rest1, s2, L1, g0, g1, g2, g3, _, g4, _⟩
      · exact hcont Obs.done s2 L1 draws (by simp [step, g1]) (by simp [specStep, g4]) g2
          (by rw [g3]; exact hs) hmono
      · refine Or.inr (Or.inr ⟨by simp [run, step, g1], ?_⟩)
        rcases randomLevel_countP draws with ⟨_, h2⟩ | ⟨lv, rest, h1, _⟩
        · unfold Enough; simp only [List.length_cons]; omega
        · rw [g0] at h1; cases h1
      · refine hcont Obs.done s2 L1 rest1 (by simp [step, g1]) (by simp [specStep, g4]) g2 g3 ?_
        rcases randomLevel_countP draws with ⟨h1, _⟩ | ⟨lv, rest, h1, h2⟩
        · rw [g0] at h1; cases h1
        · rw [g0] at h1
          simp only [Option.some.injEq, Prod.mk.injEq] at h1
          rw [h1.2]
          unfold Enough; omega
    | erase key =>
      rcases erase_spec hL hw hs key with ⟨g0, g1⟩ | ⟨g0, g1⟩ | ⟨s2, L1, v, g0, g1, g2, g3, _⟩
      · exact Or.inl ⟨by simp [specRun, specStep, g0], by simp [run, step, g1]⟩
      · exact hcont (Obs.bool false) s L draws (by simp [step, g1]) (by simp [specStep, g0])
          hL hs hmono
      · exact hcont (Obs.bool true) s2 L1 draws (by simp [step, g1]) (by simp [specStep, g0])
          g2 (SortedKeys_sublist g3 hs) hmono
    | count key =>
      exact hcont (Obs.bool (specCount less (entries L) key)) s L draws
        (by simp [step, count_eq_spec hL hw hs key]) (by simp [specStep]) hL hs hmono
    | find key =>
      obtain ⟨p, g1, g2⟩ := findIter_eq_spec hL hw hs key
      exact hcont (Obs.found (specCount less (entries L) key)) s L draws
        (by simp only [step, g1, g2]) (by simp [specStep]) hL hs hmono

theorem observe_of_inv {zeroK : K} {s : skip_list K V} {L : List (Cell K V)} (os : List Obs)
    (rest : List Nat) (h : Inv zeroK s L) :
    observe (.ok (os, s, rest)) = .ok (os, ((entries L).length : Int), entries L) := by
  simp [observe, h.toList_eq, h.length_eq, entries]

/-- When no level draw runs on for ever, what is observed of a run is what the run on the
entries gives, whatever the draws. -/
theorem observe_run {less : K → K → Bool} [DecidableEq K] {zeroK : K} {zeroV : V}
    (hw : StrictWeakOrder less) (ops : List (Op K V)) (draws : List Nat)
    (hnd : run less (init zeroK zeroV) draws ops ≠ .error Fault.diverge) :
    observe (run less (init zeroK zeroV) draws ops) =
      specObserve (specRun less zeroK ([] : List (K × V)) ops) := by
  rcases run_spec hw ops (init zeroK zeroV) [] draws (init_inv zeroK zeroV) List.Pairwise.nil with
    ⟨g1, g2⟩ | ⟨os, s1, rest, L1, g1, g2, g3, _⟩ | ⟨g1, _⟩
  · simp only [entries, List.map_nil] at g1
    rw [g1, g2]; rfl
  · simp only [entries, List.map_nil] at g2
    rw [g1, g2, observe_of_inv os rest g3]; rfl
  · exact absurd g1 hnd

theorem run_total {less : K → K → Bool} [DecidableEq K] {zeroK : K} {zeroV : V}
    (hw : StrictWeakOrder less) (ops : List (Op K V)) (draws : List Nat)
    (he : Enough ops.length draws) :
    run less (init zeroK zeroV) draws ops ≠ .error Fault.diverge := by
  rcases run_spec hw ops (init zeroK zeroV) [] draws (init_inv zeroK zeroV) List.Pairwise.nil with
    ⟨_, g2⟩ | ⟨os, s1, rest, L1, g1, _⟩ | ⟨_, g2⟩
  · rw [g2]; simp
  · rw [g1]; simp
  · exact absurd he g2

/-! ## Lists of entries -/

theorem below_append_notBelow (less : K → K → Bool) (k : K) (l : List (K × V)) :
    below less k l ++ notBelow less k l = l :=
  List.takeWhile_append_dropWhile _ _

theorem below_less {less : K → K → Bool} {k : K} :
    ∀ {l : List (K × V)} {e : K × V}, e ∈ below less k l → less e.1 k = true := by
  intro l
  induction l with
  | nil => intro e he; simp [below] at he
  | cons x l ih =>
    intro e he
    simp only [below, List.takeWhile_cons] at he
    split at he
    · rename_i hx
      rcases List.mem_cons.mp he with he | he
      · rw [he]; exact hx
      · exact ih he
    · cases he

theorem notBelow_head {less : K → K → Bool} {k : K} :
    ∀ {l : List (K × V)} {e : K × V} {rest : List (K × V)},
      notBelow less k l = e :: rest → less e.1 k = false := by
  intro l
  induction l with
  | nil => intro e rest he; simp [notBelow] at he
  | cons x l ih =>
    intro e rest he
    simp only [notBelow, List.dropWhile_cons] at he
    split at he
    · exact ih he
    · rename_i hx
      simp only [List.cons.injEq] at he
      rw [← he.1]
      simpa using hx

theorem split_at_first {less : K → K → Bool} {k : K} :
    ∀ (a : List (K × V)) (x : K × V) (b : List (K × V)), (∀ y ∈ a, less y.1 k = true) →
      less x.1 k = false →
      below less k (a ++ x :: b) = a ∧ notBelow less k (a ++ x :: b) = x :: b := by
  intro a
  induction a with
  | nil =>
    intro x b _ hx
    simp [below, notBelow, List.takeWhile_cons, List.dropWhile_cons, hx]
  | cons y a ih =>
    intro x b ha hx
    have hy := ha y (List.mem_cons_self _ _)
    obtain ⟨h1, h2⟩ := ih x b (fun z hz => ha z (List.mem_cons_of_mem _ hz)) hx
    simp only [below, notBelow] at h1 h2
    simp [below, notBelow, List.takeWhile_cons, List.dropWhile_cons, hy, h1, h2]

theorem strictSorted_ne {less : K → K → Bool} (hw : StrictWeakOrder less) {a b : K}
    (h : less a b = true) : a ≠ b := by
  intro e
  rw [e, hw.irrefl b] at h
  cases h

theorem StrictSorted.nodup {less : K → K → Bool} (hw : StrictWeakOrder less) {ks : List K}
    (h : StrictSorted less ks) : ks.Nodup :=
  List.Pairwise.imp (fun hab => strictSorted_ne hw hab) h

/-- A stored key is the key of the first entry not below it, and every later key is greater. -/
theorem notBelow_of_mem {less : K → K → Bool} (hw : StrictWeakOrder less) {k : K}
    {l : List (K × V)} (hs : StrictSorted less (l.map Prod.fst)) (hk : k ∈ l.map Prod.fst) :
    ∃ v rest, notBelow less k l = (k, v) :: rest ∧ ∀ y ∈ rest, less k y.1 = true := by
  obtain ⟨e, he, hek⟩ := List.mem_map.mp hk
  have hsplit := below_append_notBelow less k l
  have hmem : e ∈ notBelow less k l := by
    rw [← hsplit] at he
    rcases List.mem_append.mp he with he | he
    · have := below_less he
      rw [hek, hw.irrefl k] at this
      cases this
    · exact he
  cases hnb : notBelow less k l with
  | nil => rw [hnb] at hmem; cases hmem
  | cons x rest =>
    have hx := notBelow_head hnb
    have hsub : List.Sublist (x :: rest) l := by
      rw [← hsplit, hnb]; exact List.sublist_append_right _ _
    have hpw : StrictSorted less ((x :: rest).map Prod.fst) :=
      List.Pairwise.sublist (List.Sublist.map _ hsub) hs
    simp only [StrictSorted, List.map_cons, List.pairwise_cons, List.mem_map] at hpw
    have hxk : x.1 = k := by
      rw [hnb] at hmem
      rcases List.mem_cons.mp hmem with hm | hm
      · rw [← hm]; exact hek
      · have := hpw.1 e.1 ⟨e, hm, rfl⟩
        rw [hek, hx] at this
        cases this
    refine ⟨x.2, rest, ?_, ?_⟩
    · rw [← hxk]
    · intro y hy
      rw [← hxk]
      exact hpw.1 y.1 ⟨y, hy, rfl⟩

theorem specCount_of_not_mem {less : K → K → Bool} [DecidableEq K] {k : K} {l : List (K × V)}
    (hk : k ∉ l.map Prod.fst) : specCount less l k = false := by
  simp only [specCount]
  cases hnb : notBelow less k l with
  | nil => rfl
  | cons x rest =>
    have hx : x ∈ l := by
      rw [← below_append_notBelow less k l, hnb]; simp
    have : k ≠ x.1 := fun e => hk (by rw [e]; exact List.mem_map_of_mem _ hx)
    simp [this]

theorem specCount_eq_mem {less : K → K → Bool} [DecidableEq K] (hw : StrictWeakOrder less)
    {l : List (K × V)} (hs : StrictSorted less (l.map Prod.fst)) (k : K) :
    specCount less l k = decide (k ∈ l.map Prod.fst) := by
  by_cases hk : k ∈ l.map Prod.fst
  · obtain ⟨v, rest, h1, _⟩ := notBelow_of_mem hw hs hk
    simp [specCount, h1, hk]
  · rw [specCount_of_not_mem hk]
    simp [hk]

/-- Inserting a key that is stored replaces its value, and it is then the only entry with that
key. -/
theorem specInsert_of_mem {less : K → K → Bool} [DecidableEq K] (hw : StrictWeakOrder less)
    (zeroK : K) {k : K} {l : List (K × V)} (hs : StrictSorted less (l.map Prod.fst))
    (hk : k ∈ l.map Prod.fst) (v : V) :
    specFirst less zeroK l k = k ∧
      (specInsert less zeroK l k v).filter (fun e => decide (e.1 = k)) = [(k, v)] := by
  obtain ⟨v0, rest, h1, h2⟩ := notBelow_of_mem hw hs hk
  refine ⟨by simp [specFirst, h1], ?_⟩
  simp only [specInsert, h1, if_true, List.filter_append, List.filter_cons, decide_True]
  have hb : (below less k l).filter (fun e => decide (e.1 = k)) = [] := by
    rw [List.filter_eq_nil_iff]
    intro e he
    simpa using strictSorted_ne hw (below_less he)
  have hr : rest.filter (fun e => decide (e.1 = k)) = [] := by
    rw [List.filter_eq_nil_iff]
    intro e he
    simpa using (strictSorted_ne hw (h2 e he)).symm
  rw [hb, hr]
  rfl

/-- Inserting a key that is neither stored nor the placeholder adds one entry. -/
theorem specInsert_perm (less : K → K → Bool) [DecidableEq K] {zeroK k : K}
    {l : List (K × V)} (hz : zeroK ≠ k) (hk : k ∉ l.map Prod.fst) (v : V) :
    (specInsert less zeroK l k v).Perm ((k, v) :: l) := by
  have hsplit := below_append_notBelow less k l
  simp only [specInsert]
  cases hnb : notBelow less k l with
  | nil =>
    rw [hnb, List.append_nil] at hsplit
    simp only [hz, if_false, hsplit]
    exact List.perm_append_singleton _ _
  | cons x rest =>
    have hx : x ∈ l := by rw [← hsplit, hnb]; simp
    have hxk : ¬ x.1 = k := fun e => hk (by rw [← e]; exact List.mem_map_of_mem _ hx)
    simp only [hxk, if_false]
    rw [hnb] at hsplit
    have : (below less k l ++ (k, v) :: x :: rest).Perm
        ((k, v) :: (below less k l ++ x :: rest)) := List.perm_middle
    rw [hsplit] at this
    exact this

theorem specRun_inserts (less : K → K → Bool) [DecidableEq K] (zeroK : K) :
    ∀ (kvs : List (K × V)) (l : List (K × V)), zeroK ∉ kvs.map Prod.fst →
      (kvs.map Prod.fst).Nodup → (∀ k ∈ kvs.map Prod.fst, k ∉ l.map Prod.fst) →
      ∃ os l1, specRun less zeroK l (kvs.map (fun e => Op.insert e.1 e.2)) = .ok (os, l1) ∧
        l1.Perm (kvs ++ l) := by
  intro kvs
  induction kvs with
  | nil => intro l _ _ _; exact ⟨[], l, rfl, List.Perm.refl _⟩
  | cons e kvs ih =>
    intro l hz hnd hdis
    simp only [List.map_cons, List.mem_cons, not_or, List.nodup_cons] at hz hnd hdis
    have hp := specInsert_perm less hz.1 (hdis e.1 (Or.inl rfl)) e.2
    have hdis2 : ∀ k ∈ kvs.map Prod.fst, k ∉ (specInsert less zeroK l e.1 e.2).map Prod.fst := by
      intro k hk hmem
      have := (List.Perm.map Prod.fst hp).subset hmem
      simp only [List.map_cons, List.mem_cons] at this
      rcases this with h | h
      · rw [h] at hk; exact hnd.1 hk
      · exact hdis k (Or.inr hk) h
    obtain ⟨os, l1, g1, g2⟩ := ih (specInsert less zeroK l e.1 e.2) hz.2 hnd.2 hdis2
    refine ⟨Obs.done :: os, l1, by simp [specRun, specStep, g1], ?_⟩
    refine g2.trans ?_
    refine (List.Perm.append_left kvs hp).trans ?_
    have : (kvs ++ e :: l).Perm (e :: (kvs ++ l)) := List.perm_middle
    exact this

/-! ## The comparators of `main.cpp` -/

theorem Less_swo : StrictWeakOrder Less := by
  refine ⟨?_, ?_, ?_⟩
  · intro a; simp [Less]
  · intro a b c; simp only [Less, decide_eq_true_eq]; omega
  · intro a b c; simp only [Less, decide_eq_false_iff_not]; omega

theorem Less_ties : TiesAreEqual Less := by
  intro a b; simp only [Less, decide_eq_false_iff_not]; omega

theorem cmpGreater_swo : StrictWeakOrder cmpGreater := by
  refine ⟨?_, ?_, ?_⟩
  · intro a; simp [cmpGreater]
  · intro a b c; simp only [cmpGreater, decide_eq_true_eq]; omega
  · intro a b c; simp only [cmpGreater, decide_eq_false_iff_not]; omega

theorem cmpLength_swo : StrictWeakOrder cmpLength := by
  refine ⟨?_, ?_, ?_⟩
  · intro a; simp [cmpLength]
  · intro a b c; simp only [cmpLength, decide_eq_true_eq]; omega
  · intro a b c; simp only [cmpLength, decide_eq_false_iff_not]; omega

/-- A state a run from a reachable state ends in is reachable. -/
theorem Reachable.of_run {less : K → K → Bool} [DecidableEq K] {zeroK : K} {zeroV : V} :
    ∀ (ops : List (Op K V)) (s0 : skip_list K V) (draws : List Nat) (os : List Obs)
      (s : skip_list K V) (rest : List Nat), Reachable less zeroK zeroV s0 →
      run less s0 draws ops = .ok (os, s, rest) → Reachable less zeroK zeroV s := by
  intro ops
  induction ops with
  | nil =>
    intro s0 draws os s rest h0 hr
    simp only [run, Except.ok.injEq, Prod.mk.injEq] at hr
    rw [← hr.2.1]; exact h0
  | cons op ops ih =>
    intro s0 draws os s rest h0 hr
    simp only [run] at hr
    split at hr
    · cases hr
    · rename_i o s1 rest1 hstep
      split at hr
      · cases hr
      · rename_i os2 s2 rest2 hrun
        simp only [Except.ok.injEq, Prod.mk.injEq] at hr
        rw [← hr.2.1]
        refine ih s1 rest1 os2 s2 rest2 ?_ hrun
        cases op with
        | insert key value =>
          simp only [step] at hstep
          split at hstep
          · cases hstep
          · rename_i s3 rest3 hins
            simp only [Except.ok.injEq, Prod.mk.injEq] at hstep
            rw [← hstep.2.1]
            exact Reachable.insert key value draws rest3 h0 hins
        | erase key =>
          simp only [step] at hstep
          split at hstep
          · cases hstep
          · rename_i b s3 her
            simp only [Except.ok.injEq, Prod.mk.injEq] at hstep
            rw [← hstep.2.1]
            exact Reachable.erase key b h0 her
        | count key =>
          simp only [step] at hstep
          split at hstep
          · cases hstep
          · simp only [Except.ok.injEq, Prod.mk.injEq] at hstep
            rw [← hstep.2.1]; exact h0
        | find key =>
          simp only [step] at hstep
          split at hstep
          · cases hstep
          · simp only [Except.ok.injEq, Prod.mk.injEq] at hstep
            rw [← hstep.2.1]; exact h0

theorem mainLength_reachable : Reachable cmpLength zeroString (0 : Int) mainLength :=
  Reachable.of_run mainLengthOps _ mainLengthDraws [Obs.done, Obs.done, Obs.done] mainLength
    [65535] Reachable.fresh rfl

theorem mainDefault_reachable : Reachable Less (0 : Int) (0 : Int) mainDefault :=
  Reachable.of_run mainDefaultOps _ mainDefaultDraws
    [Obs.done, Obs.done, Obs.done, Obs.done, Obs.done, Obs.done] mainDefault [65535]
    Reachable.fresh rfl

/-! ## Lemmas for the claims -/

/-- When the key compared by `insert` is `k` itself and the placeholder case is excluded, `k` is
a stored key. -/
theorem mem_of_specFirst {less : K → K → Bool} {zeroK k : K} {l : List (K × V)}
    (hf : specFirst less zeroK l k = k)
    (hk : k ≠ zeroK ∨ ∃ e, e ∈ l ∧ less e.1 k = false) : k ∈ l.map Prod.fst := by
  have hsplit := below_append_notBelow less k l
  simp only [specFirst] at hf
  cases hnb : notBelow less k l with
  | nil =>
    rw [hnb] at hf hsplit
    simp only at hf
    rcases hk with hk | ⟨e, he, hek⟩
    · exact absurd hf.symm hk
    · rw [List.append_nil] at hsplit
      rw [← hsplit] at he
      rw [below_less he] at hek
      cases hek
  | cons x rest =>
    rw [hnb] at hf hsplit
    simp only at hf
    rw [← hf]
    exact List.mem_map_of_mem _ (by rw [← hsplit]; simp)

/-- Inserting a stored key into a strictly sorted state draws no level and leaves one entry with
that key, holding the new value. -/
theorem insert_stored {less : K → K → Bool} [DecidableEq K] {zeroK k : K} {s : skip_list K V}
    {L : List (Cell K V)} (hw : StrictWeakOrder less) (h : Inv zeroK s L)
    (hs : StrictSorted less (keys L)) (hk : k ∈ keys L) (v : V) (r : List Nat) :
    ∃ s2 l, insert less s k v r = .ok (s2, r) ∧ toList s2 = .ok l ∧
      l.filter (fun e => decide (e.1 = k)) = [(k, v)] := by
  have hs2 : StrictSorted less ((entries L).map Prod.fst) := by rw [keys_entries]; exact hs
  have hk2 : k ∈ (entries L).map Prod.fst := by rw [keys_entries]; exact hk
  obtain ⟨hfirst, hfilter⟩ := specInsert_of_mem hw zeroK hs2 hk2 v
  rcases insert_spec h hw (hs.sorted hw) k v r with
    ⟨_, s2, L1, g1, g2, _, g4, _⟩ | ⟨hne, _⟩ | ⟨hne, _⟩
  · exact ⟨s2, entries L1, g1, g2.toList_eq, by rw [g4]; exact hfilter⟩
  · exact absurd hfirst hne
  · exact absurd hfirst hne

/-! ## The claims -/

/-- C1, refuted as stated: the length comparator of `main` is a strict weak order, and after the
three inserts of the first block of `main` the iteration is "aab", "world", "hello", where
"world" is not less than "hello": consecutive keys need not be in strictly ascending order. -/
theorem C1_counterexample :
    StrictWeakOrder cmpLength ∧ Reachable cmpLength zeroString (0 : Int) mainLength ∧
      toList mainLength = .ok [("aab", 1321), ("world", 544), ("hello", 54342)] ∧
      cmpLength "world" "hello" = false ∧
      ¬ StrictSorted cmpLength ["aab", "world", "hello"] := by
  refine ⟨cmpLength_swo, mainLength_reachable, rfl, rfl, ?_⟩
  intro h
  simp only [StrictSorted, List.pairwise_cons] at h
  have := h.2.1 "hello" (by simp)
  exact absurd this (by decide)

/-- C1, amended: for a strict weak order, in every state reachable from a fresh list by insert
and erase calls that return, the iteration from `begin()` to `end()` returns and no key in it is
less than a key before it; when comparator ties are exactly equal keys, every key is less than
every later key and no key appears twice. -/
theorem C1_ordering {less : K → K → Bool} [DecidableEq K] {zeroK : K} {zeroV : V}
    {s : skip_list K V} (hw : StrictWeakOrder less) (hr : Reachable less zeroK zeroV s) :
    ∃ l, toList s = .ok l ∧ SortedKeys less (l.map Prod.fst) ∧
      (TiesAreEqual less → StrictSorted less (l.map Prod.fst) ∧ (l.map Prod.fst).Nodup) := by
  obtain ⟨L, hL, hs, hst⟩ := reachable_sorted hw hr
  refine ⟨entries L, hL.toList_eq, by rw [keys_entries]; exact hs, ?_⟩
  intro ht
  rw [keys_entries]
  exact ⟨hst ht, (hst ht).nodup hw⟩

/-- C1, amended, in the state after the third block of `main`. -/
theorem C1_ordering_witness :
    ∃ l, toList mainDefault = .ok l ∧ SortedKeys Less (l.map Prod.fst) ∧
      (TiesAreEqual Less → StrictSorted Less (l.map Prod.fst) ∧ (l.map Prod.fst).Nodup) :=
  C1_ordering Less_swo mainDefault_reachable

/-- C2, the code at the failing input: `insert(0, 7)` into a fresh default-ordered list returns
with nothing stored (length 0, empty iteration), and under the descending comparator the keys
3, 1, 0 leave only 3 and 1; the two call sequences of the claim that avoid the placeholder key
give 1, 4, 5 with length 3 and 5, 4, 3, 1. -/
theorem C2_placeholder_key_not_inserted :
    observe (run Less (init (0 : Int) (0 : Int)) [65535] [Op.insert 0 7]) =
        .ok ([Obs.done], 0, []) ∧
      observe (run cmpGreater (init (0 : Int) (0 : Int)) [65535, 65535, 65535]
          [Op.insert 3 1, Op.insert 1 2, Op.insert 0 3]) =
        .ok ([Obs.done, Obs.done, Obs.done], 2, [(3, 1), (1, 2)]) ∧
      observe (run Less (init (0 : Int) (0 : Int)) mainDefaultDraws mainDefaultOps) =
        .ok ([Obs.done, Obs.done, Obs.done, Obs.done, Obs.done, Obs.done], 3,
          [(1, 3), (4, 3), (5, 3)]) ∧
      observe (run cmpGreater (init (0 : Int) (0 : Int)) [65535, 0, 65535, 65535, 65535]
          [Op.insert 3 1, Op.insert 1 2, Op.insert 4 3, Op.insert 1 4, Op.insert 5 5]) =
        .ok ([Obs.done, Obs.done, Obs.done, Obs.done, Obs.done], 4,
          [(5, 5), (4, 3), (3, 1), (1, 4)]) :=
  ⟨rfl, rfl, rfl, rfl⟩

/-- C3, the code at two failing inputs.  On a fresh default-ordered list `insert(0, 1)` followed
by `insert(0, 2)` returns twice with nothing stored: length 0 and an empty iteration, no entry
with key 0.  Under the length comparator, in the state after the first block of `main`, the key
"hello" is stored, `count("hello")` is false, and `insert("hello", 1)` followed by
`insert("hello", 2)` leaves two entries with key "hello", one of them with the old value. -/
theorem C3_upsert_fails :
    observe (run Less (init (0 : Int) (0 : Int)) [65535, 65535]
          [Op.insert 0 1, Op.insert 0 2]) =
        .ok ([Obs.done, Obs.done], 0, []) ∧
      StrictWeakOrder cmpLength ∧ Reachable cmpLength zeroString (0 : Int) mainLength ∧
      toList mainLength = .ok [("aab", 1321), ("world", 544), ("hello", 54342)] ∧
      count cmpLength mainLength "hello" = .ok false ∧
      observe (run cmpLength mainLength [65535]
          [Op.insert "hello" 1, Op.insert "hello" 2]) =
        .ok ([Obs.done, Obs.done], 4,
          [("aab", 1321), ("hello", 2), ("world", 544), ("hello", 54342)]) :=
  ⟨rfl, cmpLength_swo, mainLength_reachable, rfl, rfl, rfl⟩

/-- Where inserting twice does give one entry: for a strict weak order whose ties are exactly
equal keys, in every reachable state and for every key `k` that differs from the placeholder key
of the sentinels or has a stored key not less than it, `insert(k, v1)` followed by
`insert(k, v2)` both return (given a value of `rand()` that stops the level draw), and the
iteration then has exactly one entry with key `k`, whose value is `v2`. -/
theorem insert_twice_of_ties_equal {less : K → K → Bool} [DecidableEq K] {zeroK : K} {zeroV : V}
    {s : skip_list K V} (hw : StrictWeakOrder less) (ht : TiesAreEqual less)
    (hr : Reachable less zeroK zeroV s) (k : K) (v1 v2 : V) (draws : List Nat)
    (hk : k ≠ zeroK ∨ ∃ l e, toList s = .ok l ∧ e ∈ l ∧ less e.1 k = false)
    (hd : Enough 1 draws) :
    ∃ s1 r1 s2 l, insert less s k v1 draws = .ok (s1, r1) ∧
      insert less s1 k v2 r1 = .ok (s2, r1) ∧ toList s2 = .ok l ∧
      l.filter (fun e => decide (e.1 = k)) = [(k, v2)] := by
  obtain ⟨L, hL, hs, hst⟩ := reachable_sorted hw hr
  obtain ⟨lv, rest, hrl, _⟩ := randomLevel_enough hd
  have hk2 : k ≠ zeroK ∨ ∃ e, e ∈ entries L ∧ less e.1 k = false := by
    rcases hk with hk | ⟨l, e, h1, h2, h3⟩
    · exact Or.inl hk
    · rw [hL.toList_eq] at h1
      simp only [Except.ok.injEq] at h1
      exact Or.inr ⟨e, by rw [h1]; exact h2, h3⟩
  rcases insert_spec hL hw hs k v1 draws with
    ⟨hfirst, s1, L1, g1, g2, g3, _⟩ | ⟨_, g0, _⟩ | ⟨_, lv0, rest1, s1, L1, _, g1, g2, _, g4, _, g5, _⟩
  · have hmem : k ∈ keys L1 := by
      rw [g3, ← keys_entries]; exact mem_of_specFirst hfirst hk2
    obtain ⟨s2, l, h1, h2, h3⟩ :=
      insert_stored hw g2 (by rw [g3]; exact hst ht) hmem v2 draws
    exact ⟨s1, draws, s2, l, g1, h1, h2, h3⟩
  · rw [hrl] at g0; cases g0
  · have hmem : k ∈ keys L1 := by
      rw [← keys_entries, g5]; simp
    obtain ⟨s2, l, h1, h2, h3⟩ := insert_stored hw g2 (g4 ht (hst ht)) hmem v2 rest1
    exact ⟨s1, rest1, s2, l, g1, h1, h2, h3⟩

/-- Inserting the key 7 twice, with the values 10 and 20, in the state after the third block of
`main`. -/
theorem insert_twice_of_ties_equal_example :
    ∃ s1 r1 s2 l, insert Less mainDefault 7 10 [65535] = .ok (s1, r1) ∧
      insert Less s1 7 20 r1 = .ok (s2, r1) ∧ toList s2 = .ok l ∧
      l.filter (fun e => decide (e.1 = 7)) = [(7, 20)] :=
  insert_twice_of_ties_equal Less_swo Less_ties mainDefault_reachable 7 10 20 [65535] (Or.inl (by decide))
    (by decide)

theorem entries_length (L : List (Cell K V)) : (entries L).length = L.length := by
  simp [entries]

theorem Inv.length_entries {zeroK : K} {s : skip_list K V} {L : List (Cell K V)}
    (h : Inv zeroK s L) : s.length = ((entries L).length : Int) := by
  rw [h.length_eq, entries_length]

/-- C4: for a strict weak order whose ties are exactly equal keys, in every reachable state, if
`erase(k)` returns true then afterwards `count(k)` is false, the iteration is the previous one
with the single entry for `k` removed (the other entries keep keys, values and order), and
`length` is one less. -/
theorem C4_erase_correct {less : K → K → Bool} [DecidableEq K] {zeroK : K} {zeroV : V}
    {s s1 : skip_list K V} (hw : StrictWeakOrder less) (ht : TiesAreEqual less)
    (hr : Reachable less zeroK zeroV s) (k : K) (he : erase less s k = .ok (true, s1)) :
    count less s1 k = .ok false ∧
      ∃ l1 v l2, toList s = .ok (l1 ++ (k, v) :: l2) ∧ toList s1 = .ok (l1 ++ l2) ∧
        (∀ e ∈ l1 ++ l2, e.1 ≠ k) ∧ s1.length = s.length - 1 := by
  obtain ⟨L, hL, hs, hst⟩ := reachable_sorted hw hr
  rcases erase_spec hL hw hs k with ⟨_, g1⟩ | ⟨_, g1⟩ | ⟨s2, L1, v, _, g1, g2, g3, g4, g5, _⟩
  · rw [g1] at he; cases he
  · rw [g1] at he
    simp only [Except.ok.injEq, Prod.mk.injEq] at he
    exact absurd he.1 (by simp)
  · rw [g1] at he
    simp only [Except.ok.injEq, Prod.mk.injEq, true_and] at he
    subst he
    have hstrict : StrictSorted less ((entries L).map Prod.fst) := by
      rw [keys_entries]; exact hst ht
    rw [g4] at hstrict
    simp only [StrictSorted, List.map_append, List.map_cons, List.pairwise_append,
      List.pairwise_cons, List.mem_map, List.mem_cons] at hstrict
    obtain ⟨_, ⟨hk2, _⟩, hk1⟩ := hstrict
    have hne : ∀ e ∈ below less k (entries L) ++ (notBelow less k (entries L)).tail, e.1 ≠ k := by
      intro e hmem
      rcases List.mem_append.mp hmem with hm | hm
      · exact strictSorted_ne hw (hk1 e.1 ⟨e, hm, rfl⟩ k (Or.inl rfl))
      · exact (strictSorted_ne hw (hk2 e.1 ⟨e, hm, rfl⟩)).symm
    have hnot : k ∉ (entries L1).map Prod.fst := by
      rw [g5]
      intro hmem
      obtain ⟨e, hm, hek⟩ := List.mem_map.mp hmem
      exact hne e hm hek
    refine ⟨?_, below less k (entries L), v, (notBelow less k (entries L)).tail, ?_, ?_, hne, ?_⟩
    · rw [count_eq_spec g2 hw (SortedKeys_sublist g3 hs) k, specCount_of_not_mem hnot]
    · rw [hL.toList_eq, ← g4]
    · rw [g2.toList_eq, g5]
    · have hlen1 := congrArg List.length g4
      have hlen2 := congrArg List.length g5
      simp only [List.length_append, List.length_cons] at hlen1 hlen2
      rw [g2.length_entries, hL.length_entries, hlen1, hlen2]
      push_cast
      omega

/-- C4 for `erase(4)` in the state after the third block of `main`. -/
theorem C4_erase_correct_witness :
    count Less (stateOf (run Less mainDefault [] [Op.erase 4]) mainDefault) 4 = .ok false ∧
      ∃ l1 v l2, toList mainDefault = .ok (l1 ++ (4, v) :: l2) ∧
        toList (stateOf (run Less mainDefault [] [Op.erase 4]) mainDefault) = .ok (l1 ++ l2) ∧
        (∀ e ∈ l1 ++ l2, e.1 ≠ 4) ∧
        (stateOf (run Less mainDefault [] [Op.erase 4]) mainDefault).length =
          mainDefault.length - 1 :=
  C4_erase_correct Less_swo Less_ties mainDefault_reachable 4 rfl

/-- C5, the code at the failing input: on a freshly constructed list, whatever the key type and
comparator, `erase` of the placeholder key of the sentinels does not return false: it takes
`tail` for the node to remove and indexes its null `forward` array. -/
theorem C5_erase_placeholder_on_empty_faults (less : K → K → Bool) [DecidableEq K] (zeroK : K)
    (zeroV : V) : erase less (init zeroK zeroV) zeroK = .error Fault.fault := by
  have h := init_inv zeroK zeroV
  obtain ⟨A, B, U, hf⟩ := find_res less zeroK h
  have hsplit := hf.split
  have hB : B = [] := by
    cases B with
    | nil => rfl
    | cons b B1 =>
      have := congrArg List.length hsplit
      simp only [List.length_nil, List.length_append, List.length_cons] at this
      omega
  subst hB
  exact erase_tail_fault h hf

/-- C6: in every state reachable under the default ordering on integer keys, for every key `k`,
the placeholder 0 included, `count(k)` returns, and returns true exactly when `k` is the key of
an entry of the iteration from `begin()` to `end()`. -/
theorem C6_count_law {zeroV : V} {s : skip_list Int V} (hr : Reachable Less 0 zeroV s)
    (k : Int) : ∃ l, toList s = .ok l ∧ count Less s k = .ok (decide (k ∈ l.map Prod.fst)) := by
  obtain ⟨L, hL, hs, hst⟩ := reachable_sorted Less_swo hr
  refine ⟨entries L, hL.toList_eq, ?_⟩
  rw [count_eq_spec hL Less_swo hs k]
  exact congrArg Except.ok
    (specCount_eq_mem Less_swo (by rw [keys_entries]; exact hst Less_ties) k)

/-- C6 for the placeholder key 0 in the state after the third block of `main`. -/
theorem C6_count_law_witness :
    ∃ l, toList mainDefault = .ok l ∧ count Less mainDefault 0 = .ok (decide (0 ∈ l.map Prod.fst)) :=
  C6_count_law mainDefault_reachable 0

/-- C7: in every state reachable from a fresh list by insert and erase calls that return,
whatever the comparator, the iteration from `begin()` to `end()` returns and `length` is the
number of its entries. -/
theorem C7_cardinality {less : K → K → Bool} [DecidableEq K] {zeroK : K} {zeroV : V}
    {s : skip_list K V} (hr : Reachable less zeroK zeroV s) :
    ∃ l, toList s = .ok l ∧ s.length = (l.length : Int) := by
  obtain ⟨L, hL⟩ := reachable_inv hr
  exact ⟨entries L, hL.toList_eq, hL.length_entries⟩

/-- C7 in the state after the first block of `main`. -/
theorem C7_cardinality_witness :
    ∃ l, toList mainLength = .ok l ∧ mainLength.length = (l.length : Int) :=
  C7_cardinality mainLength_reachable

/-- C8: for a strict weak order, ties allowed, inserting into a fresh list entries whose keys are
pairwise different under `==` and different from the placeholder key returns (given values of
`rand()` that stop every level draw), and the iteration then holds exactly the inserted entries,
each once, with every key that is less than another one in front of it. -/
theorem C8_tied_keys_kept {less : K → K → Bool} [DecidableEq K] {zeroK : K} {zeroV : V}
    (hw : StrictWeakOrder less) (kvs : List (K × V)) (hnd : (kvs.map Prod.fst).Nodup)
    (hz : zeroK ∉ kvs.map Prod.fst) (draws : List Nat) (hd : Enough kvs.length draws) :
    ∃ os s1 rest l,
      run less (init zeroK zeroV) draws (kvs.map (fun e => Op.insert e.1 e.2)) =
        .ok (os, s1, rest) ∧
      toList s1 = .ok l ∧ l.Perm kvs ∧
      ∀ (i j : Nat) (hi : i < l.length) (hj : j < l.length),
        less (l.get ⟨i, hi⟩).1 (l.get ⟨j, hj⟩).1 = true → i < j := by
  obtain ⟨os0, l0, k1, k2⟩ := specRun_inserts less zeroK kvs [] hz hnd (by simp)
  rcases run_spec hw (kvs.map (fun e => Op.insert e.1 e.2)) (init zeroK zeroV) [] draws
      (init_inv zeroK zeroV) List.Pairwise.nil with
    ⟨g1, _⟩ | ⟨os, s1, rest, L1, g1, g2, g3, g4⟩ | ⟨_, g2⟩
  · rw [show entries ([] : List (Cell K V)) = [] from rfl, k1] at g1
    cases g1
  · rw [show entries ([] : List (Cell K V)) = [] from rfl, k1] at g2
    simp only [Except.ok.injEq, Prod.mk.injEq] at g2
    refine ⟨os, s1, rest, entries L1, g1, g3.toList_eq, ?_, ?_⟩
    · rw [← g2.2]; simpa using k2
    · intro i j hi hj hlt
      by_contra hij
      have hji : j ≤ i := by omega
      rcases Nat.lt_or_eq_of_le hji with hji | hji
      · have hpw : (entries L1).Pairwise (fun a b => less b.1 a.1 = false) := by
          have := g4
          rw [← keys_entries, SortedKeys, List.pairwise_map] at this
          exact this
        have := List.pairwise_iff_get.mp hpw ⟨j, hj⟩ ⟨i, hi⟩ hji
        rw [hlt] at this
        cases this
      · subst hji
        rw [hw.irrefl] at hlt
        cases hlt
  · exact absurd (by simpa using hd) g2

/-- C8 for the three inserts of the first block of `main`. -/
theorem C8_tied_keys_kept_witness :
    ∃ os s1 rest l,
      run cmpLength (init zeroString (0 : Int)) mainLengthDraws
          ([("aab", 1321), ("hello", 54342), ("world", 544)].map
            (fun e => Op.insert e.1 e.2)) = .ok (os, s1, rest) ∧
      toList s1 = .ok l ∧ l.Perm [("aab", 1321), ("hello", 54342), ("world", 544)] ∧
      ∀ (i j : Nat) (hi : i < l.length) (hj : j < l.length),
        cmpLength (l.get ⟨i, hi⟩).1 (l.get ⟨j, hj⟩).1 = true → i < j :=
  C8_tied_keys_kept cmpLength_swo [("aab", 1321), ("hello", 54342), ("world", 544)]
    (by decide) (by decide) mainLengthDraws (by decide)

/-- C9, refuted as stated: under the length comparator, the state after the first block of
`main` holds "hello", which ties with "apple"; `insert("apple", 9)` does not overwrite it but
allocates a node, and `length` goes from 3 to 4. -/
theorem C9_counterexample :
    StrictWeakOrder cmpLength ∧ Reachable cmpLength zeroString (0 : Int) mainLength ∧
      toList mainLength = .ok [("aab", 1321), ("world", 544), ("hello", 54342)] ∧
      mainLength.length = 3 ∧
      cmpLength "apple" "hello" = false ∧ cmpLength "hello" "apple" = false ∧
      ∃ s1, insert cmpLength mainLength "apple" 9 [65535] = .ok (s1, []) ∧
        s1.length = 4 ∧ s1.heap.length = mainLength.heap.length + 1 ∧
        toList s1 = .ok [("aab", 1321), ("apple", 9), ("world", 544), ("hello", 54342)] :=
  ⟨cmpLength_swo, mainLength_reachable, rfl, rfl, rfl, rfl, _, rfl, rfl, rfl, rfl⟩

/-- C9, amended: for a strict weak order, in every reachable state whose iteration has a first
key `k0` that is not less than `k` (the key of the node `find` returns), `insert(k, v)`
overwrites the value under `k0` in place, allocating no node and leaving `length` unchanged,
when `k0 == k`; when `k0` differs from `k` under `==`, also when the two tie under the
comparator, it allocates a node for `k` in front of `k0` and `length` grows by one. -/
theorem C9_insert_by_equality {less : K → K → Bool} [DecidableEq K] {zeroK : K} {zeroV : V}
    {s : skip_list K V} (hw : StrictWeakOrder less) (hr : Reachable less zeroK zeroV s)
    (k : K) (v : V) (draws : List Nat) (l1 l2 : List (K × V)) (k0 : K) (v0 : V)
    (hl : toList s = .ok (l1 ++ (k0, v0) :: l2)) (h1 : ∀ e ∈ l1, less e.1 k = true)
    (h0 : less k0 k = false) :
    (k0 = k → ∃ s1, insert less s k v draws = .ok (s1, draws) ∧
      toList s1 = .ok (l1 ++ (k0, v) :: l2) ∧ s1.length = s.length ∧
      s1.heap.length = s.heap.length) ∧
    (k0 ≠ k → ∀ lv rest, randomLevel draws = some (lv, rest) →
      ∃ s1, insert less s k v draws = .ok (s1, rest) ∧
        toList s1 = .ok (l1 ++ (k, v) :: (k0, v0) :: l2) ∧ s1.length = s.length + 1 ∧
        s1.heap.length = s.heap.length + 1) := by
  obtain ⟨L, hL, hs, _⟩ := reachable_sorted hw hr
  have hent : entries L = l1 ++ (k0, v0) :: l2 := by
    rw [hL.toList_eq] at hl
    simpa using hl
  obtain ⟨hb, hnb⟩ := split_at_first l1 (k0, v0) l2 h1 h0
  rw [← hent] at hb hnb
  have hfirst : specFirst less zeroK (entries L) k = k0 := by simp [specFirst, hnb]
  have hlen : ((entries L).length : Int) = l1.length + (l2.length + 1) := by
    rw [hent]; simp
  constructor
  · intro hk
    rcases insert_spec hL hw hs k v draws with
      ⟨_, s1, L1, g1, g2, _, g4, _, g6⟩ | ⟨hne, _⟩ | ⟨hne, _⟩
    · have hent1 : entries L1 = l1 ++ (k0, v) :: l2 := by
        rw [g4]; simp [specInsert, hnb, hb, hk]
      refine ⟨s1, g1, by rw [g2.toList_eq, hent1], ?_, g6⟩
      rw [g2.length_entries, hL.length_entries, hent1, hlen]
      simp
    · exact absurd (hfirst.trans hk) hne
    · exact absurd (hfirst.trans hk) hne
  · intro hk lv rest hrl
    rcases insert_spec hL hw hs k v draws with
      ⟨heq, _⟩ | ⟨_, g0, _⟩ | ⟨_, lv0, rest1, s1, L1, g0, g1, g2, _, _, _, g5, _, g7⟩
    · exact absurd (hfirst.symm.trans heq) hk
    · rw [hrl] at g0; cases g0
    · rw [hrl] at g0
      simp only [Option.some.injEq, Prod.mk.injEq] at g0
      rw [← g0.2] at g1
      have hent1 : entries L1 = l1 ++ (k, v) :: (k0, v0) :: l2 := by
        rw [g5, hb, hnb]
      refine ⟨s1, g1, by rw [g2.toList_eq, hent1], ?_, g7⟩
      rw [g2.length_entries, hL.length_entries, hent1, hlen]
      simp
      omega

/-- C9, amended, for `insert("apple", 9)` in the state after the first block of `main`, where
the first key not less than "apple" is "world". -/
theorem C9_insert_by_equality_witness :
    ("world" = "apple" → ∃ s1, insert cmpLength mainLength "apple" 9 [65535] = .ok (s1, [65535]) ∧
      toList s1 = .ok ([("aab", 1321)] ++ ("world", 9) :: [("hello", 54342)]) ∧
      s1.length = mainLength.length ∧ s1.heap.length = mainLength.heap.length) ∧
    ("world" ≠ "apple" → ∀ lv rest, randomLevel [65535] = some (lv, rest) →
      ∃ s1, insert cmpLength mainLength "apple" 9 [65535] = .ok (s1, rest) ∧
        toList s1 = .ok ([("aab", 1321)] ++ ("apple", 9) :: ("world", 544) :: [("hello", 54342)]) ∧
        s1.length = mainLength.length + 1 ∧ s1.heap.length = mainLength.heap.length + 1) :=
  C9_insert_by_equality cmpLength_swo mainLength_reachable "apple" 9 [65535] [("aab", 1321)]
    [("hello", 54342)] "world" 544 rfl (by decide) (by decide)

theorem ne_diverge_of_ok {α : Type} {r : Except Fault α} {x : α} (h : r = .ok x) :
    r ≠ .error Fault.diverge := by
  rw [h]; simp

/-- C10: for a strict weak order, two runs of the same sequence of insert, erase, count and find
calls on a fresh list, with any two sequences of values of `rand()` on which every level draw
stops, are observed alike: the same results of the calls (or the same fault), the same `length`
and the same iteration from `begin()` to `end()`. -/
theorem C10_levels_not_observable {less : K → K → Bool} [DecidableEq K] {zeroK : K} {zeroV : V}
    (hw : StrictWeakOrder less) (ops : List (Op K V)) (d1 d2 : List Nat)
    (h1 : run less (init zeroK zeroV) d1 ops ≠ .error Fault.diverge)
    (h2 : run less (init zeroK zeroV) d2 ops ≠ .error Fault.diverge) :
    observe (run less (init zeroK zeroV) d1 ops) =
      observe (run less (init zeroK zeroV) d2 ops) := by
  rw [observe_run hw ops d1 h1, observe_run hw ops d2 h2]

/-- C10 for a sequence of seven calls, with level draws 1, 1, 1 in one run and 3, 2, 1 in the
other. -/
theorem C10_levels_not_observable_witness :
    observe (run Less (init (0 : Int) (0 : Int)) [65535, 65535, 65535, 65535]
        [Op.insert 3 1, Op.insert 1 2, Op.erase 3, Op.count 1, Op.find 3, Op.insert 5 5,
          Op.erase 9]) =
      observe (run Less (init (0 : Int) (0 : Int)) [0, 0, 65535, 0, 65535, 65535]
        [Op.insert 3 1, Op.insert 1 2, Op.erase 3, Op.count 1, Op.find 3, Op.insert 5 5,
          Op.erase 9]) :=
  C10_levels_not_observable Less_swo _ _ _ (ne_diverge_of_ok rfl) (ne_diverge_of_ok rfl)

/-! ## Level chains -/

theorem shown_of_deref {s : skip_list K V} {c : Cell K V} {n : skip_list_node K V}
    (h : deref s c.ptr = .ok n) : shown s c = (c.ptr, n) := by
  simp [shown, nodeAt, h]

theorem chainFrom_spec {s : skip_list K V} (i : Nat) :
    ∀ (L : List (Cell K V)) (fuel : Nat), Rep s L →
      (∀ e ∈ L, e.ptr ≠ Ptr.tail ∧ e.lo = 0) → L.length < fuel →
      chainFrom s i fuel (nextAt i L) = .ok ((L.filter (fun c => c.vis i)).map (shown s)) := by
  intro L
  induction L with
  | nil =>
    intro fuel _ _ hf
    cases fuel with
    | zero => omega
    | succ fuel => simp [chainFrom, nextAt_nil]
  | cons c r ih =>
    intro fuel hR hL hf
    by_cases hv : c.vis i = true
    · cases fuel with
      | zero => omega
      | succ fuel =>
        obtain ⟨hct, _⟩ := hL c (List.mem_cons_self _ _)
        have hg := getForward_of_CellOK hR.1 hv
        obtain ⟨n, h1, _⟩ := hR.1
        have hr : readAt n.forward i = .ok (nextAt i r) := by
          simpa [getForward, h1] using hg
        have := ih fuel hR.2 (fun e he => hL e (List.mem_cons_of_mem _ he))
          (by simp at hf; omega)
        simp [chainFrom, nextAt_cons_vis _ hv, hct, h1, hr, this, List.filter_cons, hv,
          shown_of_deref h1]
    · have hv2 : c.vis i = false := by simpa using hv
      rw [nextAt_cons_invis _ hv2]
      have := ih fuel hR.2 (fun e he => hL e (List.mem_cons_of_mem _ he))
        (by simp at hf; omega)
      simp [this, List.filter_cons, hv2]

theorem Inv.chain_eq {zeroK : K} {s : skip_list K V} {L : List (Cell K V)}
    (h : Inv zeroK s L) {i : Nat} (hi : i ≤ MAXL) :
    chain s i = .ok ((L.filter (fun c => c.vis i)).map (shown s)) := by
  have hg := getForward_of_CellOK h.repr.1
    (by simp [Cell.vis, headCell, hi] : (headCell s).vis i = true)
  have hc := chainFrom_spec i L (s.heap.length + 1) h.repr.2
    (fun e he => ⟨h.ptr_ne_tail e he, h.lo_zero e he⟩) (by have := h.length_le; omega)
  simp only [headCell] at hg
  simp [chain, hg, hc]

theorem Inv.shown_fields {zeroK : K} {s : skip_list K V} {L : List (Cell K V)}
    (h : Inv zeroK s L) {c : Cell K V} (hc : c ∈ L) :
    deref s c.ptr = .ok (shown s c).2 ∧ (shown s c).1 = c.ptr ∧ (shown s c).2.level = c.lvl ∧
      (shown s c).2.key = c.key ∧ (shown s c).2.value = c.val ∧
      (shown s c).2.forward.length = c.lvl + 1 := by
  obtain ⟨pre, post, hsplit⟩ := List.append_of_mem hc
  obtain ⟨n, h1, h2, h3, h4, h5, _⟩ := Rep_split (hsplit ▸ h.repr.2)
  rw [shown_of_deref h1]
  exact ⟨h1, rfl, h2 (h.ptr_ne_head c hc), h3, h4, h5⟩

theorem Inv.vis_iff {zeroK : K} {s : skip_list K V} {L : List (Cell K V)}
    (h : Inv zeroK s L) {c : Cell K V} (hc : c ∈ L) (i : Nat) :
    c.vis i = decide (i ≤ c.lvl) := by
  simp [Cell.vis, h.lo_zero c hc]

/-- At levels above `level` the chain is empty: `head.forward[i]` is `tail`. -/
theorem Inv.head_forward_above {zeroK : K} {s : skip_list K V} {L : List (Cell K V)}
    (h : Inv zeroK s L) {i : Nat} (h1 : s.level < i) (h2 : i ≤ MAXL) :
    getForward s Ptr.head i = .ok Ptr.tail := by
  have hg := getForward_of_CellOK h.repr.1
    (by simp [Cell.vis, headCell, h2] : (headCell s).vis i = true)
  simp only [headCell] at hg
  rw [hg]
  have : ∀ d ∈ L, d.vis i = false := by
    intro d hd
    have := (h.real d hd).2.2
    simp [Cell.vis]
    omega
  have := nextAt_append_invis ([] : List (Cell K V)) this
  simpa [nextAt_nil] using this

/-! ## The levels of reachable states -/

theorem insert_levels {less : K → K → Bool} [DecidableEq K] {key zeroK : K}
    {s s1 : skip_list K V} {L : List (Cell K V)} {value : V} {draws rest : List Nat}
    (h : Inv zeroK s L) (hl : LevelInv s L)
    (he : insert less s key value draws = .ok (s1, rest)) :
    ∃ L1, Inv zeroK s1 L1 ∧ LevelInv s1 L1 := by
  obtain ⟨A, B, U, hf⟩ := find_res less key h
  obtain ⟨hl1, hl2, hl3⟩ := hl
  by_cases hk : firstKey zeroK B = key
  · cases B with
    | nil =>
      simp only [firstKey] at hk
      subst hk
      obtain ⟨g1, g2⟩ := insert_hit_tail h hf value draws
      rw [g1] at he
      simp only [Except.ok.injEq, Prod.mk.injEq] at he
      rw [← he.1]
      exact ⟨L, g2, hl1, hl2, hl3⟩
    | cons b B1 =>
      obtain ⟨s2, g1, g2, g3, _⟩ := insert_hit_node h hf hk value draws
      rw [g1] at he
      simp only [Except.ok.injEq, Prod.mk.injEq] at he
      rw [← he.1]
      have hsplit := hf.split
      refine ⟨_, g2, ?_, ?_, ?_⟩
      · intro c hc
        rcases List.mem_append.mp hc with hc | hc
        · exact hl1 c (by rw [hsplit]; simp [hc])
        · rcases List.mem_cons.mp hc with hc | hc
          · rw [hc]; exact hl1 b (by rw [hsplit]; simp)
          · exact hl1 c (by rw [hsplit]; simp [hc])
      · intro hnil
        exact absurd (congrArg List.length hnil) (by simp)
      · intro _
        obtain ⟨c, hc, hcl⟩ := hl3 (by rw [hsplit]; simp)
        rw [g3]
        rw [hsplit] at hc
        rcases List.mem_append.mp hc with hc | hc
        · exact ⟨c, by simp [hc], hcl⟩
        · rcases List.mem_cons.mp hc with hc | hc
          · exact ⟨{ b with val := value }, by simp, by rw [← hcl, hc]⟩
          · exact ⟨c, by simp [hc], hcl⟩
  · cases hr : randomLevel draws with
    | none =>
      rw [insert_diverge h hf hk value hr] at he
      cases he
    | some r =>
      obtain ⟨lv0, rest1⟩ := r
      obtain ⟨s2, g1, g2, g3, _⟩ := insert_miss h hf hk value hr
      obtain ⟨hlv1, _⟩ := randomLevel_range hr
      rw [g1] at he
      simp only [Except.ok.injEq, Prod.mk.injEq] at he
      rw [← he.1]
      have hsplit := hf.split
      refine ⟨_, g2, ?_, ?_, ?_⟩
      · intro c hc
        rcases List.mem_append.mp hc with hc | hc
        · exact hl1 c (by rw [hsplit]; simp [hc])
        · rcases List.mem_cons.mp hc with hc | hc
          · rw [hc]
            simp only [newCell]
            split <;> omega
          · exact hl1 c (by rw [hsplit]; simp [hc])
      · intro hnil
        exact absurd (congrArg List.length hnil) (by simp)
      · intro _
        rw [g3]
        by_cases hraise : lv0 > s.level
        · exact ⟨newCell s key value lv0, by simp, by simp [newCell, hraise]⟩
        · have hL : L ≠ [] := by
            intro hnil
            have := hl2 hnil
            omega
          obtain ⟨c, hc, hcl⟩ := hl3 hL
          rw [hsplit] at hc
          refine ⟨c, ?_, by simp [hraise, hcl]⟩
          rcases List.mem_append.mp hc with hc | hc <;> simp [hc]

theorem erase_levels {less : K → K → Bool} [DecidableEq K] {key zeroK : K}
    {s s1 : skip_list K V} {L : List (Cell K V)} {b : Bool}
    (h : Inv zeroK s L) (hl : LevelInv s L) (he : erase less s key = .ok (b, s1)) :
    ∃ L1, Inv zeroK s1 L1 ∧ LevelInv s1 L1 := by
  obtain ⟨A, B, U, hf⟩ := find_res less key h
  obtain ⟨hl1, hl2, hl3⟩ := hl
  by_cases hk : firstKey zeroK B = key
  · cases B with
    | nil =>
      simp only [firstKey] at hk
      subst hk
      rw [erase_tail_fault h hf] at he
      cases he
    | cons c B1 =>
      obtain ⟨s2, g1, g2, g3, g4, _⟩ := erase_hit h hf hk
      rw [g1] at he
      simp only [Except.ok.injEq, Prod.mk.injEq] at he
      rw [← he.2]
      have hsplit := hf.split
      have hsub : ∀ d ∈ A ++ B1, d ∈ L := by
        intro d hd
        rw [hsplit]
        rcases List.mem_append.mp hd with hd | hd <;> simp [hd]
      refine ⟨A ++ B1, g2, fun d hd => hl1 d (hsub d hd), ?_, ?_⟩
      · intro hnil
        rcases g4 with g4 | ⟨d, hd, _⟩
        · exact g4
        · rw [hnil] at hd; cases hd
      · intro hne
        rcases g4 with g4 | ⟨d, hd, hdl⟩
        · obtain ⟨d, hd⟩ := List.exists_mem_of_ne_nil _ hne
          have h1 := hl1 d (hsub d hd)
          have h2 := (g2.real d hd).2.2
          omega
        · exact ⟨d, hd, by have := (g2.real d hd).2.2; omega⟩
  · rw [erase_miss h hf hk] at he
    simp only [Except.ok.injEq, Prod.mk.injEq] at he
    rw [← he.2]
    exact ⟨L, h, hl1, hl2, hl3⟩

theorem reachable_levels {less : K → K → Bool} [DecidableEq K] {zeroK : K} {zeroV : V}
    {s : skip_list K V} (hr : Reachable less zeroK zeroV s) :
    ∃ L, Inv zeroK s L ∧ LevelInv s L := by
  induction hr with
  | fresh =>
    exact ⟨[], init_inv zeroK zeroV, (fun c hc => by cases hc), (fun _ => rfl),
      (fun h => absurd rfl h)⟩
  | insert key value draws rest _ he ih =>
    obtain ⟨L, hL, hl⟩ := ih
    exact insert_levels hL hl he
  | erase key b _ he ih =>
    obtain ⟨L, hL, hl⟩ := ih
    exact erase_levels hL hl he

theorem Inv.filter_zero {zeroK : K} {s : skip_list K V} {L : List (Cell K V)}
    (h : Inv zeroK s L) : L.filter (fun c => c.vis 0) = L := by
  rw [List.filter_eq_self]
  intro c hc
  simp [Cell.vis, h.lo_zero c hc]

theorem Inv.filter_succ_sublist {zeroK : K} {s : skip_list K V} {L : List (Cell K V)}
    (h : Inv zeroK s L) (i : Nat) :
    List.Sublist (L.filter (fun c => c.vis (i + 1))) (L.filter (fun c => c.vis i)) := by
  have : L.filter (fun c => c.vis (i + 1)) =
      (L.filter (fun c => c.vis i)).filter (fun c => c.vis (i + 1)) := by
    rw [List.filter_filter]
    apply List.filter_congr
    intro c hc
    rw [h.vis_iff hc, h.vis_iff hc]
    by_cases h1 : i + 1 ≤ c.lvl
    · have h2 : i ≤ c.lvl := by omega
      simp [h1, h2]
    · simp [h1]
  rw [this]
  exact List.filter_sublist _

theorem Inv.chain_keys {zeroK : K} {s : skip_list K V} {L : List (Cell K V)}
    (h : Inv zeroK s L) (i : Nat) :
    ((L.filter (fun c => c.vis i)).map (shown s)).map (fun e => e.2.key) =
      keys (L.filter (fun c => c.vis i)) := by
  rw [List.map_map, keys]
  apply List.map_congr_left
  intro c hc
  exact (h.shown_fields (List.mem_of_mem_filter hc)).2.2.2.1

theorem Inv.chain_levels {zeroK : K} {s : skip_list K V} {L : List (Cell K V)}
    (h : Inv zeroK s L) (i : Nat) :
    ((L.filter (fun c => c.vis i)).map (shown s)).map (fun e => e.2.level) =
      (L.filter (fun c => c.vis i)).map Cell.lvl := by
  rw [List.map_map]
  apply List.map_congr_left
  intro c hc
  exact (h.shown_fields (List.mem_of_mem_filter hc)).2.2.1

theorem foldr_max_le {l : List Nat} {m : Nat} (h : ∀ x ∈ l, x ≤ m) : l.foldr max 0 ≤ m := by
  induction l with
  | nil => exact Nat.zero_le _
  | cons x l ih =>
    simp only [List.foldr_cons]
    exact max_le (h x (List.mem_cons_self _ _)) (ih (fun y hy => h y (List.mem_cons_of_mem _ hy)))

theorem le_foldr_max {l : List Nat} {m : Nat} (h : m ∈ l) : m ≤ l.foldr max 0 := by
  induction l with
  | nil => cases h
  | cons x l ih =>
    simp only [List.foldr_cons]
    rcases List.mem_cons.mp h with h | h
    · rw [h]; exact le_max_left _ _
    · exact le_trans (ih h) (le_max_right _ _)

/-- C11: for a strict weak order whose ties are exactly equal keys, in every reachable state and
at every level `i` up to `level`, the chain from `head.forward[i]` along the `forward[i]` links
ends at `tail` and its keys are strictly increasing; the chain of level `i + 1` is a
sub-sequence of the chain of level `i`; and `head.forward[i]` is `tail` at every level `i` above
`level` up to `MAXL`. -/
theorem C11_level_chains {less : K → K → Bool} [DecidableEq K] {zeroK : K} {zeroV : V}
    {s : skip_list K V} (hw : StrictWeakOrder less) (ht : TiesAreEqual less)
    (hr : Reachable less zeroK zeroV s) :
    (∀ i, i ≤ s.level → ∃ c, chain s i = .ok c ∧
      StrictSorted less (c.map (fun e => e.2.key)) ∧
      (i + 1 ≤ s.level → ∃ c1, chain s (i + 1) = .ok c1 ∧ List.Sublist c1 c)) ∧
    (∀ i, s.level < i → i ≤ MAXL → getForward s Ptr.head i = .ok Ptr.tail) := by
  obtain ⟨L, hL, _, hst⟩ := reachable_sorted hw hr
  have hlev := hL.level_le
  refine ⟨?_, fun i h1 h2 => hL.head_forward_above h1 h2⟩
  intro i hi
  refine ⟨_, hL.chain_eq (by omega), ?_, ?_⟩
  · rw [hL.chain_keys]
    exact List.Pairwise.sublist (List.Sublist.map _ (List.filter_sublist _)) (hst ht)
  · intro hi1
    exact ⟨_, hL.chain_eq (by omega), List.Sublist.map _ (hL.filter_succ_sublist i)⟩

/-- C11 in the state after the third block of `main`. -/
theorem C11_level_chains_witness :
    (∀ i, i ≤ mainDefault.level → ∃ c, chain mainDefault i = .ok c ∧
      StrictSorted Less (c.map (fun e => e.2.key)) ∧
      (i + 1 ≤ mainDefault.level → ∃ c1, chain mainDefault (i + 1) = .ok c1 ∧
        List.Sublist c1 c)) ∧
    (∀ i, mainDefault.level < i → i ≤ MAXL →
      getForward mainDefault Ptr.head i = .ok Ptr.tail) :=
  C11_level_chains Less_swo Less_ties mainDefault_reachable

/-- C15: in every reachable state the level-0 chain ends at `tail`, and `level` is the largest
`level` field among its nodes, 0 when there is none; moreover `level` is 0 or
`head.forward[level]` is not `tail`. -/
theorem C15_level_is_max {less : K → K → Bool} [DecidableEq K] {zeroK : K} {zeroV : V}
    {s : skip_list K V} (hr : Reachable less zeroK zeroV s) :
    ∃ c, chain s 0 = .ok c ∧ s.level = maxLevel c ∧ (c = [] → s.level = 0) ∧
      (s.level = 0 ∨ ∃ p, getForward s Ptr.head s.level = .ok p ∧ p ≠ Ptr.tail) := by
  obtain ⟨L, hL, hl1, hl2, hl3⟩ := reachable_levels hr
  have hc := hL.chain_eq (Nat.zero_le MAXL)
  refine ⟨_, hc, ?_, ?_, ?_⟩
  · rw [maxLevel, hL.chain_levels, hL.filter_zero]
    apply le_antisymm
    · by_cases hnil : L = []
      · rw [hl2 hnil]; exact Nat.zero_le _
      · obtain ⟨c, hc1, hc2⟩ := hl3 hnil
        rw [← hc2]
        exact le_foldr_max (List.mem_map_of_mem _ hc1)
    · apply foldr_max_le
      intro x hx
      obtain ⟨c, hc1, rfl⟩ := List.mem_map.mp hx
      exact (hL.real c hc1).2.2
  · intro hnil
    rw [hL.filter_zero] at hnil
    exact hl2 (by simpa using hnil)
  · by_cases hnil : L = []
    · exact Or.inl (hl2 hnil)
    · right
      obtain ⟨c, hc1, hc2⟩ := hl3 hnil
      have hg := getForward_of_CellOK hL.repr.1
        (by simp [Cell.vis, headCell, hL.level_le] : (headCell s).vis s.level = true)
      simp only [headCell] at hg
      refine ⟨_, hg, ?_⟩
      cases hfind : L.find? (fun c => c.vis s.level) with
      | none =>
        have := List.find?_eq_none.mp hfind c hc1
        simp [Cell.vis, hL.lo_zero c hc1, hc2] at this
      | some e =>
        rw [nextAt_eq_of_find hfind]
        obtain ⟨_, as1, bs, hsplit, _⟩ := List.find?_eq_some.mp hfind
        exact hL.ptr_ne_tail e (by rw [hsplit]; simp)

/-- C15 in the state after the third block of `main`. -/
theorem C15_level_is_max_witness :
    ∃ c, chain mainDefault 0 = .ok c ∧ mainDefault.level = maxLevel c ∧
      (c = [] → mainDefault.level = 0) ∧
      (mainDefault.level = 0 ∨
        ∃ p, getForward mainDefault Ptr.head mainDefault.level = .ok p ∧ p ≠ Ptr.tail) :=
  C15_level_is_max mainDefault_reachable

/-- C19: in every reachable state every node of the level-0 chain has `level` at least 1, the
structure-wide `level` is at least 1 when the list is not empty, and the level-1 chain is the
level-0 chain: the same nodes in the same order. -/
theorem C19_two_levels {less : K → K → Bool} [DecidableEq K] {zeroK : K} {zeroV : V}
    {s : skip_list K V} (hr : Reachable less zeroK zeroV s) :
    ∃ c, chain s 0 = .ok c ∧ chain s 1 = .ok c ∧ (∀ e ∈ c, 1 ≤ e.2.level) ∧
      (c ≠ [] → 1 ≤ s.level) := by
  obtain ⟨L, hL, hl1, hl2, hl3⟩ := reachable_levels hr
  have h0 := hL.chain_eq (Nat.zero_le MAXL)
  have h1 := hL.chain_eq (by simp [MAXL] : 1 ≤ MAXL)
  have hf1 : L.filter (fun c => c.vis 1) = L := by
    rw [List.filter_eq_self]
    intro c hc
    simp [Cell.vis, hL.lo_zero c hc, hl1 c hc]
  rw [hL.filter_zero] at h0
  rw [hf1] at h1
  refine ⟨_, h0, h1, ?_, ?_⟩
  · intro e he
    obtain ⟨c, hc, rfl⟩ := List.mem_map.mp he
    rw [(hL.shown_fields hc).2.2.1]
    exact hl1 c hc
  · intro hne
    have hnil : L ≠ [] := by
      intro h; rw [h] at hne; exact hne rfl
    obtain ⟨c, hc1, hc2⟩ := hl3 hnil
    rw [← hc2]
    exact hl1 c hc1

/-- C19 in the state after the first block of `main`. -/
theorem C19_two_levels_witness :
    ∃ c, chain mainLength 0 = .ok c ∧ chain mainLength 1 = .ok c ∧
      (∀ e ∈ c, 1 ≤ e.2.level) ∧ (c ≠ [] → 1 ≤ mainLength.level) :=
  C19_two_levels mainLength_reachable

/-! ## Faults and level draws -/

theorem insert_no_fault {less : K → K → Bool} [DecidableEq K] {zeroK : K} {s : skip_list K V}
    {L : List (Cell K V)} (h : Inv zeroK s L) (key : K) (value : V) (draws : List Nat) :
    insert less s key value draws ≠ .error Fault.fault := by
  obtain ⟨A, B, U, hf⟩ := find_res less key h
  by_cases hk : firstKey zeroK B = key
  · cases B with
    | nil =>
      simp only [firstKey] at hk
      subst hk
      rw [(insert_hit_tail h hf value draws).1]
      simp
    | cons b B1 =>
      obtain ⟨s2, g1, _⟩ := insert_hit_node h hf hk value draws
      rw [g1]; simp
  · cases hr : randomLevel draws with
    | none => rw [insert_diverge h hf hk value hr]; simp
    | some r =>
      obtain ⟨lv0, rest1⟩ := r
      obtain ⟨s2, g1, _⟩ := insert_miss h hf hk value hr
      rw [g1]; simp

theorem insert_returns {less : K → K → Bool} [DecidableEq K] {zeroK : K} {s : skip_list K V}
    {L : List (Cell K V)} (h : Inv zeroK s L) (key : K) (value : V) {draws rest : List Nat}
    {lv : Nat} (hr : randomLevel draws = some (lv, rest)) :
    ∃ s1 r, insert less s key value draws = .ok (s1, r) := by
  obtain ⟨A, B, U, hf⟩ := find_res less key h
  by_cases hk : firstKey zeroK B = key
  · cases B with
    | nil =>
      simp only [firstKey] at hk
      subst hk
      exact ⟨_, draws, (insert_hit_tail h hf value draws).1⟩
    | cons b B1 =>
      obtain ⟨s2, g1, _⟩ := insert_hit_node h hf hk value draws
      exact ⟨s2, draws, g1⟩
  · obtain ⟨s2, g1, _⟩ := insert_miss h hf hk value hr
    exact ⟨s2, rest, g1⟩

theorem erase_fault_tail {less : K → K → Bool} [DecidableEq K] {key zeroK : K}
    {s : skip_list K V} {L : List (Cell K V)} (h : Inv zeroK s L)
    (he : erase less s key = .error Fault.fault) :
    key = zeroK ∧ ∃ U, find less s key = .ok (Ptr.tail, U) := by
  obtain ⟨A, B, U, hf⟩ := find_res less key h
  by_cases hk : firstKey zeroK B = key
  · cases B with
    | nil =>
      simp only [firstKey] at hk
      exact ⟨hk.symm, U, by simpa [nextAt_nil] using hf.find_eq⟩
    | cons b B1 =>
      obtain ⟨s2, g1, _⟩ := erase_hit h hf hk
      rw [g1] at he; cases he
  · rw [erase_miss h hf hk] at he; cases he

theorem randomLevel_ne_self {draws rest : List Nat} {lv : Nat}
    (h : randomLevel draws = some (lv, rest)) : rest ≠ draws := by
  rcases randomLevel_countP draws with ⟨h1, _⟩ | ⟨lv1, rest1, h1, h2⟩
  · rw [h] at h1; cases h1
  · rw [h] at h1
    simp only [Option.some.injEq, Prod.mk.injEq] at h1
    intro he
    rw [← h1.2, he] at h2
    omega

theorem randomLevelLoop_stop : ∀ (pre : List Nat) (lv r : Nat) (rest : List Nat),
    (∀ x ∈ pre, (x &&& S) < PS) → ¬ (r &&& S) < PS →
    randomLevelLoop (pre ++ r :: rest) lv = some (lv + pre.length, rest) := by
  intro pre
  induction pre with
  | nil => intro lv r rest _ hr; simp [randomLevelLoop, hr]
  | cons x pre ih =>
    intro lv r rest hpre hr
    have hx := hpre x (List.mem_cons_self _ _)
    have := ih (lv + 1) r rest (fun y hy => hpre y (List.mem_cons_of_mem _ hy)) hr
    have h2 : randomLevelLoop (x :: (pre ++ r :: rest)) lv =
        randomLevelLoop (pre ++ r :: rest) (lv + 1) := by
      simp [randomLevelLoop, hx]
    rw [List.cons_append, h2, this, List.length_cons, Nat.add_assoc, Nat.add_comm 1]

theorem randomLevel_none_iff (draws : List Nat) :
    randomLevel draws = none ↔ ∀ x ∈ draws, (x &&& S) < PS := by
  have hc : draws.countP stops = 0 ↔ ∀ x ∈ draws, (x &&& S) < PS := by
    rw [List.countP_eq_zero]
    constructor
    · intro h x hx
      have := h x hx
      simpa [stops] using this
    · intro h x hx
      simp [stops, h x hx]
  rcases randomLevel_countP draws with ⟨h1, h2⟩ | ⟨lv, rest, h1, h2⟩
  · exact ⟨fun _ => hc.mp h2, fun _ => h1⟩
  · constructor
    · intro h; rw [h] at h1; cases h1
    · intro h
      have := hc.mpr h
      omega

/-! ## Level growth and level draws -/

/-- C14, refuted as stated: on a fresh list (`level` 0) `randomLevel` returns 2 on the values
0, 65535 of `rand()`, the key 5 is not stored, and after `insert(5, 1)` the structure-wide
`level` is 1, not 2. -/
theorem C14_counterexample :
    randomLevel [0, 65535] = some (2, []) ∧ (init (0 : Int) (0 : Int)).level = 0 ∧
      count Less (init (0 : Int) (0 : Int)) 5 = .ok false ∧
      ∃ s1, insert Less (init (0 : Int) (0 : Int)) 5 1 [0, 65535] = .ok (s1, []) ∧
        s1.level = 1 :=
  ⟨rfl, rfl, rfl, _, rfl, rfl⟩

/-- C14, amended: in every reachable state with level `L`, when an insert draws a height that
exceeds `L`, afterwards the structure-wide `level` is `L + 1`, and the node allocated has
`level` field `L + 1` and is on the chain of every level from 0 to `L + 1`. -/
theorem C14_level_growth {less : K → K → Bool} [DecidableEq K] {zeroK : K} {zeroV : V}
    {s s1 : skip_list K V} (hr : Reachable less zeroK zeroV s) (key : K) (value : V)
    (draws rest : List Nat) (lv0 : Nat)
    (hins : insert less s key value draws = .ok (s1, rest))
    (hrl : randomLevel draws = some (lv0, rest)) (hgt : lv0 > s.level) :
    s1.level = s.level + 1 ∧ s1.heap.length = s.heap.length + 1 ∧
      ∃ n, deref s1 (Ptr.node s.heap.length) = .ok n ∧ n.level = s.level + 1 ∧ n.key = key ∧
        ∀ i, i ≤ s.level + 1 → ∃ c, chain s1 i = .ok c ∧ (Ptr.node s.heap.length, n) ∈ c := by
  obtain ⟨L, hL⟩ := reachable_inv hr
  obtain ⟨A, B, U, hf⟩ := find_res less key hL
  have hne := randomLevel_ne_self hrl
  by_cases hk : firstKey zeroK B = key
  · cases B with
    | nil =>
      simp only [firstKey] at hk
      subst hk
      rw [(insert_hit_tail hL hf value draws).1] at hins
      simp only [Except.ok.injEq, Prod.mk.injEq] at hins
      exact absurd hins.2.symm hne
    | cons b B1 =>
      obtain ⟨s2, g1, _⟩ := insert_hit_node hL hf hk value draws
      rw [g1] at hins
      simp only [Except.ok.injEq, Prod.mk.injEq] at hins
      exact absurd hins.2.symm hne
  · obtain ⟨s2, g1, g2, g3, g4⟩ := insert_miss hL hf hk value hrl
    rw [g1] at hins
    simp only [Except.ok.injEq, Prod.mk.injEq, and_true] at hins
    subst hins
    have hlev : s2.level = s.level + 1 := by rw [g3]; simp [hgt]
    have hmem : newCell s key value lv0 ∈ A ++ newCell s key value lv0 :: B := by simp
    obtain ⟨f1, f2, f3, f4, _⟩ := g2.shown_fields hmem
    have hlvl : (newCell s key value lv0).lvl = s.level + 1 := by simp [newCell, hgt]
    refine ⟨hlev, g4, (shown s2 (newCell s key value lv0)).2, f1, by rw [f3, hlvl], f4, ?_⟩
    intro i hi
    refine ⟨_, g2.chain_eq (by have := g2.level_le; omega), ?_⟩
    have hv : (newCell s key value lv0).vis i = true := by
      simp [Cell.vis, newCell, hgt, hi]
    have hfm : newCell s key value lv0 ∈
        (A ++ newCell s key value lv0 :: B).filter (fun c => c.vis i) :=
      List.mem_filter.mpr ⟨hmem, hv⟩
    exact List.mem_map_of_mem (shown s2) hfm

/-- C14, amended, for `insert(5, 1)` into a fresh list with a drawn height of 2. -/
theorem C14_level_growth_witness :
    (stateOf (run Less (init (0 : Int) (0 : Int)) [0, 65535] [Op.insert 5 1]) (init 0 0)).level =
        (init (0 : Int) (0 : Int)).level + 1 ∧
      (stateOf (run Less (init (0 : Int) (0 : Int)) [0, 65535] [Op.insert 5 1])
          (init 0 0)).heap.length = (init (0 : Int) (0 : Int)).heap.length + 1 ∧
      ∃ n, deref (stateOf (run Less (init (0 : Int) (0 : Int)) [0, 65535] [Op.insert 5 1])
          (init 0 0)) (Ptr.node (init (0 : Int) (0 : Int)).heap.length) = .ok n ∧
        n.level = (init (0 : Int) (0 : Int)).level + 1 ∧ n.key = 5 ∧
        ∀ i, i ≤ (init (0 : Int) (0 : Int)).level + 1 →
          ∃ c, chain (stateOf (run Less (init (0 : Int) (0 : Int)) [0, 65535] [Op.insert 5 1])
            (init 0 0)) i = .ok c ∧ (Ptr.node (init (0 : Int) (0 : Int)).heap.length, n) ∈ c :=
  C14_level_growth (Reachable.fresh : Reachable Less (0 : Int) (0 : Int) (init 0 0)) 5 1
    [0, 65535] [] 2 rfl rfl (by decide)

/-- C16: when the first `n` values of `rand()` pass the test `(r & 0xFFFF) < 16383` and the next
one fails it, `randomLevel` consumes exactly these `n + 1` values and returns
`min(n + 1, 32)`, which lies between 1 and `MAXL`. -/
theorem C16_randomLevel_value (pre : List Nat) (r : Nat) (rest : List Nat)
    (hpre : ∀ x ∈ pre, (x &&& 0xFFFF) < 16383) (hr : ¬ (r &&& 0xFFFF) < 16383) :
    randomLevel (pre ++ r :: rest) = some (min (pre.length + 1) 32, rest) ∧
      1 ≤ min (pre.length + 1) 32 ∧ min (pre.length + 1) 32 ≤ MAXL := by
  have hS : S = 0xFFFF := rfl
  have hPS : PS = 16383 := by decide
  have h := randomLevelLoop_stop pre 1 r rest (by rw [hS, hPS]; exact hpre)
    (by rw [hS, hPS]; exact hr)
  refine ⟨?_, by omega, by simp [MAXL]⟩
  simp only [randomLevel, h, MAXL]
  congr 2
  by_cases hlt : 32 > 1 + pre.length
  · rw [if_pos hlt]; omega
  · rw [if_neg hlt]; omega

/-- C16 for two passing values followed by a failing one. -/
theorem C16_randomLevel_value_witness :
    randomLevel ([0, 16382] ++ 16383 :: [7, 8]) = some (min ([0, 16382].length + 1) 32, [7, 8]) ∧
      1 ≤ min ([0, 16382].length + 1) 32 ∧ min ([0, 16382].length + 1) 32 ≤ MAXL :=
  C16_randomLevel_value [0, 16382] 16383 [7, 8] (by decide) (by decide)

/-- C17, refuted as stated: on 40 values of `rand()` that pass the test `randomLevel` has not
returned, so it makes more than `MAXLEVEL` = 32 draws; it returns (the clamped height 32) only
at the failing 41st value; and `insert` of a new key on 40 passing values does not return. -/
theorem C17_counterexample :
    randomLevel (List.replicate 40 0) = none ∧
      randomLevel (List.replicate 40 0 ++ [65535]) = some (32, []) ∧
      (List.replicate 40 0 ++ [65535]).length = 41 ∧
      insert Less (init (0 : Int) (0 : Int)) 5 1 (List.replicate 40 0) =
        .error Fault.diverge :=
  ⟨rfl, rfl, rfl, rfl⟩

/-- C17, amended: `randomLevel` returns exactly when one of the values of `rand()` fails the loop
test, however many values pass before it (the number of draws is not bounded by `MAXLEVEL`, only
the height returned is clamped); and on a reachable state every `insert` returns when the values
of `rand()` hold one that fails the test. -/
theorem C17_termination {less : K → K → Bool} [DecidableEq K] {zeroK : K} {zeroV : V}
    {s : skip_list K V} (hr : Reachable less zeroK zeroV s) (key : K) (value : V)
    (draws : List Nat) :
    (randomLevel draws = none ↔ ∀ x ∈ draws, (x &&& S) < PS) ∧
      ((∃ x ∈ draws, ¬ (x &&& S) < PS) →
        ∃ s1 rest, insert less s key value draws = .ok (s1, rest)) := by
  refine ⟨randomLevel_none_iff draws, ?_⟩
  rintro ⟨x, hx, hxs⟩
  obtain ⟨L, hL⟩ := reachable_inv hr
  cases hrl : randomLevel draws with
  | none => exact absurd ((randomLevel_none_iff draws).mp hrl x hx) hxs
  | some r =>
    obtain ⟨lv, rest⟩ := r
    exact insert_returns hL key value hrl

/-- C17, amended, for `insert(9, 1)` in the state after the third block of `main`, with 40
passing values of `rand()` before the failing one. -/
theorem C17_termination_witness :
    (randomLevel (List.replicate 40 0 ++ [65535]) = none ↔
        ∀ x ∈ List.replicate 40 0 ++ [65535], (x &&& S) < PS) ∧
      ((∃ x ∈ List.replicate 40 0 ++ [65535], ¬ (x &&& S) < PS) →
        ∃ s1 rest, insert Less mainDefault 9 1 (List.replicate 40 0 ++ [65535]) =
          .ok (s1, rest)) :=
  C17_termination mainDefault_reachable 9 1 (List.replicate 40 0 ++ [65535])

/-! ## What `find` returns, read off the chains -/

theorem nextAt_eq_head_filter (i : Nat) (l : List (Cell K V)) :
    nextAt i l = ((l.filter (fun c => c.vis i)).head?.map Cell.ptr).getD Ptr.tail := by
  induction l with
  | nil => rfl
  | cons c r ih =>
    by_cases hv : c.vis i = true
    · rw [nextAt_cons_vis _ hv]; simp [List.filter_cons, hv]
    · have hv2 : c.vis i = false := by simpa using hv
      rw [nextAt_cons_invis _ hv2, ih]; simp [List.filter_cons, hv2]

theorem firstNotLess_shown (less : K → K → Bool) (key : K) (s : skip_list K V) :
    ∀ (A B : List (Cell K V)), (∀ c ∈ A, less (shown s c).2.key key = true) →
      (∀ c ∈ B, less (shown s c).2.key key = false) →
      firstNotLess less key ((A ++ B).map (shown s)) =
        (B.head?.map Cell.ptr).getD Ptr.tail := by
  intro A
  induction A with
  | nil =>
    intro B _ hB
    cases B with
    | nil => rfl
    | cons b B1 =>
      have := hB b (List.mem_cons_self _ _)
      simp only [firstNotLess, List.nil_append, List.map_cons, List.find?_cons, this,
        Bool.not_false, List.head?_cons, Option.map_some', Option.getD_some]
      rfl
  | cons a A ih =>
    intro B hA hB
    have ha := hA a (List.mem_cons_self _ _)
    have := ih B (fun c hc => hA c (List.mem_cons_of_mem _ hc)) hB
    simp only [firstNotLess] at this ⊢
    simp only [List.cons_append, List.map_cons, List.find?_cons, ha, Bool.not_true]
    exact this

theorem lastLess_shown (less : K → K → Bool) (key : K) (s : skip_list K V)
    (A B : List (Cell K V)) (hA : ∀ c ∈ A, less (shown s c).2.key key = true)
    (hB : ∀ c ∈ B, less (shown s c).2.key key = false) :
    lastLess less key ((A ++ B).map (shown s)) =
      (A.getLast?.map Cell.ptr).getD Ptr.head := by
  have h1 : (A.map (shown s)).filter (fun e => less e.2.key key) = A.map (shown s) := by
    rw [List.filter_eq_self]
    intro e he
    obtain ⟨c, hc, rfl⟩ := List.mem_map.mp he
    exact hA c hc
  have h2 : (B.map (shown s)).filter (fun e => less e.2.key key) = [] := by
    rw [List.filter_eq_nil_iff]
    intro e he
    obtain ⟨c, hc, rfl⟩ := List.mem_map.mp he
    simp [hB c hc]
  simp only [lastLess, List.map_append, List.filter_append, h1, h2, List.append_nil,
    List.getLast?_map]
  cases A.getLast? <;> rfl

theorem LastVis_eq_last {i : Nat} {hc : Cell K V} {A : List (Cell K V)} {p : Ptr}
    (hh : hc.ptr = Ptr.head) (h : LastVis i (hc :: A) p) :
    p = ((A.filter (fun c => c.vis i)).getLast?.map Cell.ptr).getD Ptr.head := by
  obtain ⟨pre1, u, mid, hsplit, hup, huv, hmid⟩ := h
  have hmidf : mid.filter (fun c => c.vis i) = [] := by
    rw [List.filter_eq_nil_iff]
    intro d hd
    simp [hmid d hd]
  cases pre1 with
  | nil =>
    simp only [List.nil_append, List.cons.injEq] at hsplit
    rw [hsplit.2, hmidf, ← hup, ← hsplit.1, hh]
    rfl
  | cons x pre2 =>
    simp only [List.cons_append, List.cons.injEq] at hsplit
    rw [hsplit.2, List.filter_append, List.filter_cons, huv, hmidf, ← hup]
    simp

theorem LastVis_forward {s : skip_list K V} {i : Nat} {X B : List (Cell K V)} {p : Ptr}
    (hR : Rep s (X ++ B)) (h : LastVis i X p) : getForward s p i = .ok (nextAt i B) := by
  obtain ⟨pre1, u, mid, hsplit, hup, huv, hmid⟩ := h
  have hR2 : Rep s (pre1 ++ u :: (mid ++ B)) := by
    rw [hsplit] at hR; simpa using hR
  rw [← hup, getForward_of_CellOK (Rep_split hR2) huv, nextAt_append_invis _ hmid]

/-- C12: for a strict weak order, in every reachable state and for every key `k`, the internal
`find` returns the first node of the level-0 chain whose key is not less than `k`, or `tail`,
and for every level `i` up to `level` it sets `update[i]` to the last node of the level-`i`
chain whose key is less than `k`, or `head`, so that `update[i]->forward[i]` is the first node
of that chain whose key is not less than `k`.  (`find` takes the state and returns no state:
it changes nothing.) -/
theorem C12_find_postcondition {less : K → K → Bool} [DecidableEq K] {zeroK : K} {zeroV : V}
    {s : skip_list K V} (hw : StrictWeakOrder less) (hr : Reachable less zeroK zeroV s)
    (key : K) :
    ∃ p U c0, find less s key = .ok (p, U) ∧ chain s 0 = .ok c0 ∧
      p = firstNotLess less key c0 ∧
      ∀ i, i ≤ s.level → ∃ c u, chain s i = .ok c ∧ U[i]? = some (some u) ∧
        u = lastLess less key c ∧ getForward s u i = .ok (firstNotLess less key c) := by
  obtain ⟨L, hL, hs, _⟩ := reachable_sorted hw hr
  obtain ⟨A, B, U, hf⟩ := find_res less key hL
  obtain ⟨hA, hB⟩ := hf.sorted_split hL hw hs
  have hsplit := hf.split
  have hlev := hL.level_le
  have hAk : ∀ i, ∀ c ∈ A.filter (fun c => c.vis i), less (shown s c).2.key key = true := by
    intro i c hc
    have hm := List.mem_of_mem_filter hc
    rw [(hL.shown_fields (by rw [hsplit]; simp [hm])).2.2.2.1]
    exact hA c hm
  have hBk : ∀ i, ∀ c ∈ B.filter (fun c => c.vis i), less (shown s c).2.key key = false := by
    intro i c hc
    have hm := List.mem_of_mem_filter hc
    rw [(hL.shown_fields (by rw [hsplit]; simp [hm])).2.2.2.1]
    exact hB c hm
  have hchain : ∀ i, i ≤ MAXL → chain s i =
      .ok ((A.filter (fun c => c.vis i) ++ B.filter (fun c => c.vis i)).map (shown s)) := by
    intro i hi
    rw [hL.chain_eq hi, hsplit, List.filter_append]
  have hfirst : ∀ i, firstNotLess less key
      ((A.filter (fun c => c.vis i) ++ B.filter (fun c => c.vis i)).map (shown s)) =
        nextAt i B := by
    intro i
    rw [firstNotLess_shown less key s _ _ (hAk i) (hBk i), nextAt_eq_head_filter]
  refine ⟨nextAt 0 B, U, _, hf.find_eq, hchain 0 (Nat.zero_le _), (hfirst 0).symm, ?_⟩
  intro i hi
  obtain ⟨u, hu1, hu2⟩ := hf.upd i hi
  have hR : Rep s ((headCell s :: A) ++ B) := by
    have := hL.repr; rw [hsplit] at this; simpa using this
  refine ⟨_, u, hchain i (by omega), hu1, ?_, ?_⟩
  · rw [lastLess_shown less key s _ _ (hAk i) (hBk i)]
    exact LastVis_eq_last rfl hu2
  · rw [hfirst i]
    exact LastVis_forward hR hu2

/-- C12 for the key 4 in the state after the third block of `main`. -/
theorem C12_find_postcondition_witness :
    ∃ p U c0, find Less mainDefault 4 = .ok (p, U) ∧ chain mainDefault 0 = .ok c0 ∧
      p = firstNotLess Less 4 c0 ∧
      ∀ i, i ≤ mainDefault.level → ∃ c u, chain mainDefault i = .ok c ∧
        U[i]? = some (some u) ∧ u = lastLess Less 4 c ∧
        getForward mainDefault u i = .ok (firstNotLess Less 4 c) :=
  C12_find_postcondition Less_swo mainDefault_reachable 4

/-- C13: in every state reachable under the default ordering on integer keys, for every key `k`
with `count(k)` true, `insert(k, v)` returns without drawing a level, and the state afterwards
is the state before with the value of the one node holding `k` set to `v`: no node is
allocated, `length`, `level`, the sentinels and every other node, with all `forward` links, are
as before; the iteration is the one before with `v` under `k`. -/
theorem C13_duplicate_insert {zeroV : V} {s : skip_list Int V}
    (hr : Reachable Less 0 zeroV s) (k : Int) (v : V) (draws : List Nat)
    (hc : count Less s k = .ok true) :
    ∃ id pn l1 v0 l2, deref s (Ptr.node id) = .ok pn ∧ pn.key = k ∧
      insert Less s k v draws =
        .ok ({ s with heap := s.heap.set id (some { pn with value := v }) }, draws) ∧
      toList s = .ok (l1 ++ (k, v0) :: l2) ∧
      toList { s with heap := s.heap.set id (some { pn with value := v }) } =
        .ok (l1 ++ (k, v) :: l2) := by
  obtain ⟨L, hL⟩ := reachable_inv hr
  obtain ⟨A, B, U, hf⟩ := find_res Less k hL
  rw [count_spec hL hf] at hc
  simp only [Except.ok.injEq] at hc
  cases B with
  | nil => simp [countCells] at hc
  | cons b B1 =>
    simp only [countCells, decide_eq_true_eq] at hc
    have hsplit := hf.split
    have hbL : b ∈ L := by rw [hsplit]; simp
    obtain ⟨⟨id, hid⟩, hb0, _⟩ := hL.real b hbL
    obtain ⟨s2, g1, g2, _⟩ := insert_hit_node hL hf hc.symm v draws
    have hR : Rep s ((headCell s :: A) ++ b :: B1) := by
      have := hL.repr; rw [hsplit] at this; simpa using this
    obtain ⟨n, h1, _, h3, _⟩ := Rep_split hR
    rw [hid] at h1
    have hn : nextAt 0 (b :: B1) = Ptr.node id := by
      rw [nextAt_cons_vis _ (by simp [Cell.vis, hb0]), hid]
    have hheap : s.heap[id]? = some (some n) := by
      simp only [deref] at h1
      split at h1
      · rename_i m hm
        simp only [Except.ok.injEq] at h1
        rw [hm, h1]
      · cases h1
    have hins : insert Less s k v draws =
        .ok ({ s with heap := s.heap.set id (some { n with value := v }) }, draws) := by
      simp only [insert, hf.find_eq, hn, h1]
      rw [if_pos (h3.trans hc.symm)]
      simp [store, hheap]
    rw [g1] at hins
    simp only [Except.ok.injEq, Prod.mk.injEq, and_true] at hins
    subst hins
    refine ⟨id, n, entries A, b.val, entries B1, h1, h3.trans hc.symm, g1, ?_, ?_⟩
    · rw [hL.toList_eq, hsplit]; simp [entries, hc]
    · rw [g2.toList_eq]; simp [entries, hc]

/-- C13 for `insert(4, 9)` in the state after the third block of `main`. -/
theorem C13_duplicate_insert_witness :
    ∃ id pn l1 v0 l2, deref mainDefault (Ptr.node id) = .ok pn ∧ pn.key = 4 ∧
      insert Less mainDefault 4 9 [65535] =
        .ok ({ mainDefault with heap := mainDefault.heap.set id (some { pn with value := 9 }) },
          [65535]) ∧
      toList mainDefault = .ok (l1 ++ (4, v0) :: l2) ∧
      toList { mainDefault with
          heap := mainDefault.heap.set id (some { pn with value := 9 }) } =
        .ok (l1 ++ (4, 9) :: l2) :=
  C13_duplicate_insert mainDefault_reachable 4 9 [65535] rfl

/-- C18: in every reachable state `level` is at most `MAXL`, the `forward` array of `head` has
`MAXL + 1` slots, and every node of the level-0 chain has a `level` field at most `level` and
`level + 1` slots in `forward`; the internal `find` returns with all `MAXL + 1` slots of
`update` in place and the slots 0 to `level` written; `insert` never ends in undefined
behaviour, and `erase` only where `find` returns the sentinel `tail` for the placeholder key,
which is no index into `update`, into `head->forward` or into the array of a real node. -/
theorem C18_index_bounds {less : K → K → Bool} [DecidableEq K] {zeroK : K} {zeroV : V}
    {s : skip_list K V} (hr : Reachable less zeroK zeroV s) :
    s.level ≤ MAXL ∧ s.head.forward.length = MAXL + 1 ∧
      (∃ c, chain s 0 = .ok c ∧
        ∀ e ∈ c, e.2.level ≤ s.level ∧ e.2.forward.length = e.2.level + 1) ∧
      (∀ key, ∃ p U, find less s key = .ok (p, U) ∧ U.length = MAXL + 1 ∧
        ∀ i, i ≤ s.level → ∃ u, U[i]? = some (some u)) ∧
      (∀ key value draws, insert less s key value draws ≠ .error Fault.fault) ∧
      (∀ key, erase less s key = .error Fault.fault →
        key = zeroK ∧ ∃ U, find less s key = .ok (Ptr.tail, U)) := by
  obtain ⟨L, hL⟩ := reachable_inv hr
  refine ⟨hL.level_le, ?_, ?_, ?_, fun key value draws => insert_no_fault hL key value draws,
    fun key he => erase_fault_tail hL he⟩
  · obtain ⟨n, h1, _, _, _, h5, _⟩ := hL.repr.1
    simp only [headCell, deref, Except.ok.injEq] at h1 h5
    rw [h1]; exact h5
  · refine ⟨_, hL.chain_eq (Nat.zero_le _), ?_⟩
    intro e he
    obtain ⟨c, hc, rfl⟩ := List.mem_map.mp he
    have hcL := List.mem_of_mem_filter hc
    obtain ⟨_, _, f3, _, _, f6⟩ := hL.shown_fields hcL
    rw [f6, f3]
    exact ⟨(hL.real c hcL).2.2, rfl⟩
  · intro key
    obtain ⟨A, B, U, hf⟩ := find_res less key hL
    refine ⟨_, U, hf.find_eq, hf.len, ?_⟩
    intro i hi
    obtain ⟨u, hu, _⟩ := hf.upd i hi
    exact ⟨u, hu⟩

/-- C18 in the state after the first block of `main`. -/
theorem C18_index_bounds_witness :
    mainLength.level ≤ MAXL ∧ mainLength.head.forward.length = MAXL + 1 ∧
      (∃ c, chain mainLength 0 = .ok c ∧
        ∀ e ∈ c, e.2.level ≤ mainLength.level ∧ e.2.forward.length = e.2.level + 1) ∧
      (∀ key, ∃ p U, find cmpLength mainLength key = .ok (p, U) ∧ U.length = MAXL + 1 ∧
        ∀ i, i ≤ mainLength.level → ∃ u, U[i]? = some (some u)) ∧
      (∀ key value draws, insert cmpLength mainLength key value draws ≠ .error Fault.fault) ∧
      (∀ key, erase cmpLength mainLength key = .error Fault.fault →
        key = zeroString ∧ ∃ U, find cmpLength mainLength key = .ok (Ptr.tail, U)) :=
  C18_index_bounds mainLength_reachable

end SkipList
